import Mathlib

/-!
SK model phase-space scan (`skmodel.c`): embedding and verified properties.

The program is embedded function by function.  Real (`double`) quantities are
exact rationals, with one exception: the two array sizes are integers obtained
by rounding a `double` expression, so that expression is evaluated with the
rounding of IEEE 754 binary64 arithmetic (`toDouble`).  C `int` / `long long`
quantities are integers (the only values stored in them by the program are
spins, spin sums and loop indices), arrays are functions from the flat index
to the stored value, and the two random generators are streams indexed by the
number of calls made so far.
An array access whose index is not produced by a bounded loop counter (the
random site `k` of `sweep`) is checked: the embedding returns `none` when it
falls outside the array.
The result files are entries of numbers for a single run of the scan; for two
processes working on the same cell they are also given as the characters the
file holds, with `fopen(fname,"w")` emptying the file and `fclose` writing the
printed line from the start of the stream.
-/

namespace SKModel

/-! ## Loops -/

/-- State after the loop `for (i = 0; i < n; i++) body(i)` started in `init`. -/
def forUpTo {σ : Type} (n : Nat) (body : Nat → σ → σ) (init : σ) : σ :=
  match n with
  | 0 => init
  | k + 1 => body k (forUpTo k body init)

/-- State after the loop `for (j = lo; j < hi; j++) body(j)` started in `init`. -/
def forFromTo {σ : Type} (lo hi : Nat) (body : Nat → σ → σ) (init : σ) : σ :=
  forUpTo (hi - lo) (fun d => body (lo + d)) init

/-- Loop `for (i = 0; i < n; i++) body(i)` whose body can fail. -/
def forUpToM {σ : Type} (n : Nat) (body : Nat → σ → Option σ) (init : σ) : Option σ :=
  match n with
  | 0 => some init
  | k + 1 => (forUpToM k body init).bind (body k)

/-! ## Compile-time parameters and external functions -/

/-- The `#define` block: sizes and the two parameter ranges. -/
structure Params where
  N : Nat
  tdim : Nat
  conf_num : Nat
  thermal : Nat
  mu_min : ℚ
  mu_max : ℚ
  mu_step : ℚ
  sd_min : ℚ
  sd_max : ℚ
  sd_step : ℚ

/-- Library functions the program calls: `genrand_real2 n` is the value
returned by the `n`-th call of the Mersenne Twister (`randnum`),
`gsl_ran_gaussian_ziggurat n sigma` the value returned by the `n`-th call of
the GSL Gaussian sampler when called with scale `sigma`, and `exp` is the
`math.h` exponential. -/
structure Extern where
  genrand_real2 : Nat → ℚ
  gsl_ran_gaussian_ziggurat : Nat → ℚ → ℚ
  exp : ℚ → ℚ

/-- Contract of `randnum`: every value lies in `[0,1)`. -/
def UniformStream (X : Extern) : Prop :=
  ∀ n, 0 ≤ X.genrand_real2 n ∧ X.genrand_real2 n < 1

/-- A smallest instance: one spin, one column, one configuration, no
equilibration sweep, and a grid of the single cell `mu = 0`, `sd = 0`. -/
def tinyParams : Params :=
  { N := 1, tdim := 1, conf_num := 1, thermal := 0,
    mu_min := 0, mu_max := 0, mu_step := 1, sd_min := 0, sd_max := 0, sd_step := 1 }

/-- Library functions for the instances: the uniform generator always returns
`0`, the Gaussian sampler always returns `0`, `exp` is replaced by the constant `1`. -/
def zeroExtern : Extern :=
  { genrand_real2 := fun _ => 0, gsl_ran_gaussian_ziggurat := fun _ _ => 0, exp := fun _ => 1 }

/-! ## Array serialisations (the three macros) -/

/-- Macro `SSArr(SS,i,j)`, the cell `SS[tdim*i + j]`. -/
def SSArr (tdim : Nat) (SS : Nat → ℤ) (i j : Nat) : ℤ := SS (tdim * i + j)

/-- Macro `JArr(J,i,j)`, the cell `J[N*i + j]`. -/
def JArr (N : Nat) (J : Nat → ℚ) (i j : Nat) : ℚ := J (N * i + j)

/-- Macro `CovArr(var,i,j)`, the cell `var[N*i + j]`. -/
def CovArr (N : Nat) (var : Nat → ℚ) (i j : Nat) : ℚ := var (N * i + j)

/-! ## Parameter arrays -/

/-- C library `round`: nearest integer, halves away from zero. -/
def round (x : ℚ) : ℤ := if 0 ≤ x then ⌊x + 1 / 2⌋ else ⌈x - 1 / 2⌉

/-- Conversion of a `double` to `int`: truncation toward zero. -/
def truncToInt (x : ℚ) : ℤ := Int.tdiv x.num x.den

/-- Nearest integer, a tie going to the even one: the rounding direction of
IEEE 754 arithmetic. -/
def roundHalfEven (x : ℚ) : ℤ :=
  if x - ⌊x⌋ < 1 / 2 then ⌊x⌋
  else if 1 / 2 < x - ⌊x⌋ then ⌊x⌋ + 1
  else if ⌊x⌋ % 2 = 0 then ⌊x⌋ else ⌊x⌋ + 1

/-- Exponent of the spacing of the binary64 numbers around `x`: 53 significant
bits, `floor(log2 |x|) - 52`, with the exponent of `x` not below `-1022`
(gradual underflow). -/
def ulpExponent (x : ℚ) : ℤ := max (Int.log 2 |x|) (-1022) - 52

/-- Value held by a `double` for the real number `x` (a decimal constant or the
exact result of one arithmetic operation): IEEE 754 binary64, round to nearest,
ties to even.  Overflow to infinity is not represented. -/
def toDouble (x : ℚ) : ℚ := (roundHalfEven (x / 2 ^ ulpExponent x) : ℚ) * 2 ^ ulpExponent x

/-- The `double` value of `(max - min) / step`: three constants, one
subtraction and one division, each rounded. -/
def doubleQuotient (min max step : ℚ) : ℚ :=
  toDouble (toDouble (toDouble max - toDouble min) / toDouble step)

/-- Array size `(int)round((max - min) / step + 1)`, the argument of `round`
being computed in `double`. -/
def arraySize (min max step : ℚ) : ℤ :=
  truncToInt (round (toDouble (doubleQuotient min max step + 1)))

/-- Loop `for (i = 0; i < size; i++) arr[i] = (min + i*step)` filling a
freshly allocated parameter array whose initial contents are `arr0`. -/
def paramArray (min step : ℚ) (size : ℤ) (arr0 : Nat → ℚ) : Nat → ℚ :=
  forUpTo size.toNat (fun i arr => Function.update arr i (min + (i : ℚ) * step)) arr0

/-- Variable `mu_size` of `main`. -/
def mu_size (P : Params) : ℤ := arraySize P.mu_min P.mu_max P.mu_step

/-- Variable `sd_size` of `main`. -/
def sd_size (P : Params) : ℤ := arraySize P.sd_min P.sd_max P.sd_step

/-! ## Metropolis sweep -/

/-- The spin array `s` together with the number of `randnum` calls made. -/
structure Spins where
  s : Nat → ℤ
  calls : Nat

/-- Loop `Heff=0; for(j<N) Heff += JArr(J,k,j)*s[j]`. -/
def effectiveField (N : Nat) (J : Nat → ℚ) (s : Nat → ℤ) (k : Nat) : ℚ :=
  forUpTo N (fun j Heff => Heff + JArr N J k j * (s j : ℚ)) 0

/-- Quantity `delta = s[k]*(Heff)`. -/
def deltaE (N : Nat) (J : Nat → ℚ) (s : Nat → ℤ) (k : Nat) : ℚ :=
  (s k : ℚ) * effectiveField N J s k

/-- Site `k = N*randnum()` as the C `int` it is stored in. -/
def chosenSite (X : Extern) (N : Nat) (calls : Nat) : ℤ :=
  truncToInt ((N : ℚ) * X.genrand_real2 calls)

/-- One iteration of the loop of `sweep`: one proposed update.  Returns
`none` when the site index falls outside `0 .. N-1`. -/
def proposedUpdate (X : Extern) (N : Nat) (J : Nat → ℚ) (st : Spins) : Option Spins :=
  let kz := chosenSite X N st.calls
  if 0 ≤ kz ∧ kz < (N : ℤ) then
    let k := kz.toNat
    let delta := deltaE N J st.s k
    if delta ≤ 0 then
      some { s := Function.update st.s k (-(st.s k)), calls := st.calls + 1 }
    else if X.genrand_real2 (st.calls + 1) < X.exp (-2 * delta) then
      some { s := Function.update st.s k (-(st.s k)), calls := st.calls + 2 }
    else
      some { s := st.s, calls := st.calls + 2 }
  else none

/-- Function `sweep`: `N` proposed updates. -/
def sweep (X : Extern) (N : Nat) (J : Nat → ℚ) (st : Spins) : Option Spins :=
  forUpToM N (fun _ => proposedUpdate X N J) st

/-- State after `n` successive calls of `sweep`. -/
def sweeps (X : Extern) (N : Nat) (J : Nat → ℚ) (n : Nat) (st : Spins) : Option Spins :=
  forUpToM n (fun _ => sweep X N J) st

/-! ## Interaction array -/

/-- The coupling array `J` together with the number of Gaussian draws made. -/
structure Couplings where
  J : Nat → ℚ
  draws : Nat

/-- Body of the double loop filling `J`: the three assignments for one `(i, j)`. -/
def fillEntry (X : Extern) (N : Nat) (mu sd : ℚ) (i j : Nat) (c : Couplings) : Couplings :=
  let J1 := Function.update c.J (N * i + j) (mu + X.gsl_ran_gaussian_ziggurat c.draws sd)
  let J2 := Function.update J1 (N * j + i) (J1 (N * i + j))
  let J3 := Function.update J2 (N * i + i) 0
  { J := J3, draws := c.draws + 1 }

/-- Row `i` of the fill: `for (j = i; j < N; j++)`. -/
def fillRow (X : Extern) (N : Nat) (mu sd : ℚ) (i : Nat) (c : Couplings) : Couplings :=
  forFromTo i N (fun j => fillEntry X N mu sd i j) c

/-- The interaction-array fill of one configuration. -/
def fillInteractions (X : Extern) (N : Nat) (mu sd : ℚ) (c : Couplings) : Couplings :=
  forUpTo N (fun i => fillRow X N mu sd i) c

/-! ## Sampling -/

/-- Spin array, generator position and the spin series array `SS`. -/
structure Sampling where
  spins : Spins
  SS : Nat → ℤ

/-- Loop `for (i<N) SSArr(SS,i,j)=s[i]` copying the spins into column `j`. -/
def recordColumn (N tdim : Nat) (s : Nat → ℤ) (j : Nat) (SS : Nat → ℤ) : Nat → ℤ :=
  forUpTo N (fun i SS => Function.update SS (tdim * i + j) (s i)) SS

/-- One iteration of the sampling loop: a sweep, then the copy into column `j`. -/
def sampleColumn (X : Extern) (N tdim : Nat) (J : Nat → ℚ) (j : Nat) (st : Sampling) :
    Option Sampling :=
  (sweep X N J st.spins).map (fun sp => { spins := sp, SS := recordColumn N tdim sp.s j st.SS })

/-- The sampling loop `for (j<tdim) { sweep(); ... }`. -/
def sampling (X : Extern) (N tdim : Nat) (J : Nat → ℚ) (st : Sampling) : Option Sampling :=
  forUpToM tdim (sampleColumn X N tdim J) st

/-! ## Per-configuration statistics -/

/-- Inner loop `aux=0; for (t<tdim) aux += SSArr(SS,i,t)`. -/
def timeSum (tdim : Nat) (SS : Nat → ℤ) (i : Nat) : ℚ :=
  forUpTo tdim (fun t aux => aux + (SSArr tdim SS i t : ℚ)) 0

/-- The locals `mag` and `sgop`. -/
structure MagSgop where
  mag : ℚ
  sgop : ℚ

/-- Loop over the sites computing `mag` and `sgop` of one configuration. -/
def magSgop (N tdim : Nat) (SS : Nat → ℤ) : MagSgop :=
  forUpTo N (fun i a =>
    let aux := timeSum tdim SS i
    { mag := a.mag + aux, sgop := a.sgop + aux * aux }) { mag := 0, sgop := 0 }

/-- The `long long` locals of `cov`. -/
structure CovSums where
  P : ℤ
  Qk : ℤ
  Ql : ℤ

/-- Loop of `cov` over the `tdim` columns. -/
def covSums (tdim : Nat) (A : Nat → ℤ) (k l : Nat) : CovSums :=
  forUpTo tdim (fun t a =>
    { P := a.P + SSArr tdim A k t * SSArr tdim A l t,
      Qk := a.Qk + SSArr tdim A k t,
      Ql := a.Ql + SSArr tdim A l t }) { P := 0, Qk := 0, Ql := 0 }

/-- Function `cov`: `R = P/(1.0*tdim) - Qk * Ql/(1.0*tdim*tdim)`. -/
def cov (tdim : Nat) (A : Nat → ℤ) (k l : Nat) : ℚ :=
  let a := covSums tdim A k l
  (a.P : ℚ) / (1 * (tdim : ℚ)) - ((a.Qk * a.Ql : ℤ) : ℚ) / (1 * (tdim : ℚ) * (tdim : ℚ))

/-- The covariance accumulators `SumC` and `ProdC`. -/
structure CovAcc where
  SumC : Nat → ℚ
  ProdC : Nat → ℚ

/-- Body of the covariance double loop for one `(i, j)`. -/
def covEntry (N tdim : Nat) (SS : Nat → ℤ) (i j : Nat) (a : CovAcc) : CovAcc :=
  let cov_ij := cov tdim SS i j
  let SumC1 := Function.update a.SumC (N * i + j) (a.SumC (N * i + j) + cov_ij)
  let SumC2 := Function.update SumC1 (N * j + i) (SumC1 (N * i + j))
  let ProdC1 := Function.update a.ProdC (N * i + j) (a.ProdC (N * i + j) + cov_ij * cov_ij)
  let ProdC2 := Function.update ProdC1 (N * j + i) (ProdC1 (N * i + j))
  { SumC := SumC2, ProdC := ProdC2 }

/-- The covariance double loop `for (i<N) for (j=i; j<N)`. -/
def covAccumulate (N tdim : Nat) (SS : Nat → ℤ) (a : CovAcc) : CovAcc :=
  forUpTo N (fun i => forFromTo i N (fun j => covEntry N tdim SS i j)) a

/-- Double loop `E=0; for (i<N) for (j=i; j<N) E -= JArr(J,i,j)*SSArr(SS,i,t)*SSArr(SS,j,t)`. -/
def energy (N tdim : Nat) (J : Nat → ℚ) (SS : Nat → ℤ) (t : Nat) : ℚ :=
  forUpTo N (fun i => forFromTo i N (fun j E =>
    E - JArr N J i j * (SSArr tdim SS i t : ℚ) * (SSArr tdim SS j t : ℚ))) 0

/-- The locals `sumE` and `sumE2`. -/
structure EnergySums where
  sumE : ℚ
  sumE2 : ℚ

/-- Loop `for (t=1; t<tdim; t++)` of the specific-heat block. -/
def energySums (N tdim : Nat) (J : Nat → ℚ) (SS : Nat → ℤ) : EnergySums :=
  forFromTo 1 tdim (fun t a =>
    let E := energy N tdim J SS t
    { sumE := a.sumE + E, sumE2 := a.sumE2 + E * E }) { sumE := 0, sumE2 := 0 }

/-! ## One grid cell -/

/-- The arrays of `main` and the positions of the two generators. -/
structure Mem where
  spins : Spins
  SS : Nat → ℤ
  coup : Couplings
  acc : CovAcc
  m : Nat → ℚ
  q : Nat → ℚ
  Xuni : Nat → ℚ
  Xsg : Nat → ℚ
  c : Nat → ℚ

/-- State of the computation of one cell: the arrays and the two locals
`ProdSumE`, `SumProdE`. -/
structure Cell where
  mem : Mem
  ProdSumE : ℚ
  SumProdE : ℚ

/-- Call `memset(arr, 0, n*sizeof(*arr))`. -/
def memsetZero (n : Nat) (arr : Nat → ℚ) : Nat → ℚ := fun i => if i < n then 0 else arr i

/-- Start of a cell: initial condition, reset of the covariance arrays and of
the specific-heat variables. -/
def cellInit (P : Params) (mem : Mem) : Cell :=
  { mem := { mem with
      spins := { s := forUpTo P.N (fun i s => Function.update s i 1) mem.spins.s,
                 calls := mem.spins.calls }
      acc := { SumC := memsetZero (P.N * P.N) mem.acc.SumC,
               ProdC := memsetZero (P.N * P.N) mem.acc.ProdC } },
    ProdSumE := 0,
    SumProdE := 0 }

/-- Body of the configuration loop for the cell with parameters `mu`, `sd`
whose results live in slot `slot` of the observable arrays. -/
def confBody (P : Params) (X : Extern) (mu sd : ℚ) (slot : Nat) (c : Cell) : Option Cell :=
  let coup := fillInteractions X P.N mu sd c.mem.coup
  (sweeps X P.N coup.J P.thermal c.mem.spins).bind fun sp =>
  (sampling X P.N P.tdim coup.J { spins := sp, SS := c.mem.SS }).bind fun smp =>
  let ms := magSgop P.N P.tdim smp.SS
  let es := energySums P.N P.tdim coup.J smp.SS
  some
    { mem := { c.mem with
        spins := smp.spins
        SS := smp.SS
        coup := coup
        acc := covAccumulate P.N P.tdim smp.SS c.mem.acc
        m := Function.update c.mem.m slot (c.mem.m slot + ms.mag)
        q := Function.update c.mem.q slot (c.mem.q slot + ms.sgop) },
      ProdSumE := c.ProdSumE + es.sumE * es.sumE,
      SumProdE := c.SumProdE + es.sumE2 }

/-- State after the first `D` iterations of the configuration loop. -/
def confLoop (P : Params) (X : Extern) (mu sd : ℚ) (slot : Nat) (D : Nat) (c : Cell) :
    Option Cell :=
  forUpToM D (fun _ => confBody P X mu sd slot) c

/-- The accumulators `Xuni[slot]`, `Xsg[slot]` during the loop over `NN = N*N`. -/
structure Suscept where
  Xuni : Nat → ℚ
  Xsg : Nat → ℚ

/-- Loop `for (i<NN) { Xuni[slot] += SumC[i]; Xsg[slot] += ProdC[i]; }`. -/
def susceptSums (NN slot : Nat) (acc : CovAcc) (x : Suscept) : Suscept :=
  forUpTo NN (fun i x =>
    { Xuni := Function.update x.Xuni slot (x.Xuni slot + acc.SumC i),
      Xsg := Function.update x.Xsg slot (x.Xsg slot + acc.ProdC i) }) x

/-- Finalisation of the five observables of a cell after its configuration loop. -/
def finalize (P : Params) (slot : Nat) (c : Cell) : Mem :=
  let N : ℚ := P.N
  let tdim : ℚ := P.tdim
  let conf_num : ℚ := P.conf_num
  let m1 := Function.update c.mem.m slot |c.mem.m slot / (1 * N * tdim * conf_num)|
  let q1 := Function.update c.mem.q slot (c.mem.q slot / (1 * N * tdim * tdim * conf_num))
  let x := susceptSums (P.N * P.N) slot c.mem.acc { Xuni := c.mem.Xuni, Xsg := c.mem.Xsg }
  let Xuni1 := Function.update x.Xuni slot (x.Xuni slot / (1 * N * conf_num))
  let Xsg1 := Function.update x.Xsg slot (x.Xsg slot / (1 * N * conf_num))
  let c1 := Function.update c.mem.c slot
    ((c.SumProdE / (1 * tdim) - c.ProdSumE / (1 * tdim * tdim)) / (1 * N * conf_num))
  { c.mem with m := m1, q := q1, Xuni := Xuni1, Xsg := Xsg1, c := c1 }

/-- Index `sd_size*A + B` of cell `(A, B)` in the observable arrays. -/
def slotOf (P : Params) (A B : Nat) : Nat := (sd_size P).toNat * A + B

/-- Entry `mu[A]` of the mean-interaction array. -/
def muAt (P : Params) (mu0 : Nat → ℚ) (A : Nat) : ℚ :=
  paramArray P.mu_min P.mu_step (mu_size P) mu0 A

/-- Entry `sd[B]` of the standard-deviation array. -/
def sdAt (P : Params) (sd0 : Nat → ℚ) (B : Nat) : ℚ :=
  paramArray P.sd_min P.sd_step (sd_size P) sd0 B

/-! ## Result store and grid scan -/

/-- A result file: the list of numbers written in it (empty for a blank file). -/
abbrev Entry := List ℚ

/-- The result files `file_A_B.txt`, keyed by `(A, B)`; `none` when the file
does not exist. -/
abbrev Store := Nat → Nat → Option Entry

/-- Writing file `(A, B)` anew (`fopen(fname,"w")`, output, `fclose`). -/
def writeFile (st : Store) (A B : Nat) (e : Entry) : Store :=
  fun A1 B1 => if A1 = A ∧ B1 = B then some e else st A1 B1

/-- Removing file `(A, B)` from the store (done by the user between runs). -/
def deleteFile (st : Store) (A B : Nat) : Store :=
  fun A1 B1 => if A1 = A ∧ B1 = B then none else st A1 B1

/-- Initial contents of the arrays obtained with `malloc`. -/
structure Heap where
  mu : Nat → ℚ
  sd : Nat → ℚ
  s : Nat → ℤ
  SS : Nat → ℤ
  J : Nat → ℚ
  m : Nat → ℚ
  q : Nat → ℚ

/-- Heap whose blocks handed out for `m` and `q` hold `m0` and `q0` in every
slot, all other blocks holding zeros. -/
def staleHeap (m0 q0 : ℚ) : Heap :=
  { mu := fun _ => 0, sd := fun _ => 0, s := fun _ => 0, SS := fun _ => 0, J := fun _ => 0,
    m := fun _ => m0, q := fun _ => q0 }

/-- State of a run of `main`: the arrays, the result files, and the cells
announced on standard output (`printf("\nfile_%d_%d.txt ...")`, printed once
for every cell whose computation is started). -/
structure World where
  mem : Mem
  store : Store
  started : List (Nat × Nat)

/-- The seven numbers written in the result file of a cell. -/
def resultLine (P : Params) (h : Heap) (A B : Nat) (mem : Mem) : Entry :=
  [muAt P h.mu A, sdAt P h.sd B, mem.Xsg (A * (sd_size P).toNat + B),
   mem.Xuni (A * (sd_size P).toNat + B), mem.q (A * (sd_size P).toNat + B),
   mem.m (A * (sd_size P).toNat + B), mem.c (A * (sd_size P).toNat + B)]

/-- The computation of one cell on the arrays: initialisation, `conf_num`
configurations, finalisation. -/
def computeCell (P : Params) (X : Extern) (h : Heap) (A B : Nat) (mem : Mem) : Option Mem :=
  (confLoop P X (muAt P h.mu A) (sdAt P h.sd B) (slotOf P A B) P.conf_num (cellInit P mem)).map
    (finalize P (slotOf P A B))

/-- Body of the two grid loops for cell `(A, B)`. -/
def visitCell (P : Params) (X : Extern) (h : Heap) (A B : Nat) (w : World) : Option World :=
  if (w.store A B).isSome then
    some w
  else
    let blank := writeFile w.store A B []
    (computeCell P X h A B w.mem).map fun mem =>
      { mem := mem,
        store := writeFile blank A B (resultLine P h A B mem),
        started := w.started ++ [(A, B)] }

/-- The grid scan: loop over `A`, inside it loop over `B`. -/
def scan (P : Params) (X : Extern) (h : Heap) (w : World) : Option World :=
  forUpToM (mu_size P).toNat (fun A =>
    forUpToM (sd_size P).toNat (fun B => visitCell P X h A B)) w

/-- Arrays at the start of the grid loops: `malloc` contents from the heap,
`calloc` arrays zero, both generators at their first value. -/
def initialMem (h : Heap) : Mem :=
  { spins := { s := h.s, calls := 0 },
    SS := h.SS,
    coup := { J := h.J, draws := 0 },
    acc := { SumC := fun _ => 0, ProdC := fun _ => 0 },
    m := h.m,
    q := h.q,
    Xuni := fun _ => 0,
    Xsg := fun _ => 0,
    c := fun _ => 0 }

/-- A run of the program against the result files `store`. -/
def main (P : Params) (X : Extern) (h : Heap) (store : Store) : Option World :=
  scan P X h { mem := initialMem h, store := store, started := [] }

/-! ## Predicates and reference quantities used in the statements -/

/-- Index pairs `(i, j)` already treated when a double loop (outer index first)
is about to run its body at outer index `I`, inner index `jc`. -/
def LoopDone (I jc i j : Nat) : Prop := i < I ∨ (i = I ∧ j < jc)

/-- Invariant of the fill: every treated pair is mirrored and its row has a zero diagonal. -/
def FillInv (N I jc : Nat) (c : Couplings) : Prop :=
  ∀ i j, i ≤ j → j < N → LoopDone I jc i j →
    c.J (N * i + j) = c.J (N * j + i) ∧ c.J (N * i + i) = 0

/-- Every spin of the `N`-element array is `+1` or `-1`. -/
def IsSpinConfig (N : Nat) (s : Nat → ℤ) : Prop := ∀ i, i < N → s i = 1 ∨ s i = -1

/-- Time average of spin `i` over the `tdim` columns of a trajectory. -/
def rowMean (tdim : Nat) (SS : Nat → ℤ) (i : Nat) : ℚ :=
  (∑ t in Finset.range tdim, (SSArr tdim SS i t : ℚ)) / (tdim : ℚ)

/-- Population variance of row `i` of a trajectory: mean of the squares minus
square of the mean. -/
def rowVariance (tdim : Nat) (SS : Nat → ℤ) (i : Nat) : ℚ :=
  (∑ t in Finset.range tdim, (SSArr tdim SS i t : ℚ) ^ 2) / (tdim : ℚ) - rowMean tdim SS i ^ 2

/-- Every entry of the `N × tdim` trajectory is `+1` or `-1`. -/
def IsSpinTrajectory (N tdim : Nat) (SS : Nat → ℤ) : Prop :=
  ∀ i t, i < N → t < tdim → SSArr tdim SS i t = 1 ∨ SSArr tdim SS i t = -1

/-- Number of times site `i` is the selected site among the `n` proposed
updates that follow the first `c0` calls of `randnum`, when every update
consumes exactly one uniform. -/
def selections (X : Extern) (N c0 n i : Nat) : Nat :=
  ((Finset.range n).filter (fun m => chosenSite X N (c0 + m) = (i : ℤ))).card

/-- Every entry of the `N × N` coupling matrix is zero. -/
def IsZeroCoupling (N : Nat) (J : Nat → ℚ) : Prop := ∀ i j, i < N → j < N → JArr N J i j = 0

/-- Invariant of the fill for a property `Q` of the written values. -/
def FillAll (Q : ℚ → Prop) (N I jc : Nat) (c : Couplings) : Prop :=
  ∀ i j, i ≤ j → j < N → LoopDone I jc i j → Q (c.J (N * i + j)) ∧ Q (c.J (N * j + i))

/-- Cell `(A, B)` belongs to the grid scanned by the two loops of `main`. -/
def InGrid (P : Params) (A B : Nat) : Prop := (A : ℤ) < mu_size P ∧ (B : ℤ) < sd_size P

/-- Every cell of the grid has a result file. -/
def StoreComplete (P : Params) (st : Store) : Prop :=
  ∀ A B, InGrid P A B → (st A B).isSome = true

/-- Energy of column `t` of a trajectory as a sum over the pairs `i <= j`:
`E(t) = -(sum over i <= j of J[i][j] * s_i(t) * s_j(t))`. -/
def energyRef (N tdim : Nat) (J : Nat → ℚ) (SS : Nat → ℤ) (t : Nat) : ℚ :=
  -(∑ i in Finset.range N, ∑ j in Finset.Ico i N,
      JArr N J i j * (SSArr tdim SS i t : ℚ) * (SSArr tdim SS j t : ℚ))

/-- Sum of `E(t)` over the columns `t = 1 .. tdim-1`. -/
def sumERef (N tdim : Nat) (J : Nat → ℚ) (SS : Nat → ℤ) : ℚ :=
  ∑ t in Finset.Ico 1 tdim, energyRef N tdim J SS t

/-- Sum of `E(t)^2` over the columns `t = 1 .. tdim-1`. -/
def sumE2Ref (N tdim : Nat) (J : Nat → ℚ) (SS : Nat → ℤ) : ℚ :=
  ∑ t in Finset.Ico 1 tdim, energyRef N tdim J SS t ^ 2

/-- The sequence `cs` lists the states of the configuration loop of a cell
started in `c0`: `cs D` is the state after `D` configurations, so that the
coupling matrix and the trajectory of configuration `D` (counted from 0) are
`(cs (D+1)).mem.coup.J` and `(cs (D+1)).mem.SS`. -/
def IsConfRun (P : Params) (X : Extern) (mu sd : ℚ) (slot : Nat) (c0 : Cell)
    (cs : Nat → Cell) : Prop :=
  cs 0 = c0 ∧ ∀ D, D < P.conf_num → confBody P X mu sd slot (cs D) = some (cs (D + 1))

/-- Sum of all entries of a trajectory: over all sites `i` and columns `t`. -/
def magRef (N tdim : Nat) (SS : Nat → ℤ) : ℚ :=
  ∑ i in Finset.range N, ∑ t in Finset.range tdim, (SSArr tdim SS i t : ℚ)

/-- Sum over the sites of the square of the signed time-sum of the row. -/
def sgopRef (N tdim : Nat) (SS : Nat → ℤ) : ℚ :=
  ∑ i in Finset.range N, (∑ t in Finset.range tdim, (SSArr tdim SS i t : ℚ)) ^ 2

/-- World reached by the two grid loops just before the body for cell `(A, B)`
runs: rows `0 .. A-1` are complete, then columns `0 .. B-1` of row `A`. -/
def scanPrefix (P : Params) (X : Extern) (h : Heap) (A B : Nat) (w : World) : Option World :=
  (forUpToM A (fun A1 =>
    forUpToM (sd_size P).toNat (fun B1 => visitCell P X h A1 B1)) w).bind
    (forUpToM B (fun B1 => visitCell P X h A B1))

/-- Energy of a spin configuration `s`, each pair `i <= j` counted once:
`E(s) = -(sum over i <= j of J[i][j] * s[i] * s[j])`. -/
def configEnergy (N : Nat) (J : Nat → ℚ) (s : Nat → ℤ) : ℚ :=
  -(∑ i in Finset.range N, ∑ j in Finset.Ico i N, JArr N J i j * (s i : ℚ) * (s j : ℚ))

/-- The coupling matrix is symmetric with a zero diagonal on its `N × N` block. -/
def IsSymmetricZeroDiag (N : Nat) (J : Nat → ℚ) : Prop :=
  (∀ i j, i < N → j < N → JArr N J i j = JArr N J j i) ∧ (∀ i, i < N → JArr N J i i = 0)

/-- Position, counted from 0, of the pair `(i, j)` with `i <= j` in the order
in which the double loop of the fill visits the pairs: row by row over the
upper triangle, the diagonal pair of each row first. -/
def pairIndex (N i j : Nat) : Nat := (∑ r in Finset.range i, (N - r)) + (j - i)

/-- Invariant of the fill for the Gaussian draws: the number of draws made and
the value of every off-diagonal pair already treated. -/
def FillDraws (X : Extern) (N : Nat) (mu sd : ℚ) (d0 I jc : Nat) (c : Couplings) : Prop :=
  c.draws = d0 + pairIndex N I jc ∧
  ∀ i j, i < j → j < N → LoopDone I jc i j →
    c.J (N * i + j) = mu + X.gsl_ran_gaussian_ziggurat (d0 + pairIndex N i j) sd ∧
    c.J (N * j + i) = mu + X.gsl_ran_gaussian_ziggurat (d0 + pairIndex N i j) sd

/-- Invariant of the covariance double loop started on the accumulators `a0`:
every pair `i <= j` already treated has received its covariance (and its
square) in both mirrored cells, every other pair still holds the value of `a0`
in its upper-triangle cell. -/
def CovInv (N tdim : Nat) (SS : Nat → ℤ) (a0 : CovAcc) (I jc : Nat) (a : CovAcc) : Prop :=
  ∀ i j, i ≤ j → j < N →
    (LoopDone I jc i j →
      a.SumC (N * i + j) = a0.SumC (N * i + j) + cov tdim SS i j ∧
      a.SumC (N * j + i) = a0.SumC (N * i + j) + cov tdim SS i j ∧
      a.ProdC (N * i + j) = a0.ProdC (N * i + j) + cov tdim SS i j * cov tdim SS i j ∧
      a.ProdC (N * j + i) = a0.ProdC (N * i + j) + cov tdim SS i j * cov tdim SS i j) ∧
    (¬ LoopDone I jc i j →
      a.SumC (N * i + j) = a0.SumC (N * i + j) ∧ a.ProdC (N * i + j) = a0.ProdC (N * i + j))

/-- Total spin `M(t)`: the sum over the `N` sites of column `t` of a trajectory. -/
def totalSpin (N tdim : Nat) (SS : Nat → ℤ) (t : Nat) : ℚ :=
  ∑ i in Finset.range N, (SSArr tdim SS i t : ℚ)

/-- Population variance over the `tdim` columns of the total spin `M(t)`. -/
def totalSpinVariance (N tdim : Nat) (SS : Nat → ℤ) : ℚ :=
  (∑ t in Finset.range tdim, totalSpin N tdim SS t ^ 2) / (tdim : ℚ)
    - ((∑ t in Finset.range tdim, totalSpin N tdim SS t) / (tdim : ℚ)) ^ 2

/-- Program points of the body of the grid loops for one cell, as far as the
result store is concerned: before the `access` test, before the creation of
the blank file, before the calculations, before the file is reopened for the
results, before the seven numbers are printed and the file closed, and after
the body. -/
inductive Stage where
  | check
  | marker
  | compute
  | reopen
  | print
  | done

/-- One process inside the loop body for a cell: its program point and its own
arrays. -/
structure Proc where
  stage : Stage
  mem : Mem

/-- One step of a process in the body for cell `(A, B)` against the store
`st`: the `access` test (an existing file ends the body), the creation of the
blank file, the calculations (which touch only the process's own arrays), the
`fopen(fname,"w")` that empties the file, and the `fprintf`/`fclose` that
leaves the seven numbers in it.  Each file operation acts at once on a whole
entry. -/
def procStep (P : Params) (X : Extern) (h : Heap) (A B : Nat) (p : Proc) (st : Store) :
    Option (Proc × Store) :=
  match p.stage with
  | Stage.check =>
    if (st A B).isSome then some ({ stage := Stage.done, mem := p.mem }, st)
    else some ({ stage := Stage.marker, mem := p.mem }, st)
  | Stage.marker => some ({ stage := Stage.compute, mem := p.mem }, writeFile st A B [])
  | Stage.compute =>
    (computeCell P X h A B p.mem).map fun mem1 => ({ stage := Stage.reopen, mem := mem1 }, st)
  | Stage.reopen => some ({ stage := Stage.print, mem := p.mem }, writeFile st A B [])
  | Stage.print =>
    some ({ stage := Stage.done, mem := p.mem }, writeFile st A B (resultLine P h A B p.mem))
  | Stage.done => none

/-- Two processes running the same program on the same cell, each with its own
arrays, and the result store they share. -/
structure Race where
  p1 : Proc
  p2 : Proc
  store : Store

/-- One step of the pair: the process picked by the scheduler (`true` for the
first, `false` for the second) takes its next step. -/
def raceStep (P : Params) (X1 X2 : Extern) (h1 h2 : Heap) (A B : Nat) (first : Bool)
    (s : Race) : Option Race :=
  if first then
    (procStep P X1 h1 A B s.p1 s.store).map fun r => { p1 := r.1, p2 := s.p2, store := r.2 }
  else
    (procStep P X2 h2 A B s.p2 s.store).map fun r => { p1 := s.p1, p2 := r.1, store := r.2 }

/-- Run of the pair under a schedule, one entry per step. -/
def raceRun (P : Params) (X1 X2 : Extern) (h1 h2 : Heap) (A B : Nat) (sched : List Bool)
    (s : Race) : Option Race :=
  match sched with
  | [] => some s
  | b :: rest => (raceStep P X1 X2 h1 h2 A B b s).bind (raceRun P X1 X2 h1 h2 A B rest)

/-- Number of steps a process still has to take before it leaves the body,
once the `access` test has found the file absent. -/
def stepsLeft (g : Stage) : Nat :=
  match g with
  | Stage.check => 5
  | Stage.marker => 4
  | Stage.compute => 3
  | Stage.reopen => 2
  | Stage.print => 1
  | Stage.done => 0

/-- The arrays of a process past the `access` test: its arrays `m0` from before
the calculations until they are done, the arrays `r` they produce afterwards. -/
def ProcAt (p : Proc) (m0 r : Mem) : Prop :=
  (p.stage = Stage.marker ∧ p.mem = m0) ∨ (p.stage = Stage.compute ∧ p.mem = m0) ∨
  (p.stage = Stage.reopen ∧ p.mem = r) ∨ (p.stage = Stage.print ∧ p.mem = r) ∨
  (p.stage = Stage.done ∧ p.mem = r)

/-- Invariant of a race on cell `(A, B)` started with both processes past the
`access` test: no other entry of the store `st0` has changed, each process
holds the arrays of its program point, and once both have left the body the
entry of the cell is the result line of one of them. -/
def RaceInv (P : Params) (h1 h2 : Heap) (A B : Nat) (st0 : Store) (m1 m2 r1 r2 : Mem)
    (s : Race) : Prop :=
  (∀ A1 B1, ¬ (A1 = A ∧ B1 = B) → s.store A1 B1 = st0 A1 B1) ∧
  ProcAt s.p1 m1 r1 ∧ ProcAt s.p2 m2 r2 ∧
  (s.p1.stage = Stage.done → s.p2.stage = Stage.done →
    s.store A B = some (resultLine P h1 A B r1) ∨ s.store A B = some (resultLine P h2 A B r2))

/-! ## Result files as text, and two processes on one cell -/

/-- The six digits after the decimal point, with leading zeros. -/
def sixDigits (n : Nat) : List Char :=
  List.replicate (6 - (Nat.toDigits 10 n).length) '0' ++ Nat.toDigits 10 n

/-- Conversion `%f` of `fprintf`: sign, integer part, point, and six decimals,
the value being rounded to the nearest multiple of `10^-6`, ties to even. -/
def fmtF (x : ℚ) : List Char :=
  (if x < 0 then ['-'] else []) ++
    Nat.toDigits 10 ((roundHalfEven (|x| * 1000000)).toNat / 1000000) ++ ['.'] ++
    sixDigits ((roundHalfEven (|x| * 1000000)).toNat % 1000000)

/-- Characters printed by `fprintf(file,"%f\t%f\t%f\t%f\t%f\t%f\t%f", ...)` for
the numbers of an entry: the conversions separated by tabulations, no end of
line. -/
def resultText (e : Entry) : List Char := List.intercalate [Char.ofNat 9] (e.map fmtF)

/-- The result files as the file system holds them: the characters of
`file_A_B.txt`, `none` when no file of that name exists. -/
abbrev Disk := Nat → Nat → Option (List Char)

/-- The files of a store, each as the text printed in it. -/
def textOf (st : Store) : Disk := fun A B => (st A B).map resultText

/-- Call `fopen(fname,"w")`: the file is created, or emptied when it exists;
the stream starts at position 0 with nothing buffered. -/
def fopenW (d : Disk) (A B : Nat) : Disk :=
  fun A1 B1 => if A1 = A ∧ B1 = B then some [] else d A1 B1

/-- Characters of a file after `buf` is written from position 0 over the
characters `old`: what the file holds beyond the written part stays. -/
def overwrite (buf old : List Char) : List Char := buf ++ old.drop buf.length

/-- Call `fclose(file)` on a stream opened with `"w"` into which `buf` has been
printed: the buffered characters are written to the file from the stream's
own position 0. -/
def fcloseW (d : Disk) (A B : Nat) (buf : List Char) : Disk :=
  fun A1 B1 => if A1 = A ∧ B1 = B then (d A B).map (overwrite buf) else d A1 B1

/-- One step of a process in the body for cell `(A, B)` against the files `d`:
the `access` test (an existing file ends the body), the blank file
(`fopen(fname,"w")`, `fclose`), the calculations (which touch only the
process's own arrays), the `fopen(fname,"w")` for the results, and the
`fprintf` and `fclose` that send the line to the file. -/
def fileStep (P : Params) (X : Extern) (h : Heap) (A B : Nat) (p : Proc) (d : Disk) :
    Option (Proc × Disk) :=
  match p.stage with
  | Stage.check =>
    if (d A B).isSome then some ({ stage := Stage.done, mem := p.mem }, d)
    else some ({ stage := Stage.marker, mem := p.mem }, d)
  | Stage.marker => some ({ stage := Stage.compute, mem := p.mem }, fcloseW (fopenW d A B) A B [])
  | Stage.compute =>
    (computeCell P X h A B p.mem).map fun mem1 => ({ stage := Stage.reopen, mem := mem1 }, d)
  | Stage.reopen => some ({ stage := Stage.print, mem := p.mem }, fopenW d A B)
  | Stage.print =>
    some ({ stage := Stage.done, mem := p.mem },
      fcloseW d A B (resultText (resultLine P h A B p.mem)))
  | Stage.done => none

/-- Two processes running the same program on the same cell, each with its own
arrays, and the files they share. -/
structure FileRace where
  p1 : Proc
  p2 : Proc
  disk : Disk

/-- One step of the pair: the process picked by the scheduler (`true` for the
first, `false` for the second) takes its next step. -/
def fileRaceStep (P : Params) (X1 X2 : Extern) (h1 h2 : Heap) (A B : Nat) (first : Bool)
    (s : FileRace) : Option FileRace :=
  if first then
    (fileStep P X1 h1 A B s.p1 s.disk).map fun r => { p1 := r.1, p2 := s.p2, disk := r.2 }
  else
    (fileStep P X2 h2 A B s.p2 s.disk).map fun r => { p1 := s.p1, p2 := r.1, disk := r.2 }

/-- Run of the pair under a schedule, one entry per step. -/
def fileRaceRun (P : Params) (X1 X2 : Extern) (h1 h2 : Heap) (A B : Nat) (sched : List Bool)
    (s : FileRace) : Option FileRace :=
  match sched with
  | [] => some s
  | b :: rest => (fileRaceStep P X1 X2 h1 h2 A B b s).bind (fileRaceRun P X1 X2 h1 h2 A B rest)

/-- What a file written by two processes with lines `L1` and `L2` can hold
once a line has been sent to it: one of the lines, or one of them written
over the other. -/
def TornOrWhole (L1 L2 c : List Char) : Prop :=
  c = L1 ∨ c = L2 ∨ c = overwrite L1 L2 ∨ c = overwrite L2 L1

/-- Invariant of a race on the files, started with both processes past the
`access` test: no other file has changed, each process holds the arrays of its
program point, the file of the cell exists as soon as one process has created
it, it is empty or holds lines of the two processes, and it holds such lines
once both processes have left the body. -/
def FileRaceInv (A B : Nat) (d0 : Disk) (m1 m2 r1 r2 : Mem) (L1 L2 : List Char)
    (s : FileRace) : Prop :=
  (∀ A1 B1, ¬ (A1 = A ∧ B1 = B) → s.disk A1 B1 = d0 A1 B1) ∧
  ProcAt s.p1 m1 r1 ∧ ProcAt s.p2 m2 r2 ∧
  (∀ c, s.disk A B = some c → c = [] ∨ TornOrWhole L1 L2 c) ∧
  (s.p1.stage ≠ Stage.marker ∨ s.p2.stage ≠ Stage.marker → (s.disk A B).isSome = true) ∧
  (s.p1.stage = Stage.done → s.p2.stage = Stage.done →
    ∃ c, s.disk A B = some c ∧ TornOrWhole L1 L2 c)

/-! ## Loop lemmas -/

theorem forUpTo_inv {σ : Type} (Inv : Nat → σ → Prop) (n : Nat) (body : Nat → σ → σ)
    (init : σ) (h0 : Inv 0 init)
    (hstep : ∀ i, i < n → ∀ st, Inv i st → Inv (i + 1) (body i st)) :
    Inv n (forUpTo n body init) := by
  induction n with
  | zero => exact h0
  | succ k ih =>
    exact hstep k (Nat.lt_succ_self k) _
      (ih (fun i hi st hst => hstep i (Nat.lt_succ_of_lt hi) st hst))

theorem forFromTo_inv {σ : Type} (Inv : Nat → σ → Prop) (lo hi : Nat) (body : Nat → σ → σ)
    (init : σ) (hle : lo ≤ hi) (h0 : Inv lo init)
    (hstep : ∀ j, lo ≤ j → j < hi → ∀ st, Inv j st → Inv (j + 1) (body j st)) :
    Inv hi (forFromTo lo hi body init) := by
  have key := forUpTo_inv (fun d st => Inv (lo + d) st) (hi - lo) (fun d => body (lo + d)) init
    h0 (fun d hd st hst => hstep (lo + d) (Nat.le_add_right lo d) (by omega) st hst)
  have e : lo + (hi - lo) = hi := by omega
  simpa [forFromTo, e] using key

theorem forUpToM_inv {σ : Type} (Inv : Nat → σ → Prop) (n : Nat) (body : Nat → σ → Option σ)
    (init : σ) (h0 : Inv 0 init)
    (hstep : ∀ i, i < n → ∀ st, Inv i st → ∃ st1, body i st = some st1 ∧ Inv (i + 1) st1) :
    ∃ st1, forUpToM n body init = some st1 ∧ Inv n st1 := by
  induction n with
  | zero => exact ⟨init, rfl, h0⟩
  | succ k ih =>
    obtain ⟨st1, e1, i1⟩ := ih (fun i hi st hst => hstep i (Nat.lt_succ_of_lt hi) st hst)
    obtain ⟨st2, e2, i2⟩ := hstep k (Nat.lt_succ_self k) st1 i1
    exact ⟨st2, by simp [forUpToM, e1, e2], i2⟩

theorem forUpTo_sum (n : Nat) (f : Nat → ℚ) (a : ℚ) :
    forUpTo n (fun i acc => acc + f i) a = a + ∑ i in Finset.range n, f i := by
  induction n with
  | zero => simp [forUpTo]
  | succ k ih => simp only [forUpTo, ih, Finset.sum_range_succ]; ring

theorem flat_index_inj {N a b c d : Nat} (hb : b < N) (hd : d < N) :
    N * a + b = N * c + d ↔ a = c ∧ b = d := by
  constructor
  · intro h
    have h1 : (N * a + b) / N = (N * c + d) / N := by rw [h]
    have h2 : (N * a + b) % N = (N * c + d) % N := by rw [h]
    have hN : 0 < N := by omega
    rw [Nat.mul_add_div hN, Nat.mul_add_div hN, Nat.div_eq_of_lt hb, Nat.div_eq_of_lt hd] at h1
    rw [Nat.mul_add_mod, Nat.mul_add_mod, Nat.mod_eq_of_lt hb, Nat.mod_eq_of_lt hd] at h2
    exact ⟨by omega, h2⟩
  · rintro ⟨rfl, rfl⟩
    rfl

/-! ## Interaction array: symmetry and zero diagonal -/

theorem fillEntry_inv (X : Extern) (N : Nat) (mu sd : ℚ) (I jc : Nat) (c : Couplings)
    (hI : I ≤ jc) (hjc : jc < N) (h : FillInv N I jc c) :
    FillInv N I (jc + 1) (fillEntry X N mu sd I jc c) := by
  intro i j hij hj hd
  have hIN : I < N := by omega
  have hi : i < N := by omega
  by_cases hnew : i = I ∧ j = jc
  · obtain ⟨rfl, rfl⟩ := hnew
    simp only [fillEntry, Function.update_apply, flat_index_inj hj hi, flat_index_inj hi hj,
      flat_index_inj hi hi, flat_index_inj hj hj]
    constructor
    · by_cases e : i = j
      · subst e; simp
      · have e2 : ¬ j = i := fun h => e h.symm
        simp [e, e2]
    · simp
  · have hold : LoopDone I jc i j := by
      rcases hd with h1 | ⟨h1, h2⟩
      · exact Or.inl h1
      · exact Or.inr ⟨h1, by omega⟩
    obtain ⟨hs, hz⟩ := h i j hij hj hold
    simp only [fillEntry, Function.update_apply, flat_index_inj hj hIN, flat_index_inj hi hjc,
      flat_index_inj hi hIN, flat_index_inj hj hjc]
    rcases hold with h1 | ⟨h1, h2⟩
    · have n1 : ¬ i = I := by omega
      have n2 : ¬ i = jc := by omega
      simp [n1, n2, hs, hz]
    · subst h1
      by_cases e : j = i
      · subst e; simp
      · have n3 : ¬ j = jc := by omega
        simp [e, n3, hs, hz]

theorem fillRow_inv (X : Extern) (N : Nat) (mu sd : ℚ) (I : Nat) (c : Couplings)
    (hI : I < N) (h : FillInv N I I c) :
    FillInv N (I + 1) (I + 1) (fillRow X N mu sd I c) := by
  have key := forFromTo_inv (fun jc c => FillInv N I jc c) I N
    (fun j => fillEntry X N mu sd I j) c (Nat.le_of_lt hI) h
    (fun j hlo hhi st hst => fillEntry_inv X N mu sd I j st hlo hhi hst)
  intro i j hij hj hd
  apply key i j hij hj
  rcases hd with h1 | ⟨h1, h2⟩
  · rcases Nat.lt_succ_iff_lt_or_eq.mp h1 with h3 | h3
    · exact Or.inl h3
    · exact Or.inr ⟨h3, hj⟩
  · omega

theorem fillInteractions_inv (X : Extern) (N : Nat) (mu sd : ℚ) (c : Couplings) :
    FillInv N N N (fillInteractions X N mu sd c) := by
  apply forUpTo_inv (fun I c => FillInv N I I c) N (fun i => fillRow X N mu sd i) c
  · intro i j _ _ hd
    rcases hd with h1 | ⟨h1, h2⟩ <;> omega
  · intro I hI st hst
    exact fillRow_inv X N mu sd I st hI hst

/-- Claim C2: whatever the mean `mu`, the scale `sd`, the Gaussian deviates and
the previous contents of `J`, the matrix left by the interaction-array fill of
one configuration is symmetric (`J[i][j] = J[j][i]` for all `i, j < N`) and has
a zero diagonal (`J[i][i] = 0` for all `i < N`). -/
theorem fillInteractions_symmetric_zero_diagonal (X : Extern) (N : Nat) (mu sd : ℚ)
    (c : Couplings) :
    (∀ i j, i < N → j < N →
      JArr N (fillInteractions X N mu sd c).J i j = JArr N (fillInteractions X N mu sd c).J j i) ∧
    (∀ i, i < N → JArr N (fillInteractions X N mu sd c).J i i = 0) := by
  have key := fillInteractions_inv X N mu sd c
  refine ⟨fun i j hi hj => ?_, fun i hi => ?_⟩
  · rcases Nat.le_total i j with hij | hij
    · exact (key i j hij hj (Or.inl hi)).1
    · exact (key j i hij hi (Or.inl hj)).1.symm
  · exact (key i i (Nat.le_refl i) hi (Or.inl hi)).2

/-! ## Metropolis sweep: site range and closure -/

theorem truncToInt_of_nonneg {x : ℚ} (hx : 0 ≤ x) : truncToInt x = ⌊x⌋ := by
  unfold truncToInt
  rw [Rat.floor_def, Int.tdiv_eq_ediv (Rat.num_nonneg.mpr hx) (Int.natCast_nonneg _)]

theorem truncToInt_intCast (z : ℤ) : truncToInt (z : ℚ) = z := by
  simp [truncToInt]

theorem chosenSite_range (X : Extern) (N : Nat) (hX : UniformStream X) (hN : 0 < N) (n : Nat) :
    0 ≤ chosenSite X N n ∧ chosenSite X N n < (N : ℤ) := by
  obtain ⟨h0, h1⟩ := hX n
  have hNq : (0 : ℚ) < (N : ℚ) := by exact_mod_cast hN
  have hx : 0 ≤ (N : ℚ) * X.genrand_real2 n := mul_nonneg hNq.le h0
  unfold chosenSite
  rw [truncToInt_of_nonneg hx]
  refine ⟨Int.floor_nonneg.mpr hx, Int.floor_lt.mpr ?_⟩
  have : (N : ℚ) * X.genrand_real2 n < (N : ℚ) * 1 := mul_lt_mul_of_pos_left h1 hNq
  simpa using this

theorem isSpinConfig_flip {N : Nat} {s : Nat → ℤ} (hs : IsSpinConfig N s) (k : Nat)
    (hk : k < N) : IsSpinConfig N (Function.update s k (-(s k))) := by
  intro i hi
  by_cases e : i = k
  · subst e
    rcases hs i hk with h | h <;> simp [h]
  · simpa [Function.update_apply, e] using hs i hi

theorem proposedUpdate_closed (X : Extern) (N : Nat) (J : Nat → ℚ) (hX : UniformStream X)
    (hN : 0 < N) (st : Spins) (hs : IsSpinConfig N st.s) :
    ∃ st1, proposedUpdate X N J st = some st1 ∧ IsSpinConfig N st1.s := by
  obtain ⟨h0, h1⟩ := chosenSite_range X N hX hN st.calls
  have hk : (chosenSite X N st.calls).toNat < N := (Int.toNat_lt h0).mpr h1
  have hflip := isSpinConfig_flip hs _ hk
  unfold proposedUpdate
  simp only [h0, h1, and_self, if_true]
  split_ifs
  · exact ⟨_, rfl, hflip⟩
  · exact ⟨_, rfl, hflip⟩
  · exact ⟨_, rfl, hs⟩

theorem sweep_closed (X : Extern) (N : Nat) (J : Nat → ℚ) (hX : UniformStream X)
    (st : Spins) (hs : IsSpinConfig N st.s) :
    ∃ st1, sweep X N J st = some st1 ∧ IsSpinConfig N st1.s :=
  forUpToM_inv (fun _ (st : Spins) => IsSpinConfig N st.s) N (fun _ => proposedUpdate X N J)
    st hs (fun _ hi st1 h1 =>
      proposedUpdate_closed X N J hX (Nat.lt_of_le_of_lt (Nat.zero_le _) hi) st1 h1)

theorem sweeps_closed (X : Extern) (N : Nat) (J : Nat → ℚ) (hX : UniformStream X) (n : Nat)
    (st : Spins) (hs : IsSpinConfig N st.s) :
    ∃ st1, sweeps X N J n st = some st1 ∧ IsSpinConfig N st1.s :=
  forUpToM_inv (fun _ (st : Spins) => IsSpinConfig N st.s) n (fun _ => sweep X N J) st hs
    (fun _ _ st1 h1 => sweep_closed X N J hX st1 h1)

theorem initial_condition (N : Nat) (s0 : Nat → ℤ) :
    ∀ i, i < N → forUpTo N (fun i s => Function.update s i 1) s0 i = 1 := by
  have key := forUpTo_inv (fun n (s : Nat → ℤ) => ∀ i, i < n → s i = 1) N
    (fun i s => Function.update s i 1) s0 (fun i hi => absurd hi (Nat.not_lt_zero i))
    (fun n _ st hst i hi => by
      by_cases e : i = n
      · subst e; simp
      · simpa [Function.update_apply, e] using hst i (by omega))
  exact key

/-- Claim C3 (closure of `sweep`): for every coupling matrix, every random
stream with uniforms in `[0,1)` and every spin array whose `N` entries are all
`+1` or `-1`, any number `n` of calls of `sweep` completes and leaves every
spin in `{-1, +1}`; the initial condition of a cell (all spins set to `+1`,
whatever the array held before) is such an array. -/
theorem sweep_preserves_spin_values (P : Params) (X : Extern) (J : Nat → ℚ)
    (hX : UniformStream X) :
    (∀ (n : Nat) (st : Spins), IsSpinConfig P.N st.s →
      ∃ st1, sweeps X P.N J n st = some st1 ∧ IsSpinConfig P.N st1.s) ∧
    (∀ mem : Mem, (∀ i, i < P.N → (cellInit P mem).mem.spins.s i = 1) ∧
      IsSpinConfig P.N (cellInit P mem).mem.spins.s) := by
  refine ⟨fun n st hs => sweeps_closed X P.N J hX n st hs, fun mem => ?_⟩
  have h := initial_condition P.N mem.spins.s
  exact ⟨h, fun i hi => Or.inl (h i hi)⟩

/-! ## Covariance -/

theorem covSums_eq (tdim : Nat) (A : Nat → ℤ) (k l : Nat) :
    (covSums tdim A k l).P = ∑ t in Finset.range tdim, SSArr tdim A k t * SSArr tdim A l t ∧
    (covSums tdim A k l).Qk = ∑ t in Finset.range tdim, SSArr tdim A k t ∧
    (covSums tdim A k l).Ql = ∑ t in Finset.range tdim, SSArr tdim A l t := by
  apply forUpTo_inv (fun n (a : CovSums) =>
    a.P = ∑ t in Finset.range n, SSArr tdim A k t * SSArr tdim A l t ∧
    a.Qk = ∑ t in Finset.range n, SSArr tdim A k t ∧
    a.Ql = ∑ t in Finset.range n, SSArr tdim A l t)
  · simp
  · rintro n _ st ⟨h1, h2, h3⟩
    simp only [Finset.sum_range_succ, h1, h2, h3, and_self]

theorem cov_formula (tdim : Nat) (A : Nat → ℤ) (k l : Nat) :
    cov tdim A k l =
      (∑ t in Finset.range tdim, (SSArr tdim A k t : ℚ) * (SSArr tdim A l t : ℚ)) / (tdim : ℚ)
      - (∑ t in Finset.range tdim, (SSArr tdim A k t : ℚ))
        * (∑ t in Finset.range tdim, (SSArr tdim A l t : ℚ)) / ((tdim : ℚ) * (tdim : ℚ)) := by
  obtain ⟨h1, h2, h3⟩ := covSums_eq tdim A k l
  simp only [cov, h1, h2, h3]
  push_cast
  ring

theorem abs_sum_spins_le (n : Nat) (f : Nat → ℤ) (hf : ∀ t, t < n → f t = 1 ∨ f t = -1) :
    |∑ t in Finset.range n, (f t : ℚ)| ≤ (n : ℚ) := by
  calc |∑ t in Finset.range n, (f t : ℚ)|
      ≤ ∑ t in Finset.range n, |(f t : ℚ)| := Finset.abs_sum_le_sum_abs _ _
    _ = ∑ _t in Finset.range n, (1 : ℚ) := by
        apply Finset.sum_congr rfl
        intro t ht
        rcases hf t (Finset.mem_range.mp ht) with h | h <;> simp [h]
    _ = (n : ℚ) := by simp

theorem sum_sq_spins (n : Nat) (f : Nat → ℤ) (hf : ∀ t, t < n → f t = 1 ∨ f t = -1) :
    ∑ t in Finset.range n, (f t : ℚ) ^ 2 = (n : ℚ) := by
  calc ∑ t in Finset.range n, (f t : ℚ) ^ 2
      = ∑ _t in Finset.range n, (1 : ℚ) := by
        apply Finset.sum_congr rfl
        intro t ht
        rcases hf t (Finset.mem_range.mp ht) with h | h <;> simp [h]
    _ = (n : ℚ) := by simp

theorem rowMean_sq_le_one (tdim : Nat) (SS : Nat → ℤ) (i : Nat) (ht : 1 ≤ tdim)
    (hs : ∀ t, t < tdim → SSArr tdim SS i t = 1 ∨ SSArr tdim SS i t = -1) :
    rowMean tdim SS i ^ 2 ≤ 1 := by
  have hT : (0 : ℚ) < (tdim : ℚ) := by exact_mod_cast ht
  have hb := abs_sum_spins_le tdim (fun t => SSArr tdim SS i t) hs
  have hm : |rowMean tdim SS i| ≤ 1 := by
    unfold rowMean
    rw [abs_div, abs_of_pos hT, div_le_one hT]
    exact hb
  have := sq_le_sq' (abs_le.mp hm).1 (abs_le.mp hm).2
  simpa using this

/-- Claim C4: for a trajectory with `tdim >= 1` columns whose row `i` holds only
`+1` / `-1`, `cov(SS, i, i)` equals the population variance of row `i` (mean of
squares minus square of mean), which is `1` minus the squared time average of
spin `i`, and lies in `[0, 1]`. -/
theorem cov_diagonal_is_variance (tdim : Nat) (SS : Nat → ℤ) (i : Nat) (ht : 1 ≤ tdim)
    (hs : ∀ t, t < tdim → SSArr tdim SS i t = 1 ∨ SSArr tdim SS i t = -1) :
    cov tdim SS i i = rowVariance tdim SS i ∧
    cov tdim SS i i = 1 - rowMean tdim SS i ^ 2 ∧
    0 ≤ cov tdim SS i i ∧ cov tdim SS i i ≤ 1 := by
  have hT : (tdim : ℚ) ≠ 0 := by
    have : (0 : ℚ) < (tdim : ℚ) := by exact_mod_cast ht
    exact ne_of_gt this
  have hvar : cov tdim SS i i = rowVariance tdim SS i := by
    rw [cov_formula]
    unfold rowVariance rowMean
    have : ∀ t, (SSArr tdim SS i t : ℚ) * (SSArr tdim SS i t : ℚ) = (SSArr tdim SS i t : ℚ) ^ 2 :=
      fun t => (sq _).symm
    simp only [this]
    field_simp
    ring
  have hone : rowVariance tdim SS i = 1 - rowMean tdim SS i ^ 2 := by
    unfold rowVariance
    rw [sum_sq_spins tdim (fun t => SSArr tdim SS i t) hs, div_self hT]
  have hm := rowMean_sq_le_one tdim SS i ht hs
  have hp : 0 ≤ rowMean tdim SS i ^ 2 := sq_nonneg _
  refine ⟨hvar, hvar.trans hone, ?_, ?_⟩
  · rw [hvar, hone]; linarith
  · rw [hvar, hone]; linarith

/-! ## Parameter arrays -/

theorem round_of_nonneg {x : ℚ} (hx : 0 ≤ x) : round x = ⌊x + 1 / 2⌋ := by
  simp [round, hx]

theorem round_natCast (n : ℕ) : round (n : ℚ) = n := by
  rw [round_of_nonneg (Nat.cast_nonneg n), Int.floor_eq_iff]
  constructor <;> push_cast <;> linarith

theorem paramArray_value (min step : ℚ) (size : ℤ) (arr0 : Nat → ℚ) :
    ∀ i : Nat, (i : ℤ) < size → paramArray min step size arr0 i = min + (i : ℚ) * step := by
  have key := forUpTo_inv (fun n (arr : Nat → ℚ) => ∀ i, i < n → arr i = min + (i : ℚ) * step)
    size.toNat (fun i arr => Function.update arr i (min + (i : ℚ) * step)) arr0
    (fun i hi => absurd hi (Nat.not_lt_zero i))
    (fun n _ st hst i hi => by
      by_cases e : i = n
      · subst e; simp
      · simpa [Function.update_apply, e] using hst i (by omega))
  intro i hi
  exact key i (Int.lt_toNat.mpr hi)

/-! ## Binary64 rounding -/

theorem roundHalfEven_of_near (x : ℚ) (m : ℤ) (h : |x - m| < 1 / 2) : roundHalfEven x = m := by
  obtain ⟨h1, h2⟩ := abs_lt.mp h
  unfold roundHalfEven
  rcases le_or_lt (m : ℚ) x with hle | hlt
  · have hf : ⌊x⌋ = m := by
      rw [Int.floor_eq_iff]
      constructor <;> linarith
    rw [hf, if_pos (by linarith)]
  · have hf : ⌊x⌋ = m - 1 := by
      rw [Int.floor_eq_iff]
      push_cast
      constructor <;> linarith
    rw [hf]
    push_cast
    rw [if_neg (by linarith), if_pos (by linarith)]
    ring

theorem ulpExponent_eq (x : ℚ) (e : ℤ) (he : -1022 ≤ e) (h1 : (2 : ℚ) ^ e ≤ |x|)
    (h2 : |x| < (2 : ℚ) ^ (e + 1)) : ulpExponent x = e - 52 := by
  have hpos : 0 < |x| := lt_of_lt_of_le (by positivity) h1
  have hlog : Int.log 2 |x| = e := by
    apply le_antisymm
    · have := (Int.lt_zpow_iff_log_lt (b := 2) (by norm_num) hpos (x := e + 1)).mp
        (by exact_mod_cast h2)
      omega
    · exact (Int.zpow_le_iff_le_log (b := 2) (by norm_num) hpos).mp (by exact_mod_cast h1)
  unfold ulpExponent
  rw [hlog, max_eq_left he]

theorem toDouble_eval (x : ℚ) (e m : ℤ) (he : -1022 ≤ e) (h1 : (2 : ℚ) ^ e ≤ |x|)
    (h2 : |x| < (2 : ℚ) ^ (e + 1)) (hm : |x / 2 ^ (e - 52) - m| < 1 / 2) :
    toDouble x = (m : ℚ) * 2 ^ (e - 52) := by
  unfold toDouble
  rw [ulpExponent_eq x e he h1 h2, roundHalfEven_of_near _ m hm]

theorem toDouble_zero : toDouble 0 = 0 := by
  simp [toDouble, roundHalfEven]

theorem toDouble_one : toDouble 1 = 1 := by
  rw [toDouble_eval 1 (0) (4503599627370496) (by norm_num)
    (by rw [abs_of_pos (by norm_num)]; norm_num)
    (by rw [abs_of_pos (by norm_num)]; norm_num)
    (by rw [abs_lt]; norm_num)]
  norm_num

theorem toDouble_tenth : toDouble 0.1 = (3602879701896397 / 36028797018963968) := by
  rw [toDouble_eval 0.1 (-4) (7205759403792794) (by norm_num)
    (by rw [abs_of_pos (by norm_num)]; norm_num)
    (by rw [abs_of_pos (by norm_num)]; norm_num)
    (by rw [abs_lt]; norm_num)]
  norm_num

theorem toDouble_r95_max : toDouble 0.95 = (4278419646001971 / 4503599627370496) := by
  rw [toDouble_eval 0.95 (-1) (8556839292003942) (by norm_num)
    (by rw [abs_of_pos (by norm_num)]; norm_num)
    (by rw [abs_of_pos (by norm_num)]; norm_num)
    (by rw [abs_lt]; norm_num)]
  norm_num

theorem toDouble_r95_diff : toDouble ((4278419646001971 / 4503599627370496) - 0) = (4278419646001971 / 4503599627370496) := by
  rw [toDouble_eval ((4278419646001971 / 4503599627370496) - 0) (-1) (8556839292003942) (by norm_num)
    (by rw [abs_of_pos (by norm_num)]; norm_num)
    (by rw [abs_of_pos (by norm_num)]; norm_num)
    (by rw [abs_lt]; norm_num)]
  norm_num

theorem toDouble_r95_quot : toDouble ((4278419646001971 / 4503599627370496) / (3602879701896397 / 36028797018963968)) = (5348024557502463 / 562949953421312) := by
  rw [toDouble_eval ((4278419646001971 / 4503599627370496) / (3602879701896397 / 36028797018963968)) (3) (5348024557502463) (by norm_num)
    (by rw [abs_of_pos (by norm_num)]; norm_num)
    (by rw [abs_of_pos (by norm_num)]; norm_num)
    (by rw [abs_lt]; norm_num)]
  norm_num

theorem toDouble_r95_sum : toDouble ((5348024557502463 / 562949953421312) + 1) = (5910974510923775 / 562949953421312) := by
  rw [toDouble_eval ((5348024557502463 / 562949953421312) + 1) (3) (5910974510923775) (by norm_num)
    (by rw [abs_of_pos (by norm_num)]; norm_num)
    (by rw [abs_of_pos (by norm_num)]; norm_num)
    (by rw [abs_lt]; norm_num)]
  norm_num

theorem toDouble_r35_max : toDouble 0.35 = (3152519739159347 / 9007199254740992) := by
  rw [toDouble_eval 0.35 (-2) (6305039478318694) (by norm_num)
    (by rw [abs_of_pos (by norm_num)]; norm_num)
    (by rw [abs_of_pos (by norm_num)]; norm_num)
    (by rw [abs_lt]; norm_num)]
  norm_num

theorem toDouble_r35_diff : toDouble ((3152519739159347 / 9007199254740992) - 0) = (3152519739159347 / 9007199254740992) := by
  rw [toDouble_eval ((3152519739159347 / 9007199254740992) - 0) (-2) (6305039478318694) (by norm_num)
    (by rw [abs_of_pos (by norm_num)]; norm_num)
    (by rw [abs_of_pos (by norm_num)]; norm_num)
    (by rw [abs_lt]; norm_num)]
  norm_num

theorem toDouble_r35_quot : toDouble ((3152519739159347 / 9007199254740992) / (3602879701896397 / 36028797018963968)) = (7881299347898367 / 2251799813685248) := by
  rw [toDouble_eval ((3152519739159347 / 9007199254740992) / (3602879701896397 / 36028797018963968)) (1) (7881299347898367) (by norm_num)
    (by rw [abs_of_pos (by norm_num)]; norm_num)
    (by rw [abs_of_pos (by norm_num)]; norm_num)
    (by rw [abs_lt]; norm_num)]
  norm_num

theorem roundHalfEven_tie_up (x : ℚ) (m : ℤ) (hx : x = (m : ℚ) - 1 / 2) (hm : m % 2 = 0) :
    roundHalfEven x = m := by
  have hf : ⌊x⌋ = m - 1 := by
    rw [Int.floor_eq_iff]
    push_cast
    constructor <;> linarith
  unfold roundHalfEven
  rw [hf]
  push_cast
  rw [if_neg (by linarith), if_neg (by linarith), if_neg (by omega)]
  ring

theorem toDouble_r35_sum : toDouble ((7881299347898367 / 2251799813685248) + 1) = (9 / 2) := by
  unfold toDouble
  rw [ulpExponent_eq ((7881299347898367 / 2251799813685248) + 1) 2 (by norm_num)
    (by rw [abs_of_pos (by norm_num)]; norm_num)
    (by rw [abs_of_pos (by norm_num)]; norm_num),
    roundHalfEven_tie_up _ 5066549580791808 (by norm_num) (by norm_num)]
  norm_num

theorem doubleQuotient_r95 :
    doubleQuotient 0 0.95 0.1 = 5348024557502463 / 562949953421312 := by
  unfold doubleQuotient
  rw [toDouble_zero, toDouble_r95_max, toDouble_tenth, toDouble_r95_diff, toDouble_r95_quot]

theorem doubleQuotient_r35 :
    doubleQuotient 0 0.35 0.1 = 7881299347898367 / 2251799813685248 := by
  unfold doubleQuotient
  rw [toDouble_zero, toDouble_r35_max, toDouble_tenth, toDouble_r35_diff, toDouble_r35_quot]

/-- Sizes for two grids given by decimal constants.  For `min = 0`, `max = 0.95`,
`step = 0.1` the `double` quotient is just below `9.5` and the program's size
is `10`, where the quotient of the decimal values is `9.5` and gives `11`.  For
`min = 0`, `max = 0.35`, `step = 0.1` the `double` quotient is just below `3.5`,
the sum with `1` rounds to `4.5` and the program's size is `5`, where
`round` of the quotient, plus one, is `4`. -/
theorem arraySize_decimal_grids :
    arraySize 0 0.95 0.1 = 10 ∧
    truncToInt ((SKModel.round ((0.95 - 0) / 0.1 + 1) : ℤ) : ℚ) = 11 ∧
    arraySize 0 0.35 0.1 = 5 ∧
    SKModel.round (doubleQuotient 0 0.35 0.1) + 1 = 4 := by
  refine ⟨?_, ?_, ?_, ?_⟩
  · unfold arraySize
    rw [doubleQuotient_r95, toDouble_r95_sum]
    have h : SKModel.round (5910974510923775 / 562949953421312) = 10 := by
      rw [round_of_nonneg (by norm_num), Int.floor_eq_iff]
      norm_num
    rw [h]
    exact truncToInt_intCast 10
  · have h : SKModel.round ((0.95 - 0) / 0.1 + 1) = 11 := by
      rw [round_of_nonneg (by norm_num), Int.floor_eq_iff]
      norm_num
    rw [h]
    exact truncToInt_intCast 11
  · unfold arraySize
    rw [doubleQuotient_r35, toDouble_r35_sum]
    have h : SKModel.round (9 / 2) = 5 := by
      rw [round_of_nonneg (by norm_num), Int.floor_eq_iff]
      norm_num
    rw [h]
    exact truncToInt_intCast 5
  · rw [doubleQuotient_r35]
    have h : SKModel.round (7881299347898367 / 2251799813685248) = 3 := by
      rw [round_of_nonneg (by norm_num), Int.floor_eq_iff]
      norm_num
    rw [h]
    rfl

theorem fillEntry_all (Q : ℚ → Prop) (X : Extern) (N : Nat) (mu sd : ℚ) (h0 : Q 0)
    (hg : ∀ n, Q (mu + X.gsl_ran_gaussian_ziggurat n sd)) (I jc : Nat) (c : Couplings)
    (h : FillAll Q N I jc c) : FillAll Q N I (jc + 1) (fillEntry X N mu sd I jc c) := by
  have hval : ∀ idx, Q (c.J idx) → Q ((fillEntry X N mu sd I jc c).J idx) := by
    intro idx hq
    simp only [fillEntry, Function.update_apply]
    split_ifs <;> simp [*]
  intro i j hij hj hd
  by_cases hnew : i = I ∧ j = jc
  · obtain ⟨rfl, rfl⟩ := hnew
    constructor <;>
    · simp only [fillEntry, Function.update_apply]
      split_ifs <;> simp [*]
  · have hold : LoopDone I jc i j := by
      rcases hd with h1 | ⟨h1, h2⟩
      · exact Or.inl h1
      · exact Or.inr ⟨h1, by omega⟩
    exact ⟨hval _ (h i j hij hj hold).1, hval _ (h i j hij hj hold).2⟩

theorem fillInteractions_all (Q : ℚ → Prop) (X : Extern) (N : Nat) (mu sd : ℚ) (h0 : Q 0)
    (hg : ∀ n, Q (mu + X.gsl_ran_gaussian_ziggurat n sd)) (c : Couplings) :
    ∀ i j, i < N → j < N → Q (JArr N (fillInteractions X N mu sd c).J i j) := by
  have key : FillAll Q N N N (fillInteractions X N mu sd c) := by
    apply forUpTo_inv (fun I c => FillAll Q N I I c) N (fun i => fillRow X N mu sd i) c
    · intro i j _ _ hd
      rcases hd with h1 | ⟨h1, h2⟩ <;> omega
    · intro I hI st hst
      have row := forFromTo_inv (fun jc c => FillAll Q N I jc c) I N
        (fun j => fillEntry X N mu sd I j) st (Nat.le_of_lt hI) hst
        (fun j _ _ st1 hst1 => fillEntry_all Q X N mu sd h0 hg I j st1 hst1)
      intro i j hij hj hd
      apply row i j hij hj
      rcases hd with h1 | ⟨h1, h2⟩
      · rcases Nat.lt_succ_iff_lt_or_eq.mp h1 with h3 | h3
        · exact Or.inl h3
        · exact Or.inr ⟨h3, hj⟩
      · omega
  intro i j hi hj
  rcases Nat.le_total i j with hij | hij
  · exact (key i j hij hj (Or.inl hi)).1
  · exact (key j i hij hi (Or.inl hj)).2

theorem effectiveField_zero (N : Nat) (J : Nat → ℚ) (hJ : IsZeroCoupling N J) (s : Nat → ℤ)
    (k : Nat) (hk : k < N) : effectiveField N J s k = 0 := by
  apply forUpTo_inv (fun _ (H : ℚ) => H = 0) N (fun j Heff => Heff + JArr N J k j * (s j : ℚ))
  · rfl
  · intro j hj H hH
    simp [hH, hJ k j hk hj]

theorem proposedUpdate_zero (X : Extern) (N : Nat) (J : Nat → ℚ) (hX : UniformStream X)
    (hJ : IsZeroCoupling N J) (hN : 0 < N) (st : Spins) :
    proposedUpdate X N J st =
      some { s := Function.update st.s (chosenSite X N st.calls).toNat
                    (-(st.s (chosenSite X N st.calls).toNat)),
             calls := st.calls + 1 } := by
  obtain ⟨h0, h1⟩ := chosenSite_range X N hX hN st.calls
  have hk : (chosenSite X N st.calls).toNat < N := (Int.toNat_lt h0).mpr h1
  have hd : deltaE N J st.s (chosenSite X N st.calls).toNat = 0 := by
    simp [deltaE, effectiveField_zero N J hJ st.s _ hk]
  simp [proposedUpdate, h0, h1, hd]

theorem selections_succ (X : Extern) (N c0 n i : Nat) :
    selections X N c0 (n + 1) i =
      selections X N c0 n i + (if chosenSite X N (c0 + n) = (i : ℤ) then 1 else 0) := by
  unfold selections
  rw [Finset.range_succ, Finset.filter_insert]
  split_ifs with h
  · rw [Finset.card_insert_of_not_mem (by simp)]
  · simp

theorem sweep_zero (X : Extern) (N : Nat) (J : Nat → ℚ) (hX : UniformStream X)
    (hJ : IsZeroCoupling N J) (st : Spins) :
    ∃ st1, sweep X N J st = some st1 ∧ st1.calls = st.calls + N ∧
      ∀ i, i < N → st1.s i = st.s i * (-1) ^ selections X N st.calls N i := by
  apply forUpToM_inv (fun n (st1 : Spins) => st1.calls = st.calls + n ∧
      ∀ i, i < N → st1.s i = st.s i * (-1) ^ selections X N st.calls n i)
    N (fun _ => proposedUpdate X N J) st
  · exact ⟨rfl, fun i _ => by simp [selections]⟩
  · rintro n hn st1 ⟨hc, hs⟩
    have hN : 0 < N := Nat.lt_of_le_of_lt (Nat.zero_le _) hn
    obtain ⟨h0, h1⟩ := chosenSite_range X N hX hN st1.calls
    have hk : (chosenSite X N st1.calls).toNat < N := (Int.toNat_lt h0).mpr h1
    refine ⟨_, proposedUpdate_zero X N J hX hJ hN st1, by simp [hc]; ring, fun i hi => ?_⟩
    rw [selections_succ, ← hc]
    by_cases e : i = (chosenSite X N st1.calls).toNat
    · have e2 : chosenSite X N st1.calls = (i : ℤ) := by rw [e, Int.toNat_of_nonneg h0]
      rw [if_pos e2, ← e]
      simp only [Function.update_same]
      rw [hs i hi, pow_succ]
      ring
    · have e2 : ¬ chosenSite X N st1.calls = (i : ℤ) := by
        intro h
        apply e
        rw [h, Int.toNat_natCast]
      rw [if_neg e2]
      simp only [Function.update_apply, if_neg e, add_zero]
      exact hs i hi

/-- Claim C7 (degenerate case): with `mu = 0`, `sd = 0` and a Gaussian sampler
that returns `0` at scale `0`, the fill produces the all-zero coupling matrix;
for an all-zero coupling matrix and a random stream in `[0,1)`, every proposed
update has `Heff = 0` and `delta = 0`, flips the selected spin and draws no
acceptance uniform, so a sweep consumes exactly `N` uniforms and afterwards
spin `i` is its previous value times `(-1)` to the number of times site `i` was
selected. -/
theorem zero_coupling_sweep (X : Extern) (N : Nat) (hX : UniformStream X) :
    ((∀ n, X.gsl_ran_gaussian_ziggurat n 0 = 0) →
      ∀ c : Couplings, IsZeroCoupling N (fillInteractions X N 0 0 c).J) ∧
    (∀ J : Nat → ℚ, IsZeroCoupling N J → ∀ st : Spins,
      (∀ k, k < N → effectiveField N J st.s k = 0 ∧ deltaE N J st.s k = 0) ∧
      (0 < N → proposedUpdate X N J st =
        some { s := Function.update st.s (chosenSite X N st.calls).toNat
                      (-(st.s (chosenSite X N st.calls).toNat)),
               calls := st.calls + 1 }) ∧
      ∃ st1, sweep X N J st = some st1 ∧ st1.calls = st.calls + N ∧
        ∀ i, i < N → st1.s i = st.s i * (-1) ^ selections X N st.calls N i) := by
  refine ⟨fun hg c => ?_, fun J hJ st => ⟨fun k hk => ?_, fun hN => ?_, ?_⟩⟩
  · exact fillInteractions_all (fun x => x = 0) X N 0 0 rfl (fun n => by simp [hg n]) c
  · have h := effectiveField_zero N J hJ st.s k hk
    exact ⟨h, by simp [deltaE, h]⟩
  · exact proposedUpdate_zero X N J hX hJ hN st
  · exact sweep_zero X N J hX hJ st

/-! ## Completion of the per-cell computation -/

theorem proposedUpdate_some (X : Extern) (N : Nat) (J : Nat → ℚ) (hX : UniformStream X)
    (hN : 0 < N) (st : Spins) : ∃ st1, proposedUpdate X N J st = some st1 := by
  obtain ⟨h0, h1⟩ := chosenSite_range X N hX hN st.calls
  unfold proposedUpdate
  simp only [h0, h1, and_self, if_true]
  split_ifs <;> exact ⟨_, rfl⟩

theorem sweep_some (X : Extern) (N : Nat) (J : Nat → ℚ) (hX : UniformStream X) (st : Spins) :
    ∃ st1, sweep X N J st = some st1 := by
  obtain ⟨st1, h, _⟩ := forUpToM_inv (fun _ (_ : Spins) => True) N
    (fun _ => proposedUpdate X N J) st trivial
    (fun _ hi st1 _ => by
      obtain ⟨st2, h2⟩ := proposedUpdate_some X N J hX (Nat.lt_of_le_of_lt (Nat.zero_le _) hi) st1
      exact ⟨st2, h2, trivial⟩)
  exact ⟨st1, h⟩

theorem sweeps_some (X : Extern) (N : Nat) (J : Nat → ℚ) (hX : UniformStream X) (n : Nat)
    (st : Spins) : ∃ st1, sweeps X N J n st = some st1 := by
  obtain ⟨st1, h, _⟩ := forUpToM_inv (fun _ (_ : Spins) => True) n
    (fun _ => sweep X N J) st trivial
    (fun _ _ st1 _ => by
      obtain ⟨st2, h2⟩ := sweep_some X N J hX st1
      exact ⟨st2, h2, trivial⟩)
  exact ⟨st1, h⟩

theorem sampling_some (X : Extern) (N tdim : Nat) (J : Nat → ℚ) (hX : UniformStream X)
    (st : Sampling) : ∃ st1, sampling X N tdim J st = some st1 := by
  obtain ⟨st1, h, _⟩ := forUpToM_inv (fun _ (_ : Sampling) => True) tdim
    (sampleColumn X N tdim J) st trivial
    (fun j _ st1 _ => by
      obtain ⟨sp, h2⟩ := sweep_some X N J hX st1.spins
      refine ⟨{ spins := sp, SS := recordColumn N tdim sp.s j st1.SS }, ?_, trivial⟩
      simp [sampleColumn, h2])
  exact ⟨st1, h⟩

theorem confBody_eq (P : Params) (X : Extern) (mu sd : ℚ) (slot : Nat) (c : Cell)
    (sp : Spins) (smp : Sampling)
    (h1 : sweeps X P.N (fillInteractions X P.N mu sd c.mem.coup).J P.thermal c.mem.spins
      = some sp)
    (h2 : sampling X P.N P.tdim (fillInteractions X P.N mu sd c.mem.coup).J
      { spins := sp, SS := c.mem.SS } = some smp) :
    confBody P X mu sd slot c = some
      { mem := { c.mem with
          spins := smp.spins
          SS := smp.SS
          coup := fillInteractions X P.N mu sd c.mem.coup
          acc := covAccumulate P.N P.tdim smp.SS c.mem.acc
          m := Function.update c.mem.m slot (c.mem.m slot + (magSgop P.N P.tdim smp.SS).mag)
          q := Function.update c.mem.q slot (c.mem.q slot + (magSgop P.N P.tdim smp.SS).sgop) },
        ProdSumE := c.ProdSumE
          + (energySums P.N P.tdim (fillInteractions X P.N mu sd c.mem.coup).J smp.SS).sumE
            * (energySums P.N P.tdim (fillInteractions X P.N mu sd c.mem.coup).J smp.SS).sumE,
        SumProdE := c.SumProdE
          + (energySums P.N P.tdim (fillInteractions X P.N mu sd c.mem.coup).J smp.SS).sumE2 } := by
  simp [confBody, h1, h2]

theorem confBody_some (P : Params) (X : Extern) (mu sd : ℚ) (slot : Nat)
    (hX : UniformStream X) (c : Cell) : ∃ c1, confBody P X mu sd slot c = some c1 := by
  obtain ⟨sp, h1⟩ := sweeps_some X P.N (fillInteractions X P.N mu sd c.mem.coup).J hX
    P.thermal c.mem.spins
  obtain ⟨smp, h2⟩ := sampling_some X P.N P.tdim (fillInteractions X P.N mu sd c.mem.coup).J hX
    { spins := sp, SS := c.mem.SS }
  exact ⟨_, confBody_eq P X mu sd slot c sp smp h1 h2⟩

theorem confLoop_some (P : Params) (X : Extern) (mu sd : ℚ) (slot : Nat)
    (hX : UniformStream X) (D : Nat) (c : Cell) :
    ∃ c1, confLoop P X mu sd slot D c = some c1 := by
  obtain ⟨c1, h, _⟩ := forUpToM_inv (fun _ (_ : Cell) => True) D
    (fun _ => confBody P X mu sd slot) c trivial
    (fun _ _ c1 _ => by
      obtain ⟨c2, h2⟩ := confBody_some P X mu sd slot hX c1
      exact ⟨c2, h2, trivial⟩)
  exact ⟨c1, h⟩

theorem computeCell_some (P : Params) (X : Extern) (h : Heap) (A B : Nat)
    (hX : UniformStream X) (mem : Mem) : ∃ mem1, computeCell P X h A B mem = some mem1 := by
  obtain ⟨c1, h1⟩ := confLoop_some P X (muAt P h.mu A) (sdAt P h.sd B) (slotOf P A B) hX
    P.conf_num (cellInit P mem)
  exact ⟨finalize P (slotOf P A B) c1, by simp [computeCell, h1]⟩

/-! ## Grid scan -/

theorem visitCell_present (P : Params) (X : Extern) (h : Heap) (A B : Nat) (w : World)
    (hp : (w.store A B).isSome = true) : visitCell P X h A B w = some w := by
  simp [visitCell, hp]

theorem visitCell_absent (P : Params) (X : Extern) (h : Heap) (A B : Nat) (w : World)
    (hp : w.store A B = none) (mem1 : Mem) (hc : computeCell P X h A B w.mem = some mem1) :
    visitCell P X h A B w =
      some { mem := mem1,
             store := writeFile (writeFile w.store A B []) A B (resultLine P h A B mem1),
             started := w.started ++ [(A, B)] } := by
  simp [visitCell, hp, hc]

theorem scan_inv (P : Params) (X : Extern) (h : Heap) (Inv : Nat → Nat → World → Prop)
    (w0 : World) (h0 : Inv 0 0 w0)
    (hrow : ∀ A w, Inv A (sd_size P).toNat w → Inv (A + 1) 0 w)
    (hstep : ∀ A B, InGrid P A B → ∀ w, Inv A B w →
      ∃ w1, visitCell P X h A B w = some w1 ∧ Inv A (B + 1) w1) :
    ∃ w1, scan P X h w0 = some w1 ∧ Inv (mu_size P).toNat 0 w1 := by
  apply forUpToM_inv (fun A w => Inv A 0 w) (mu_size P).toNat _ w0 h0
  intro A hA w hw
  obtain ⟨w1, e1, i1⟩ := forUpToM_inv (fun B w => Inv A B w) (sd_size P).toNat
    (fun B => visitCell P X h A B) w hw
    (fun B hB w1 hw1 => hstep A B ⟨Int.lt_toNat.mp hA, Int.lt_toNat.mp hB⟩ w1 hw1)
  exact ⟨w1, e1, hrow A w1 i1⟩

theorem scan_complete_store (P : Params) (X : Extern) (h : Heap) (w : World)
    (hs : StoreComplete P w.store) : scan P X h w = some w := by
  obtain ⟨w1, e1, i1⟩ := scan_inv P X h (fun _ _ w1 => w1 = w) w rfl (fun _ _ hw => hw)
    (fun A B hg w1 hw1 => by
      subst hw1
      exact ⟨w1, visitCell_present P X h A B w1 (hs A B hg), rfl⟩)
  rw [e1, i1]

theorem scan_fills_store (P : Params) (X : Extern) (h : Heap) (hX : UniformStream X)
    (w : World) : ∃ w1, scan P X h w = some w1 ∧ StoreComplete P w1.store := by
  obtain ⟨w1, e1, i1⟩ := scan_inv P X h
    (fun Ac Bc w1 => ∀ A B, InGrid P A B → LoopDone Ac Bc A B → (w1.store A B).isSome = true)
    w (fun A B _ hd => by rcases hd with h1 | ⟨h1, h2⟩ <;> omega)
    (fun Ac w1 hw1 A B hg hd => by
      apply hw1 A B hg
      rcases hd with h1 | ⟨h1, h2⟩
      · rcases Nat.lt_succ_iff_lt_or_eq.mp h1 with h3 | h3
        · exact Or.inl h3
        · exact Or.inr ⟨h3, Int.lt_toNat.mpr hg.2⟩
      · omega)
    (fun Ac Bc _ w1 hw1 => by
      cases hp : w1.store Ac Bc with
      | some e =>
        refine ⟨w1, visitCell_present P X h Ac Bc w1 (by simp [hp]), fun A B hg hd => ?_⟩
        by_cases hnew : A = Ac ∧ B = Bc
        · obtain ⟨rfl, rfl⟩ := hnew
          simp [hp]
        · apply hw1 A B hg
          rcases hd with h1 | ⟨h1, h2⟩
          · exact Or.inl h1
          · exact Or.inr ⟨h1, by omega⟩
      | none =>
        obtain ⟨mem1, hc⟩ := computeCell_some P X h Ac Bc hX w1.mem
        refine ⟨_, visitCell_absent P X h Ac Bc w1 hp mem1 hc, fun A B hg hd => ?_⟩
        by_cases hnew : A = Ac ∧ B = Bc
        · simp [writeFile, hnew]
        · have hold : LoopDone Ac Bc A B := by
            rcases hd with h1 | ⟨h1, h2⟩
            · exact Or.inl h1
            · exact Or.inr ⟨h1, by omega⟩
          simpa [writeFile, hnew] using hw1 A B hg hold)
  exact ⟨w1, e1, fun A B hg => i1 A B hg (Or.inl (Int.lt_toNat.mpr hg.1))⟩

/-- Claim C5 (idempotence of the scan): a full scan from any initial store
completes and leaves a result file for every cell of the grid; a second full
scan against that store (whatever its random sources and heap contents)
starts no cell, makes no call to either random generator and leaves the store
exactly as it was. -/
theorem scan_idempotent (P : Params) (X X2 : Extern) (h h2 : Heap) (store : Store)
    (hX : UniformStream X) :
    ∃ w1, main P X h store = some w1 ∧ StoreComplete P w1.store ∧
      ∃ w2, main P X2 h2 w1.store = some w2 ∧ w2.started = [] ∧
        w2.mem.spins.calls = 0 ∧ w2.mem.coup.draws = 0 ∧ w2.store = w1.store := by
  obtain ⟨w1, e1, c1⟩ := scan_fills_store P X h hX
    { mem := initialMem h, store := store, started := [] }
  refine ⟨w1, e1, c1, _, scan_complete_store P X2 h2
    { mem := initialMem h2, store := w1.store, started := [] } c1, rfl, rfl, rfl, rfl⟩

theorem loopDone_row_end (P : Params) (Ac A B : Nat) (hg : InGrid P A B) :
    LoopDone (Ac + 1) 0 A B ↔ LoopDone Ac (sd_size P).toNat A B := by
  have hB : B < (sd_size P).toNat := Int.lt_toNat.mpr hg.2
  unfold LoopDone
  omega

theorem loopDone_next (Ac Bc A B : Nat) (hne : ¬ (Ac = A ∧ Bc = B)) :
    LoopDone Ac (Bc + 1) A B ↔ LoopDone Ac Bc A B := by
  unfold LoopDone
  omega

/-- Claim C6: when every cell of the grid has a result file and the file of
one grid cell `(A, B)` is deleted, the next full scan completes, starts the
computation of `(A, B)` and of no other cell, writes a new result file for
`(A, B)` (the seven numbers of that computation) and leaves the file of every
other cell unchanged. -/
theorem scan_recomputes_deleted_cell (P : Params) (X : Extern) (h : Heap) (store : Store)
    (A B : Nat) (hX : UniformStream X) (hs : StoreComplete P store) (hg : InGrid P A B) :
    ∃ mem1 w1, computeCell P X h A B (initialMem h) = some mem1 ∧
      main P X h (deleteFile store A B) = some w1 ∧
      w1.started = [(A, B)] ∧
      w1.store A B = some (resultLine P h A B mem1) ∧
      ∀ A1 B1, ¬ (A1 = A ∧ B1 = B) → w1.store A1 B1 = store A1 B1 := by
  obtain ⟨mem1, hc⟩ := computeCell_some P X h A B hX (initialMem h)
  let w0 : World := { mem := initialMem h, store := deleteFile store A B, started := [] }
  let wA : World :=
    { mem := mem1,
      store := writeFile (writeFile (deleteFile store A B) A B []) A B (resultLine P h A B mem1),
      started := [(A, B)] }
  obtain ⟨w1, e1, i1⟩ := scan_inv P X h
    (fun Ac Bc w => (LoopDone Ac Bc A B → w = wA) ∧ (¬ LoopDone Ac Bc A B → w = w0))
    w0 ⟨fun hd => by rcases hd with h1 | ⟨h1, h2⟩ <;> omega, fun _ => rfl⟩
    (fun Ac w hw => by
      beta_reduce at hw ⊢
      rw [loopDone_row_end P Ac A B hg]
      exact hw)
    (fun Ac Bc hin w hw => by
      beta_reduce at hw ⊢
      by_cases hcur : Ac = A ∧ Bc = B
      · obtain ⟨rfl, rfl⟩ := hcur
        have hw0 : w = w0 := hw.2 (by unfold LoopDone; omega)
        subst hw0
        refine ⟨wA, ?_, fun _ => rfl, fun hn => absurd (Or.inr ⟨rfl, Nat.lt_succ_self _⟩) hn⟩
        exact visitCell_absent P X h Ac Bc w0 (by simp [w0, deleteFile]) mem1 hc
      · rw [loopDone_next Ac Bc A B hcur]
        refine ⟨w, visitCell_present P X h Ac Bc w ?_, hw⟩
        by_cases hd : LoopDone Ac Bc A B
        · rw [hw.1 hd]
          simpa [wA, writeFile, deleteFile, hcur] using hs Ac Bc hin
        · rw [hw.2 hd]
          simpa [w0, deleteFile, hcur] using hs Ac Bc hin)
  have hfin : w1 = wA := i1.1 (Or.inl (Int.lt_toNat.mpr hg.1))
  refine ⟨mem1, w1, hc, e1, ?_, ?_, ?_⟩
  · rw [hfin]
  · rw [hfin]; simp [wA, writeFile]
  · intro A1 B1 hne
    rw [hfin]
    simp [wA, writeFile, deleteFile, hne]

/-! ## Energy moments and specific heat -/

theorem forUpTo_sub_sum (n : Nat) (f : Nat → ℚ) (a : ℚ) :
    forUpTo n (fun i acc => acc - f i) a = a - ∑ i in Finset.range n, f i := by
  induction n with
  | zero => simp [forUpTo]
  | succ k ih => simp only [forUpTo, ih, Finset.sum_range_succ]; ring

theorem forFromTo_sub_sum (lo hi : Nat) (f : Nat → ℚ) (a : ℚ) :
    forFromTo lo hi (fun j acc => acc - f j) a = a - ∑ j in Finset.Ico lo hi, f j := by
  unfold forFromTo
  rw [forUpTo_sub_sum (hi - lo) (fun d => f (lo + d)) a, Finset.sum_Ico_eq_sum_range]

theorem energy_eq_ref (N tdim : Nat) (J : Nat → ℚ) (SS : Nat → ℤ) (t : Nat) :
    energy N tdim J SS t = energyRef N tdim J SS t := by
  unfold energy energyRef
  have inner : ∀ i, (forFromTo i N (fun j E =>
        E - JArr N J i j * (SSArr tdim SS i t : ℚ) * (SSArr tdim SS j t : ℚ)))
      = fun E => E - ∑ j in Finset.Ico i N,
          JArr N J i j * (SSArr tdim SS i t : ℚ) * (SSArr tdim SS j t : ℚ) := by
    intro i
    funext E
    exact forFromTo_sub_sum i N _ E
  simp only [inner]
  rw [forUpTo_sub_sum]
  ring

theorem energySums_eq_ref (N tdim : Nat) (J : Nat → ℚ) (SS : Nat → ℤ) :
    (energySums N tdim J SS).sumE = sumERef N tdim J SS ∧
    (energySums N tdim J SS).sumE2 = sumE2Ref N tdim J SS := by
  unfold energySums forFromTo sumERef sumE2Ref
  rw [Finset.sum_Ico_eq_sum_range, Finset.sum_Ico_eq_sum_range]
  apply forUpTo_inv (fun n (a : EnergySums) =>
    a.sumE = ∑ k in Finset.range n, energyRef N tdim J SS (1 + k) ∧
    a.sumE2 = ∑ k in Finset.range n, energyRef N tdim J SS (1 + k) ^ 2)
  · simp
  · rintro n _ a ⟨h1, h2⟩
    simp only [Finset.sum_range_succ, h1, h2, energy_eq_ref, sq, and_self]

theorem confBody_inv (P : Params) (X : Extern) (mu sd : ℚ) (slot : Nat) (c c1 : Cell)
    (hb : confBody P X mu sd slot c = some c1) :
    c1.mem.coup = fillInteractions X P.N mu sd c.mem.coup ∧
    (∃ sp, sweeps X P.N c1.mem.coup.J P.thermal c.mem.spins = some sp ∧
      sampling X P.N P.tdim c1.mem.coup.J { spins := sp, SS := c.mem.SS }
        = some { spins := c1.mem.spins, SS := c1.mem.SS }) ∧
    c1.mem.acc = covAccumulate P.N P.tdim c1.mem.SS c.mem.acc ∧
    c1.mem.m = Function.update c.mem.m slot (c.mem.m slot + (magSgop P.N P.tdim c1.mem.SS).mag) ∧
    c1.mem.q = Function.update c.mem.q slot (c.mem.q slot + (magSgop P.N P.tdim c1.mem.SS).sgop) ∧
    c1.mem.Xuni = c.mem.Xuni ∧ c1.mem.Xsg = c.mem.Xsg ∧ c1.mem.c = c.mem.c ∧
    c1.ProdSumE = c.ProdSumE + (energySums P.N P.tdim c1.mem.coup.J c1.mem.SS).sumE
      * (energySums P.N P.tdim c1.mem.coup.J c1.mem.SS).sumE ∧
    c1.SumProdE = c.SumProdE + (energySums P.N P.tdim c1.mem.coup.J c1.mem.SS).sumE2 := by
  unfold confBody at hb
  simp only [Option.bind_eq_some] at hb
  obtain ⟨sp, h1, smp, h2, h3⟩ := hb
  have h4 := Option.some.inj h3
  subst h4
  exact ⟨rfl, ⟨sp, h1, h2⟩, rfl, rfl, rfl, rfl, rfl, rfl, rfl, rfl⟩

theorem confRun_exists (P : Params) (X : Extern) (mu sd : ℚ) (slot : Nat)
    (hX : UniformStream X) (c0 : Cell) :
    ∃ cs, IsConfRun P X mu sd slot c0 cs ∧ ∀ D, confLoop P X mu sd slot D c0 = some (cs D) := by
  have hsome : ∀ D, confLoop P X mu sd slot D c0
      = some ((confLoop P X mu sd slot D c0).getD c0) := by
    intro D
    obtain ⟨c1, h1⟩ := confLoop_some P X mu sd slot hX D c0
    simp [h1]
  refine ⟨fun D => (confLoop P X mu sd slot D c0).getD c0, ⟨rfl, fun D _ => ?_⟩, hsome⟩
  have hstep : confLoop P X mu sd slot (D + 1) c0
      = (confLoop P X mu sd slot D c0).bind (confBody P X mu sd slot) := rfl
  rw [hsome D, Option.some_bind] at hstep
  rw [← hstep]
  exact hsome (D + 1)

theorem confRun_moments (P : Params) (X : Extern) (mu sd : ℚ) (slot : Nat) (c0 : Cell)
    (cs : Nat → Cell) (hr : IsConfRun P X mu sd slot c0 cs) :
    ∀ D, D ≤ P.conf_num →
      (cs D).SumProdE = c0.SumProdE + ∑ d in Finset.range D,
        sumE2Ref P.N P.tdim (cs (d + 1)).mem.coup.J (cs (d + 1)).mem.SS ∧
      (cs D).ProdSumE = c0.ProdSumE + ∑ d in Finset.range D,
        sumERef P.N P.tdim (cs (d + 1)).mem.coup.J (cs (d + 1)).mem.SS ^ 2 := by
  intro D
  induction D with
  | zero => intro _; simp [hr.1]
  | succ k ih =>
    intro hk
    obtain ⟨i1, i2⟩ := ih (Nat.le_of_succ_le hk)
    have hb := confBody_inv P X mu sd slot (cs k) (cs (k + 1)) (hr.2 k hk)
    obtain ⟨e1, e2⟩ := energySums_eq_ref P.N P.tdim (cs (k + 1)).mem.coup.J (cs (k + 1)).mem.SS
    rw [hb.2.2.2.2.2.2.2.2.2, hb.2.2.2.2.2.2.2.2.1, e1, e2, i1, i2,
      Finset.sum_range_succ, Finset.sum_range_succ]
    constructor <;> ring

/-- Claim C10: the two energy moments are zero at the start of a cell, the
computation of a cell completes, and its finalized specific heat is
`(SumProdE/tdim - ProdSumE/tdim^2) / (N*conf_num)`, where `SumProdE` is the sum
over the cell's configurations of the sum over `t = 1 .. tdim-1` of `E(t)^2`,
`ProdSumE` the sum over the configurations of the square of the sum over
`t = 1 .. tdim-1` of `E(t)`, and `E(t) = -(sum over i <= j of
J[i][j]*s_i(t)*s_j(t))` on the coupling matrix and trajectory of the
configuration. -/
theorem specific_heat_formula (P : Params) (X : Extern) (h : Heap) (A B : Nat) (mem : Mem)
    (hX : UniformStream X) :
    (cellInit P mem).ProdSumE = 0 ∧ (cellInit P mem).SumProdE = 0 ∧
    ∃ cs mem1,
      IsConfRun P X (muAt P h.mu A) (sdAt P h.sd B) (slotOf P A B) (cellInit P mem) cs ∧
      computeCell P X h A B mem = some mem1 ∧
      mem1.c (slotOf P A B) =
        ((∑ D in Finset.range P.conf_num,
            ∑ t in Finset.Ico 1 P.tdim,
              energyRef P.N P.tdim (cs (D + 1)).mem.coup.J (cs (D + 1)).mem.SS t ^ 2)
            / (P.tdim : ℚ)
          - (∑ D in Finset.range P.conf_num,
              (∑ t in Finset.Ico 1 P.tdim,
                energyRef P.N P.tdim (cs (D + 1)).mem.coup.J (cs (D + 1)).mem.SS t) ^ 2)
            / ((P.tdim : ℚ) * (P.tdim : ℚ)))
        / ((P.N : ℚ) * (P.conf_num : ℚ)) := by
  refine ⟨rfl, rfl, ?_⟩
  obtain ⟨cs, hr, hl⟩ := confRun_exists P X (muAt P h.mu A) (sdAt P h.sd B) (slotOf P A B) hX
    (cellInit P mem)
  obtain ⟨m1, m2⟩ := confRun_moments P X _ _ _ _ cs hr P.conf_num (Nat.le_refl _)
  refine ⟨cs, finalize P (slotOf P A B) (cs P.conf_num), hr, ?_, ?_⟩
  · simp [computeCell, hl P.conf_num]
  · have z1 : (cellInit P mem).SumProdE = 0 := rfl
    have z2 : (cellInit P mem).ProdSumE = 0 := rfl
    simp only [finalize, Function.update_same, m1, m2, z1, z2, zero_add, one_mul, sumE2Ref,
      sumERef]

/-! ## Magnetization and order parameter -/

theorem timeSum_eq (tdim : Nat) (SS : Nat → ℤ) (i : Nat) :
    timeSum tdim SS i = ∑ t in Finset.range tdim, (SSArr tdim SS i t : ℚ) := by
  unfold timeSum
  rw [forUpTo_sum tdim (fun t => (SSArr tdim SS i t : ℚ)) 0, zero_add]

theorem magSgop_eq_ref (N tdim : Nat) (SS : Nat → ℤ) :
    (magSgop N tdim SS).mag = magRef N tdim SS ∧
    (magSgop N tdim SS).sgop = sgopRef N tdim SS := by
  unfold magSgop magRef sgopRef
  apply forUpTo_inv (fun n (a : MagSgop) =>
    a.mag = ∑ i in Finset.range n, ∑ t in Finset.range tdim, (SSArr tdim SS i t : ℚ) ∧
    a.sgop = ∑ i in Finset.range n, (∑ t in Finset.range tdim, (SSArr tdim SS i t : ℚ)) ^ 2)
  · simp
  · rintro n _ a ⟨h1, h2⟩
    simp only [Finset.sum_range_succ, h1, h2, timeSum_eq, sq, and_self]

theorem confRun_mag (P : Params) (X : Extern) (mu sd : ℚ) (slot : Nat) (c0 : Cell)
    (cs : Nat → Cell) (hr : IsConfRun P X mu sd slot c0 cs) :
    ∀ D, D ≤ P.conf_num →
      (cs D).mem.m slot = c0.mem.m slot + ∑ d in Finset.range D,
        magRef P.N P.tdim (cs (d + 1)).mem.SS ∧
      (cs D).mem.q slot = c0.mem.q slot + ∑ d in Finset.range D,
        sgopRef P.N P.tdim (cs (d + 1)).mem.SS := by
  intro D
  induction D with
  | zero => intro _; simp [hr.1]
  | succ k ih =>
    intro hk
    obtain ⟨i1, i2⟩ := ih (Nat.le_of_succ_le hk)
    have hb := confBody_inv P X mu sd slot (cs k) (cs (k + 1)) (hr.2 k hk)
    obtain ⟨e1, e2⟩ := magSgop_eq_ref P.N P.tdim (cs (k + 1)).mem.SS
    rw [hb.2.2.2.1, hb.2.2.2.2.1, Function.update_same, Function.update_same, e1, e2, i1, i2,
      Finset.sum_range_succ, Finset.sum_range_succ]
    constructor <;> ring

/-- The finalized `m` and `q` of a cell in terms of the contents `mem.m slot`,
`mem.q slot` of the two array slots before the cell and of the trajectories of
the cell's configurations. -/
theorem magnetization_order_parameter_general (P : Params) (X : Extern) (h : Heap)
    (A B : Nat) (mem : Mem) (hX : UniformStream X) :
    ∃ cs mem1,
      IsConfRun P X (muAt P h.mu A) (sdAt P h.sd B) (slotOf P A B) (cellInit P mem) cs ∧
      computeCell P X h A B mem = some mem1 ∧
      mem1.m (slotOf P A B) =
        |(mem.m (slotOf P A B)
            + ∑ D in Finset.range P.conf_num, magRef P.N P.tdim (cs (D + 1)).mem.SS)
          / ((P.N : ℚ) * (P.tdim : ℚ) * (P.conf_num : ℚ))| ∧
      mem1.q (slotOf P A B) =
        (mem.q (slotOf P A B)
            + ∑ D in Finset.range P.conf_num, sgopRef P.N P.tdim (cs (D + 1)).mem.SS)
          / ((P.N : ℚ) * (P.tdim : ℚ) * (P.tdim : ℚ) * (P.conf_num : ℚ)) := by
  obtain ⟨cs, hr, hl⟩ := confRun_exists P X (muAt P h.mu A) (sdAt P h.sd B) (slotOf P A B) hX
    (cellInit P mem)
  obtain ⟨m1, m2⟩ := confRun_mag P X _ _ _ _ cs hr P.conf_num (Nat.le_refl _)
  refine ⟨cs, finalize P (slotOf P A B) (cs P.conf_num), hr, ?_, ?_, ?_⟩
  · simp [computeCell, hl P.conf_num]
  · have z1 : (cellInit P mem).mem.m = mem.m := rfl
    simp only [finalize, Function.update_same, m1, z1, one_mul]
  · have z2 : (cellInit P mem).mem.q = mem.q := rfl
    simp only [finalize, Function.update_same, m2, z2, one_mul]

/-! ## Trajectories hold only spins -/

theorem recordColumn_spin (N tdim : Nat) (s : Nat → ℤ) (j : Nat) (SS : Nat → ℤ)
    (hs : IsSpinConfig N s) :
    (∀ idx, (SS idx = 1 ∨ SS idx = -1) →
      (recordColumn N tdim s j SS idx = 1 ∨ recordColumn N tdim s j SS idx = -1)) ∧
    (∀ i, i < N →
      (recordColumn N tdim s j SS (tdim * i + j) = 1 ∨
        recordColumn N tdim s j SS (tdim * i + j) = -1)) := by
  have key := forUpTo_inv (fun n (S1 : Nat → ℤ) =>
      (∀ idx, (SS idx = 1 ∨ SS idx = -1) → (S1 idx = 1 ∨ S1 idx = -1)) ∧
      (∀ i, i < n → (S1 (tdim * i + j) = 1 ∨ S1 (tdim * i + j) = -1)))
    N (fun i S1 => Function.update S1 (tdim * i + j) (s i)) SS
    ⟨fun _ hq => hq, fun i hi => absurd hi (Nat.not_lt_zero i)⟩
    (fun n hn S1 hS1 => by
      refine ⟨fun idx hq => ?_, fun i hi => ?_⟩
      · simp only [Function.update_apply]
        split_ifs
        · exact hs n hn
        · exact hS1.1 idx hq
      · simp only [Function.update_apply]
        split_ifs with e
        · exact hs n hn
        · apply hS1.2 i
          rcases Nat.lt_succ_iff_lt_or_eq.mp hi with h1 | h1
          · exact h1
          · exact absurd (by rw [h1]) e)
  exact key

theorem sampling_trajectory (X : Extern) (N tdim : Nat) (J : Nat → ℚ) (hX : UniformStream X)
    (st : Sampling) (hs : IsSpinConfig N st.spins.s) :
    ∃ st1, sampling X N tdim J st = some st1 ∧ IsSpinConfig N st1.spins.s ∧
      IsSpinTrajectory N tdim st1.SS := by
  obtain ⟨st1, e1, i1, i2⟩ := forUpToM_inv (fun j (st1 : Sampling) =>
      IsSpinConfig N st1.spins.s ∧
      ∀ i t, i < N → t < j → (st1.SS (tdim * i + t) = 1 ∨ st1.SS (tdim * i + t) = -1))
    tdim (sampleColumn X N tdim J) st ⟨hs, fun i t _ ht => absurd ht (Nat.not_lt_zero t)⟩
    (fun j _ st1 hst1 => by
      obtain ⟨sp, h2, h3⟩ := sweep_closed X N J hX st1.spins hst1.1
      obtain ⟨r1, r2⟩ := recordColumn_spin N tdim sp.s j st1.SS h3
      refine ⟨{ spins := sp, SS := recordColumn N tdim sp.s j st1.SS }, ?_, h3,
        fun i t hi ht => ?_⟩
      · simp [sampleColumn, h2]
      · rcases Nat.lt_succ_iff_lt_or_eq.mp ht with h4 | h4
        · exact r1 _ (hst1.2 i t hi h4)
        · rw [h4]; exact r2 i hi)
  exact ⟨st1, e1, i1, fun i t hi ht => i2 i t hi ht⟩

theorem confBody_spins (P : Params) (X : Extern) (mu sd : ℚ) (slot : Nat) (c c1 : Cell)
    (hX : UniformStream X) (hb : confBody P X mu sd slot c = some c1)
    (hs : IsSpinConfig P.N c.mem.spins.s) :
    IsSpinConfig P.N c1.mem.spins.s ∧ IsSpinTrajectory P.N P.tdim c1.mem.SS := by
  obtain ⟨_, ⟨sp, h1, h2⟩, _⟩ := confBody_inv P X mu sd slot c c1 hb
  obtain ⟨sp1, e1, i1⟩ := sweeps_closed X P.N c1.mem.coup.J hX P.thermal c.mem.spins hs
  have hsp : sp1 = sp := Option.some.inj (e1.symm.trans h1)
  subst hsp
  obtain ⟨smp, e2, i2, i3⟩ := sampling_trajectory X P.N P.tdim c1.mem.coup.J hX
    { spins := sp1, SS := c.mem.SS } i1
  have hsm : smp = { spins := c1.mem.spins, SS := c1.mem.SS } :=
    Option.some.inj (e2.symm.trans h2)
  subst hsm
  exact ⟨i2, i3⟩

theorem confRun_spins (P : Params) (X : Extern) (mu sd : ℚ) (slot : Nat) (c0 : Cell)
    (cs : Nat → Cell) (hX : UniformStream X) (hr : IsConfRun P X mu sd slot c0 cs)
    (hs : IsSpinConfig P.N c0.mem.spins.s) :
    ∀ D, D ≤ P.conf_num → IsSpinConfig P.N (cs D).mem.spins.s ∧
      ∀ d, d < D → IsSpinTrajectory P.N P.tdim (cs (d + 1)).mem.SS := by
  intro D
  induction D with
  | zero =>
    intro _
    rw [hr.1]
    exact ⟨hs, fun d hd => absurd hd (Nat.not_lt_zero d)⟩
  | succ k ih =>
    intro hk
    obtain ⟨i1, i2⟩ := ih (Nat.le_of_succ_le hk)
    obtain ⟨j1, j2⟩ := confBody_spins P X mu sd slot (cs k) (cs (k + 1)) hX (hr.2 k hk) i1
    refine ⟨j1, fun d hd => ?_⟩
    rcases Nat.lt_succ_iff_lt_or_eq.mp hd with h1 | h1
    · exact i2 d h1
    · rw [h1]; exact j2

theorem magRef_abs_le (N tdim : Nat) (SS : Nat → ℤ) (hs : IsSpinTrajectory N tdim SS) :
    |magRef N tdim SS| ≤ (N : ℚ) * (tdim : ℚ) := by
  unfold magRef
  calc |∑ i in Finset.range N, ∑ t in Finset.range tdim, (SSArr tdim SS i t : ℚ)|
      ≤ ∑ i in Finset.range N, |∑ t in Finset.range tdim, (SSArr tdim SS i t : ℚ)| :=
        Finset.abs_sum_le_sum_abs _ _
    _ ≤ ∑ _i in Finset.range N, (tdim : ℚ) := by
        apply Finset.sum_le_sum
        intro i hi
        exact abs_sum_spins_le tdim (fun t => SSArr tdim SS i t)
          (fun t ht => hs i t (Finset.mem_range.mp hi) ht)
    _ = (N : ℚ) * (tdim : ℚ) := by simp

theorem sgopRef_bounds (N tdim : Nat) (SS : Nat → ℤ) (hs : IsSpinTrajectory N tdim SS) :
    0 ≤ sgopRef N tdim SS ∧ sgopRef N tdim SS ≤ (N : ℚ) * ((tdim : ℚ) * (tdim : ℚ)) := by
  unfold sgopRef
  constructor
  · exact Finset.sum_nonneg (fun i _ => sq_nonneg _)
  · calc ∑ i in Finset.range N, (∑ t in Finset.range tdim, (SSArr tdim SS i t : ℚ)) ^ 2
        ≤ ∑ _i in Finset.range N, (tdim : ℚ) * (tdim : ℚ) := by
          apply Finset.sum_le_sum
          intro i hi
          have hb := abs_sum_spins_le tdim (fun t => SSArr tdim SS i t)
            (fun t ht => hs i t (Finset.mem_range.mp hi) ht)
          have := sq_le_sq' (abs_le.mp hb).1 (abs_le.mp hb).2
          simpa [sq] using this
      _ = (N : ℚ) * ((tdim : ℚ) * (tdim : ℚ)) := by simp

/-- When the two slots of `m` and `q` hold zero before the cell is computed
(which `malloc` does not guarantee), the finalized `m` and `q` are the
normalised sums of the cell's own trajectories and lie in `[0, 1]`. -/
theorem magnetization_order_parameter_of_zeroed (P : Params) (X : Extern) (h : Heap)
    (A B : Nat) (mem : Mem) (hX : UniformStream X)
    (hN : 0 < P.N) (ht : 0 < P.tdim) (hc : 0 < P.conf_num)
    (hm : mem.m (slotOf P A B) = 0) (hq : mem.q (slotOf P A B) = 0) :
    ∃ cs mem1,
      IsConfRun P X (muAt P h.mu A) (sdAt P h.sd B) (slotOf P A B) (cellInit P mem) cs ∧
      computeCell P X h A B mem = some mem1 ∧
      mem1.m (slotOf P A B) =
        |∑ D in Finset.range P.conf_num, magRef P.N P.tdim (cs (D + 1)).mem.SS|
          / ((P.N : ℚ) * (P.tdim : ℚ) * (P.conf_num : ℚ)) ∧
      mem1.q (slotOf P A B) =
        (∑ D in Finset.range P.conf_num, sgopRef P.N P.tdim (cs (D + 1)).mem.SS)
          / ((P.N : ℚ) * (P.tdim : ℚ) * (P.tdim : ℚ) * (P.conf_num : ℚ)) ∧
      0 ≤ mem1.m (slotOf P A B) ∧ mem1.m (slotOf P A B) ≤ 1 ∧
      0 ≤ mem1.q (slotOf P A B) ∧ mem1.q (slotOf P A B) ≤ 1 := by
  obtain ⟨cs, mem1, hr, hcomp, em, eq⟩ :=
    magnetization_order_parameter_general P X h A B mem hX
  have hNq : (0 : ℚ) < (P.N : ℚ) := by exact_mod_cast hN
  have htq : (0 : ℚ) < (P.tdim : ℚ) := by exact_mod_cast ht
  have hcq : (0 : ℚ) < (P.conf_num : ℚ) := by exact_mod_cast hc
  have hden1 : (0 : ℚ) < (P.N : ℚ) * (P.tdim : ℚ) * (P.conf_num : ℚ) := by positivity
  have hden2 : (0 : ℚ) < (P.N : ℚ) * (P.tdim : ℚ) * (P.tdim : ℚ) * (P.conf_num : ℚ) := by
    positivity
  have hinit : IsSpinConfig P.N (cellInit P mem).mem.spins.s :=
    fun i hi => Or.inl (initial_condition P.N mem.spins.s i hi)
  obtain ⟨_, htraj⟩ := confRun_spins P X _ _ _ _ cs hX hr hinit P.conf_num (Nat.le_refl _)
  have hmag : |∑ D in Finset.range P.conf_num, magRef P.N P.tdim (cs (D + 1)).mem.SS|
      ≤ (P.N : ℚ) * (P.tdim : ℚ) * (P.conf_num : ℚ) := by
    calc |∑ D in Finset.range P.conf_num, magRef P.N P.tdim (cs (D + 1)).mem.SS|
        ≤ ∑ D in Finset.range P.conf_num, |magRef P.N P.tdim (cs (D + 1)).mem.SS| :=
          Finset.abs_sum_le_sum_abs _ _
      _ ≤ ∑ _D in Finset.range P.conf_num, (P.N : ℚ) * (P.tdim : ℚ) := by
          apply Finset.sum_le_sum
          intro D hD
          exact magRef_abs_le P.N P.tdim _ (htraj D (Finset.mem_range.mp hD))
      _ = (P.N : ℚ) * (P.tdim : ℚ) * (P.conf_num : ℚ) := by simp; ring
  have hsg0 : 0 ≤ ∑ D in Finset.range P.conf_num, sgopRef P.N P.tdim (cs (D + 1)).mem.SS :=
    Finset.sum_nonneg (fun D hD =>
      (sgopRef_bounds P.N P.tdim _ (htraj D (Finset.mem_range.mp hD))).1)
  have hsg1 : ∑ D in Finset.range P.conf_num, sgopRef P.N P.tdim (cs (D + 1)).mem.SS
      ≤ (P.N : ℚ) * (P.tdim : ℚ) * (P.tdim : ℚ) * (P.conf_num : ℚ) := by
    calc ∑ D in Finset.range P.conf_num, sgopRef P.N P.tdim (cs (D + 1)).mem.SS
        ≤ ∑ _D in Finset.range P.conf_num, (P.N : ℚ) * ((P.tdim : ℚ) * (P.tdim : ℚ)) := by
          apply Finset.sum_le_sum
          intro D hD
          exact (sgopRef_bounds P.N P.tdim _ (htraj D (Finset.mem_range.mp hD))).2
      _ = (P.N : ℚ) * (P.tdim : ℚ) * (P.tdim : ℚ) * (P.conf_num : ℚ) := by simp; ring
  have em1 : mem1.m (slotOf P A B) =
      |∑ D in Finset.range P.conf_num, magRef P.N P.tdim (cs (D + 1)).mem.SS|
        / ((P.N : ℚ) * (P.tdim : ℚ) * (P.conf_num : ℚ)) := by
    rw [em, hm, zero_add, abs_div, abs_of_pos hden1]
  have eq1 : mem1.q (slotOf P A B) =
      (∑ D in Finset.range P.conf_num, sgopRef P.N P.tdim (cs (D + 1)).mem.SS)
        / ((P.N : ℚ) * (P.tdim : ℚ) * (P.tdim : ℚ) * (P.conf_num : ℚ)) := by
    rw [eq, hq, zero_add]
  refine ⟨cs, mem1, hr, hcomp, em1, eq1, ?_, ?_, ?_, ?_⟩
  · rw [em1]; exact div_nonneg (abs_nonneg _) hden1.le
  · rw [em1, div_le_one hden1]; exact hmag
  · rw [eq1]; exact div_nonneg hsg0 hden2.le
  · rw [eq1, div_le_one hden2]; exact hsg1

/-! ## A run on recycled heap memory -/

theorem tiny_sizes : mu_size tinyParams = 1 ∧ sd_size tinyParams = 1 := by
  have hsize : arraySize 0 0 1 = 1 := by
    unfold arraySize doubleQuotient
    rw [toDouble_zero, toDouble_one]
    simp only [sub_zero, zero_div, toDouble_zero, zero_add, toDouble_one]
    have h := round_natCast 1
    norm_num at h
    rw [h]
    exact truncToInt_intCast 1
  exact ⟨hsize, hsize⟩

theorem zeroExtern_uniform : UniformStream zeroExtern := by
  intro n
  simp [zeroExtern]

theorem tiny_run (m0 q0 : ℚ) :
    ∃ w, main tinyParams zeroExtern (staleHeap m0 q0) (fun _ _ => none) = some w ∧
      w.started = [(0, 0)] ∧
      w.mem.m 0 = |m0 + -1| ∧ w.mem.q 0 = q0 + 1 ∧
      w.store 0 0 = some [0, 0, 0, 0, q0 + 1, |m0 + -1|, 0] ∧
      SSArr 1 w.mem.SS 0 0 = -1 := by
  have hs := tiny_sizes
  simp only [main, scan, hs.1, hs.2, slotOf, Int.toNat_one, forUpToM, Option.some_bind, visitCell]
  simp [computeCell, slotOf, hs.1, hs.2, confLoop, forUpToM, resultLine, muAt, sdAt, paramArray]
  simp [confBody, sweeps, sampling, sampleColumn, sweep, proposedUpdate, chosenSite, truncToInt,
    deltaE, effectiveField, forUpTo, forUpToM, JArr, fillInteractions, fillRow, forFromTo,
    fillEntry, cellInit, initialMem, tinyParams, zeroExtern, staleHeap, finalize, slotOf,
    magSgop, timeSum, SSArr, recordColumn, susceptSums, writeFile, covAccumulate, covEntry, cov,
    covSums, energySums, energy, memsetZero]

/-- Claim C1 fails on the code: `m` and `q` are obtained with `malloc` and
accumulated with `+=` without being cleared.  On the one-cell instance with
one spin, one column and one configuration, when the blocks handed out for
`m` and `q` hold `5`, the scan computes cell `(0, 0)`, finalizes `m = 4` and
`q = 6` and writes them to the result file: both lie outside `[0, 1]`. -/
theorem magnetization_outside_unit_interval :
    ∃ w, main tinyParams zeroExtern (staleHeap 5 5) (fun _ _ => none) = some w ∧
      w.started = [(0, 0)] ∧
      w.store 0 0 = some [0, 0, 0, 0, 6, 4, 0] ∧
      w.mem.m 0 = 4 ∧ w.mem.q 0 = 6 ∧
      ¬ (w.mem.m 0 ≤ 1) ∧ ¬ (w.mem.q 0 ≤ 1) := by
  obtain ⟨w, h1, h2, h3, h4, h5, _⟩ := tiny_run 5 5
  have e3 : w.mem.m 0 = 4 := by rw [h3]; norm_num
  have e4 : w.mem.q 0 = 6 := by rw [h4]; norm_num
  refine ⟨w, h1, h2, ?_, e3, e4, ?_, ?_⟩
  · rw [h5]; norm_num
  · rw [e3]; norm_num
  · rw [e4]; norm_num

/-- Claim C9 fails on the code: the accumulators `m[slot]` and `q[slot]` do
not start from zero but from whatever `malloc` returned.  On the instance
with one cell, one spin, one column and one configuration, when the blocks
handed out for `m` and `q` hold `3` and `2`, the cell's only trajectory entry
is `-1`, so the cell's own contributions give `|-1|/1 = 1` and `(-1)^2/1 = 1`,
but the code finalizes `m = 2` and `q = 3`. -/
theorem magnetization_includes_stale_memory :
    ∃ w, main tinyParams zeroExtern (staleHeap 3 2) (fun _ _ => none) = some w ∧
      w.started = [(0, 0)] ∧
      |magRef tinyParams.N tinyParams.tdim w.mem.SS|
        / ((tinyParams.N : ℚ) * (tinyParams.tdim : ℚ) * (tinyParams.conf_num : ℚ)) = 1 ∧
      w.mem.m 0 = 2 ∧
      sgopRef tinyParams.N tinyParams.tdim w.mem.SS
        / ((tinyParams.N : ℚ) * (tinyParams.tdim : ℚ) * (tinyParams.tdim : ℚ)
            * (tinyParams.conf_num : ℚ)) = 1 ∧
      w.mem.q 0 = 3 := by
  obtain ⟨w, h1, h2, h3, h4, _, h6⟩ := tiny_run 3 2
  refine ⟨w, h1, h2, ?_, ?_, ?_, ?_⟩
  · simp [magRef, tinyParams, h6]
  · rw [h3]; norm_num
  · simp [sgopRef, tinyParams, h6]
  · rw [h4]; norm_num

/-! ## Instances of the theorems with hypotheses -/

theorem sweep_preserves_spin_values_witness :
    ∃ st1, sweeps zeroExtern tinyParams.N (fun _ => 0) 2 { s := fun _ => 1, calls := 0 }
        = some st1 ∧ IsSpinConfig tinyParams.N st1.s :=
  (sweep_preserves_spin_values tinyParams zeroExtern (fun _ => 0)
    (fun n => by simp [zeroExtern])).1 2 { s := fun _ => 1, calls := 0 }
    (fun _ _ => Or.inl rfl)

theorem cov_diagonal_is_variance_witness :
    cov 2 (fun _ => 1) 0 0 = rowVariance 2 (fun _ => 1) 0 ∧
    cov 2 (fun _ => 1) 0 0 = 1 - rowMean 2 (fun _ => 1) 0 ^ 2 ∧
    0 ≤ cov 2 (fun _ => 1) 0 0 ∧ cov 2 (fun _ => 1) 0 0 ≤ 1 :=
  cov_diagonal_is_variance 2 (fun _ => 1) 0 (by decide) (fun _ _ => Or.inl rfl)

theorem scan_idempotent_witness :
    ∃ w1, main tinyParams zeroExtern (staleHeap 0 0) (fun _ _ => none) = some w1 ∧
      StoreComplete tinyParams w1.store ∧
      ∃ w2, main tinyParams zeroExtern (staleHeap 0 0) w1.store = some w2 ∧ w2.started = [] ∧
        w2.mem.spins.calls = 0 ∧ w2.mem.coup.draws = 0 ∧ w2.store = w1.store :=
  scan_idempotent tinyParams zeroExtern zeroExtern (staleHeap 0 0) (staleHeap 0 0)
    (fun _ _ => none) (fun n => by simp [zeroExtern])

theorem scan_recomputes_deleted_cell_witness :
    ∃ mem1 w1, computeCell tinyParams zeroExtern (staleHeap 0 0) 0 0 (initialMem (staleHeap 0 0))
        = some mem1 ∧
      main tinyParams zeroExtern (staleHeap 0 0) (deleteFile (fun _ _ => some []) 0 0) = some w1 ∧
      w1.started = [(0, 0)] ∧
      w1.store 0 0 = some (resultLine tinyParams (staleHeap 0 0) 0 0 mem1) ∧
      ∀ A1 B1, ¬ (A1 = 0 ∧ B1 = 0) → w1.store A1 B1 = (fun _ _ => some []) A1 B1 :=
  scan_recomputes_deleted_cell tinyParams zeroExtern (staleHeap 0 0) (fun _ _ => some []) 0 0
    (fun n => by simp [zeroExtern]) (fun _ _ _ => rfl)
    ⟨by rw [tiny_sizes.1]; decide, by rw [tiny_sizes.2]; decide⟩

theorem zero_coupling_sweep_witness :
    ∃ st1, sweep zeroExtern 2 (fun _ => 0) { s := fun _ => 1, calls := 0 } = some st1 ∧
      st1.calls = 0 + 2 ∧
      ∀ i, i < 2 → st1.s i = 1 * (-1) ^ selections zeroExtern 2 0 2 i :=
  ((zero_coupling_sweep zeroExtern 2 (fun n => by simp [zeroExtern])).2 (fun _ => 0)
    (fun _ _ _ _ => rfl) { s := fun _ => 1, calls := 0 }).2.2

theorem specific_heat_formula_witness :
    (cellInit tinyParams (initialMem (staleHeap 0 0))).ProdSumE = 0 ∧
    (cellInit tinyParams (initialMem (staleHeap 0 0))).SumProdE = 0 ∧
    ∃ cs mem1,
      IsConfRun tinyParams zeroExtern (muAt tinyParams (staleHeap 0 0).mu 0)
        (sdAt tinyParams (staleHeap 0 0).sd 0) (slotOf tinyParams 0 0)
        (cellInit tinyParams (initialMem (staleHeap 0 0))) cs ∧
      computeCell tinyParams zeroExtern (staleHeap 0 0) 0 0 (initialMem (staleHeap 0 0))
        = some mem1 ∧
      mem1.c (slotOf tinyParams 0 0) =
        ((∑ D in Finset.range tinyParams.conf_num,
            ∑ t in Finset.Ico 1 tinyParams.tdim,
              energyRef tinyParams.N tinyParams.tdim (cs (D + 1)).mem.coup.J
                (cs (D + 1)).mem.SS t ^ 2)
            / (tinyParams.tdim : ℚ)
          - (∑ D in Finset.range tinyParams.conf_num,
              (∑ t in Finset.Ico 1 tinyParams.tdim,
                energyRef tinyParams.N tinyParams.tdim (cs (D + 1)).mem.coup.J
                  (cs (D + 1)).mem.SS t) ^ 2)
            / ((tinyParams.tdim : ℚ) * (tinyParams.tdim : ℚ)))
        / ((tinyParams.N : ℚ) * (tinyParams.conf_num : ℚ)) :=
  specific_heat_formula tinyParams zeroExtern (staleHeap 0 0) 0 0 (initialMem (staleHeap 0 0))
    (fun n => by simp [zeroExtern])

/-! ## The world at the visit of a cell and the result file -/

theorem scan_eq_prefix (P : Params) (X : Extern) (h : Heap) (w : World) :
    scan P X h w = scanPrefix P X h (mu_size P).toNat 0 w := by
  simp [scan, scanPrefix, forUpToM]

theorem scanPrefix_row_end (P : Params) (X : Extern) (h : Heap) (A : Nat) (w : World) :
    scanPrefix P X h (A + 1) 0 w = scanPrefix P X h A (sd_size P).toNat w := by
  simp [scanPrefix, forUpToM]

theorem scanPrefix_step (P : Params) (X : Extern) (h : Heap) (A B : Nat) (w0 w : World)
    (hp : scanPrefix P X h A B w0 = some w) :
    scanPrefix P X h A (B + 1) w0 = visitCell P X h A B w := by
  unfold scanPrefix at hp ⊢
  cases hr : forUpToM A (fun A1 =>
      forUpToM (sd_size P).toNat (fun B1 => visitCell P X h A1 B1)) w0 with
  | none => simp [hr] at hp
  | some wr =>
    rw [hr, Option.some_bind] at hp
    simp [forUpToM, hp]

theorem scanPrefix_inv (P : Params) (X : Extern) (h : Heap) (Inv : Nat → Nat → World → Prop)
    (w0 : World) (h0 : Inv 0 0 w0)
    (hrow : ∀ A w, scanPrefix P X h A (sd_size P).toNat w0 = some w →
      Inv A (sd_size P).toNat w → Inv (A + 1) 0 w)
    (hstep : ∀ A B, InGrid P A B → ∀ w, scanPrefix P X h A B w0 = some w → Inv A B w →
      ∃ w1, visitCell P X h A B w = some w1 ∧ Inv A (B + 1) w1) :
    ∀ A B, A ≤ (mu_size P).toNat → B ≤ (sd_size P).toNat → (0 < B → A < (mu_size P).toNat) →
      ∃ w, scanPrefix P X h A B w0 = some w ∧ Inv A B w := by
  have inner : ∀ A, A < (mu_size P).toNat →
      (∃ w, scanPrefix P X h A 0 w0 = some w ∧ Inv A 0 w) →
      ∀ B, B ≤ (sd_size P).toNat → ∃ w, scanPrefix P X h A B w0 = some w ∧ Inv A B w := by
    intro A hA hstart B
    induction B with
    | zero => intro _; exact hstart
    | succ b ih =>
      intro hb
      obtain ⟨w, e, i⟩ := ih (Nat.le_of_succ_le hb)
      obtain ⟨w1, e1, i1⟩ := hstep A b ⟨Int.lt_toNat.mp hA, Int.lt_toNat.mp hb⟩ w e i
      exact ⟨w1, by rw [scanPrefix_step P X h A b w0 w e, e1], i1⟩
  have outer : ∀ A, A ≤ (mu_size P).toNat →
      ∃ w, scanPrefix P X h A 0 w0 = some w ∧ Inv A 0 w := by
    intro A
    induction A with
    | zero => intro _; exact ⟨w0, by simp [scanPrefix, forUpToM], h0⟩
    | succ a ih =>
      intro ha
      obtain ⟨w, e, i⟩ := inner a ha (ih (Nat.le_of_succ_le ha)) (sd_size P).toNat (Nat.le_refl _)
      exact ⟨w, by rw [scanPrefix_row_end, e], hrow a w e i⟩
  intro A B hA hB hAB
  rcases Nat.eq_zero_or_pos B with hz | hpos
  · subst hz; exact outer A hA
  · exact inner A (hAB hpos) (outer A hA) B hB

theorem visitCell_some (P : Params) (X : Extern) (h : Heap) (A B : Nat) (hX : UniformStream X)
    (w : World) :
    ∃ w1, visitCell P X h A B w = some w1 ∧
      ∀ A1 B1, ¬ (A1 = A ∧ B1 = B) → w1.store A1 B1 = w.store A1 B1 := by
  cases hp : w.store A B with
  | some e => exact ⟨w, visitCell_present P X h A B w (by simp [hp]), fun _ _ _ => rfl⟩
  | none =>
    obtain ⟨mem1, hc⟩ := computeCell_some P X h A B hX w.mem
    refine ⟨_, visitCell_absent P X h A B w hp mem1 hc, fun A1 B1 hne => ?_⟩
    simp [writeFile, hne]

theorem resultLine_eq (P : Params) (h : Heap) (A B : Nat) (mem : Mem) (hg : InGrid P A B) :
    resultLine P h A B mem =
      [P.mu_min + (A : ℚ) * P.mu_step, P.sd_min + (B : ℚ) * P.sd_step,
       mem.Xsg (slotOf P A B), mem.Xuni (slotOf P A B), mem.q (slotOf P A B),
       mem.m (slotOf P A B), mem.c (slotOf P A B)] := by
  have e : A * (sd_size P).toNat + B = slotOf P A B := by
    unfold slotOf; rw [Nat.mul_comm]
  simp only [resultLine, e, muAt, sdAt, paramArray_value _ _ _ _ A hg.1,
    paramArray_value _ _ _ _ B hg.2]

theorem scan_visit_absent (P : Params) (X : Extern) (h : Heap) (w0 : World) (A B : Nat)
    (hX : UniformStream X) (hg : InGrid P A B) :
    ∃ wv, scanPrefix P X h A B w0 = some wv ∧ wv.store A B = w0.store A B := by
  have hA : A < (mu_size P).toNat := Int.lt_toNat.mpr hg.1
  have hB : B < (sd_size P).toNat := Int.lt_toNat.mpr hg.2
  obtain ⟨wv, e, i⟩ := scanPrefix_inv P X h
    (fun Ac Bc w => ¬ LoopDone Ac Bc A B → w.store A B = w0.store A B) w0 (fun _ => rfl)
    (fun Ac w _ hw => by
      beta_reduce at hw ⊢
      rw [loopDone_row_end P Ac A B hg]
      exact hw)
    (fun Ac Bc _ w _ hw => by
      beta_reduce at hw ⊢
      obtain ⟨w1, e1, f1⟩ := visitCell_some P X h Ac Bc hX w
      refine ⟨w1, e1, fun hnd => ?_⟩
      have hne : ¬ (A = Ac ∧ B = Bc) := by
        rintro ⟨rfl, rfl⟩
        exact hnd (Or.inr ⟨rfl, Nat.lt_succ_self _⟩)
      have hne2 : ¬ (Ac = A ∧ Bc = B) := fun hh => hne ⟨hh.1.symm, hh.2.symm⟩
      rw [f1 A B hne]
      exact hw (fun hd => hnd ((loopDone_next Ac Bc A B hne2).mpr hd)))
    A B (Nat.le_of_lt hA) (Nat.le_of_lt hB) (fun _ => hA)
  exact ⟨wv, e, i (by unfold LoopDone; omega)⟩

/-- Claim C11: for a grid cell `(A, B)` without result file, the scan reaches
the cell with the file still absent, creates the empty marker, computes the
cell on the arrays of that moment and replaces the marker by the list of
exactly seven numbers `mu, sd, Xsg, Xuni, q, m, c`, where `mu = mu_min +
A*mu_step`, `sd = sd_min + B*sd_step` and the five observables are read from
slot `sd_size*A + B` of the arrays just finalized for this cell; this list is
still the entry of `(A, B)` when the scan ends. -/
theorem result_entry_fields (P : Params) (X : Extern) (h : Heap) (store : Store) (A B : Nat)
    (hX : UniformStream X) (hg : InGrid P A B) (habs : store A B = none) :
    ∃ wv mem1 wf,
      scanPrefix P X h A B { mem := initialMem h, store := store, started := [] } = some wv ∧
      wv.store A B = none ∧
      (writeFile wv.store A B []) A B = some [] ∧
      computeCell P X h A B wv.mem = some mem1 ∧
      visitCell P X h A B wv = some
        { mem := mem1,
          store := writeFile (writeFile wv.store A B []) A B
            [P.mu_min + (A : ℚ) * P.mu_step, P.sd_min + (B : ℚ) * P.sd_step,
             mem1.Xsg (slotOf P A B), mem1.Xuni (slotOf P A B), mem1.q (slotOf P A B),
             mem1.m (slotOf P A B), mem1.c (slotOf P A B)],
          started := wv.started ++ [(A, B)] } ∧
      main P X h store = some wf ∧
      wf.store A B = some
        [P.mu_min + (A : ℚ) * P.mu_step, P.sd_min + (B : ℚ) * P.sd_step,
         mem1.Xsg (slotOf P A B), mem1.Xuni (slotOf P A B), mem1.q (slotOf P A B),
         mem1.m (slotOf P A B), mem1.c (slotOf P A B)] := by
  have hA : A < (mu_size P).toNat := Int.lt_toNat.mpr hg.1
  obtain ⟨wv, ev, sv⟩ := scan_visit_absent P X h
    { mem := initialMem h, store := store, started := [] } A B hX hg
  have sv0 : wv.store A B = none := by rw [sv]; exact habs
  obtain ⟨mem1, hc⟩ := computeCell_some P X h A B hX wv.mem
  have hvis := visitCell_absent P X h A B wv sv0 mem1 hc
  rw [resultLine_eq P h A B mem1 hg] at hvis
  obtain ⟨wf, ef, fin⟩ := scanPrefix_inv P X h
    (fun Ac Bc w => LoopDone Ac Bc A B → w.store A B = some
      [P.mu_min + (A : ℚ) * P.mu_step, P.sd_min + (B : ℚ) * P.sd_step,
       mem1.Xsg (slotOf P A B), mem1.Xuni (slotOf P A B), mem1.q (slotOf P A B),
       mem1.m (slotOf P A B), mem1.c (slotOf P A B)])
    { mem := initialMem h, store := store, started := [] }
    (fun hd => by rcases hd with h1 | ⟨h1, h2⟩ <;> omega)
    (fun Ac w _ hw => by
      beta_reduce at hw ⊢
      rw [loopDone_row_end P Ac A B hg]
      exact hw)
    (fun Ac Bc _ w ew hw => by
      beta_reduce at hw ⊢
      by_cases hcur : Ac = A ∧ Bc = B
      · obtain ⟨rfl, rfl⟩ := hcur
        have hwv : w = wv := Option.some.inj (ew.symm.trans ev)
        subst hwv
        exact ⟨_, hvis, fun _ => by simp [writeFile]⟩
      · obtain ⟨w1, e1, f1⟩ := visitCell_some P X h Ac Bc hX w
        have hne : ¬ (A = Ac ∧ B = Bc) := fun hh => hcur ⟨hh.1.symm, hh.2.symm⟩
        refine ⟨w1, e1, fun hd => ?_⟩
        rw [f1 A B hne]
        exact hw ((loopDone_next Ac Bc A B hcur).mp hd))
    (mu_size P).toNat 0 (Nat.le_refl _) (Nat.zero_le _) (fun hh => absurd hh (Nat.lt_irrefl 0))
  refine ⟨wv, mem1, wf, ev, sv0, by simp [writeFile], hc, hvis, ?_, fin (Or.inl hA)⟩
  rw [main, scan_eq_prefix]
  exact ef

/-! ## One proposed update -/

theorem effectiveField_eq_sum (N : Nat) (J : Nat → ℚ) (s : Nat → ℤ) (k : Nat) :
    effectiveField N J s k = ∑ j in Finset.range N, JArr N J k j * (s j : ℚ) := by
  unfold effectiveField
  rw [forUpTo_sum N (fun j => JArr N J k j * (s j : ℚ)) 0, zero_add]

theorem chosenSite_eq_floor (X : Extern) (N : Nat) (hX : UniformStream X) (n : Nat) :
    chosenSite X N n = ⌊(N : ℚ) * X.genrand_real2 n⌋ := by
  unfold chosenSite
  exact truncToInt_of_nonneg (mul_nonneg (Nat.cast_nonneg N) (hX n).1)

theorem proposedUpdate_rule (X : Extern) (N : Nat) (J : Nat → ℚ) (hX : UniformStream X)
    (hN : 0 < N) (st : Spins) :
    ∃ st1, proposedUpdate X N J st = some st1 ∧
      st1.s (chosenSite X N st.calls).toNat =
        (if deltaE N J st.s (chosenSite X N st.calls).toNat ≤ 0 ∨
            X.genrand_real2 (st.calls + 1)
              < X.exp (-2 * deltaE N J st.s (chosenSite X N st.calls).toNat)
          then -(st.s (chosenSite X N st.calls).toNat)
          else st.s (chosenSite X N st.calls).toNat) ∧
      (∀ i, i ≠ (chosenSite X N st.calls).toNat → st1.s i = st.s i) ∧
      st1.calls =
        (if deltaE N J st.s (chosenSite X N st.calls).toNat ≤ 0 then st.calls + 1
          else st.calls + 2) := by
  obtain ⟨h0, h1⟩ := chosenSite_range X N hX hN st.calls
  unfold proposedUpdate
  simp only [h0, h1, and_self, if_true]
  by_cases hd : deltaE N J st.s (chosenSite X N st.calls).toNat ≤ 0
  · refine ⟨{ s := Function.update st.s (chosenSite X N st.calls).toNat
                (-(st.s (chosenSite X N st.calls).toNat)), calls := st.calls + 1 },
      by rw [if_pos hd], ?_, fun i hi => ?_, ?_⟩
    · rw [if_pos (Or.inl hd)]; exact Function.update_same _ _ _
    · exact Function.update_noteq hi _ _
    · rw [if_pos hd]
  · by_cases hu : X.genrand_real2 (st.calls + 1)
        < X.exp (-2 * deltaE N J st.s (chosenSite X N st.calls).toNat)
    · refine ⟨{ s := Function.update st.s (chosenSite X N st.calls).toNat
                  (-(st.s (chosenSite X N st.calls).toNat)), calls := st.calls + 2 },
        by rw [if_neg hd, if_pos hu], ?_, fun i hi => ?_, ?_⟩
      · rw [if_pos (Or.inr hu)]; exact Function.update_same _ _ _
      · exact Function.update_noteq hi _ _
      · rw [if_neg hd]
    · refine ⟨{ s := st.s, calls := st.calls + 2 }, by rw [if_neg hd, if_neg hu], ?_,
        fun i _ => rfl, ?_⟩
      · rw [if_neg (fun hh => hh.elim hd hu)]
      · rw [if_neg hd]

theorem sweep_calls (X : Extern) (N : Nat) (J : Nat → ℚ) (hX : UniformStream X) (st : Spins) :
    ∃ st1, sweep X N J st = some st1 ∧
      st.calls + N ≤ st1.calls ∧ st1.calls ≤ st.calls + 2 * N := by
  apply forUpToM_inv (fun n (st1 : Spins) =>
      st.calls + n ≤ st1.calls ∧ st1.calls ≤ st.calls + 2 * n)
    N (fun _ => proposedUpdate X N J) st ⟨Nat.le_refl _, Nat.le_refl _⟩
  rintro n hn st1 ⟨b1, b2⟩
  obtain ⟨st2, e2, _, _, c2⟩ := proposedUpdate_rule X N J hX
    (Nat.lt_of_le_of_lt (Nat.zero_le _) hn) st1
  refine ⟨st2, e2, ?_, ?_⟩
  · rw [c2]; split_ifs <;> omega
  · rw [c2]; split_ifs <;> omega

/-- Claim C13 (single proposed update): with uniforms in `[0,1)` and `N > 0`,
an update selects `k = floor(N*u)`, which is below `N`, computes
`Heff = sum over all j < N of J[k][j]*s[j]` and `delta = s[k]*Heff`, and
returns the array in which `s[k]` is negated exactly when `delta <= 0` or the
next uniform `u'` is below `exp(-2*delta)` and is unchanged otherwise; no spin
at another site changes, and `u'` is drawn only when `delta > 0` (one uniform
consumed when `delta <= 0`, two otherwise).  A sweep is `N` such updates in
sequence and so consumes between `N` and `2N` uniforms. -/
theorem proposed_update_rule (X : Extern) (N : Nat) (J : Nat → ℚ) (hX : UniformStream X)
    (hN : 0 < N) (st : Spins) :
    chosenSite X N st.calls = ⌊(N : ℚ) * X.genrand_real2 st.calls⌋ ∧
    (chosenSite X N st.calls).toNat < N ∧
    effectiveField N J st.s (chosenSite X N st.calls).toNat =
      ∑ j in Finset.range N, JArr N J (chosenSite X N st.calls).toNat j * (st.s j : ℚ) ∧
    deltaE N J st.s (chosenSite X N st.calls).toNat =
      (st.s (chosenSite X N st.calls).toNat : ℚ)
        * effectiveField N J st.s (chosenSite X N st.calls).toNat ∧
    (∃ st1, proposedUpdate X N J st = some st1 ∧
      st1.s (chosenSite X N st.calls).toNat =
        (if deltaE N J st.s (chosenSite X N st.calls).toNat ≤ 0 ∨
            X.genrand_real2 (st.calls + 1)
              < X.exp (-2 * deltaE N J st.s (chosenSite X N st.calls).toNat)
          then -(st.s (chosenSite X N st.calls).toNat)
          else st.s (chosenSite X N st.calls).toNat) ∧
      (∀ i, i ≠ (chosenSite X N st.calls).toNat → st1.s i = st.s i) ∧
      st1.calls =
        (if deltaE N J st.s (chosenSite X N st.calls).toNat ≤ 0 then st.calls + 1
          else st.calls + 2)) ∧
    sweep X N J st = forUpToM N (fun _ => proposedUpdate X N J) st ∧
    (∃ st2, sweep X N J st = some st2 ∧
      st.calls + N ≤ st2.calls ∧ st2.calls ≤ st.calls + 2 * N) := by
  obtain ⟨h0, h1⟩ := chosenSite_range X N hX hN st.calls
  exact ⟨chosenSite_eq_floor X N hX st.calls, (Int.toNat_lt h0).mpr h1,
    effectiveField_eq_sum N J st.s _, rfl, proposedUpdate_rule X N J hX hN st, rfl,
    sweep_calls X N J hX st⟩

/-! ## Energy change of a single flip -/

theorem triangle_sum_symmetric (g : Nat → Nat → ℚ) (n : Nat)
    (hsym : ∀ i j, i < n → j < n → g i j = g j i) :
    2 * ∑ i in Finset.range n, ∑ j in Finset.Ico i n, g i j
      = ∑ i in Finset.range n, ∑ j in Finset.range n, g i j + ∑ i in Finset.range n, g i i := by
  induction n with
  | zero => simp
  | succ n ih =>
    have ih1 := ih (fun i j hi hj => hsym i j (Nat.lt_succ_of_lt hi) (Nat.lt_succ_of_lt hj))
    have hinner : ∀ i ∈ Finset.range n,
        ∑ j in Finset.Ico i (n + 1), g i j = ∑ j in Finset.Ico i n, g i j + g i n :=
      fun i hi => Finset.sum_Ico_succ_top (Nat.le_of_lt (Finset.mem_range.mp hi)) _
    have hcol : ∑ j in Finset.range n, g n j = ∑ j in Finset.range n, g j n :=
      Finset.sum_congr rfl (fun j hj =>
        hsym n j (Nat.lt_succ_self n) (Nat.lt_succ_of_lt (Finset.mem_range.mp hj)))
    have hfull : ∀ i, ∑ j in Finset.range (n + 1), g i j = ∑ j in Finset.range n, g i j + g i n :=
      fun i => Finset.sum_range_succ _ _
    rw [Finset.sum_range_succ, Finset.sum_congr rfl hinner, Finset.sum_add_distrib,
      Nat.Ico_succ_singleton, Finset.sum_singleton]
    simp only [hfull]
    rw [Finset.sum_range_succ, Finset.sum_add_distrib, Finset.sum_range_succ]
    linarith

theorem sum_flip (N k : Nat) (hk : k < N) (a x : Nat → ℚ) :
    ∑ j in Finset.range N, a j * (if j = k then -(x k) else x j)
      = ∑ j in Finset.range N, a j * x j - 2 * a k * x k := by
  have hx : ∀ j, a j * (if j = k then -(x k) else x j)
      = a j * x j + (if j = k then -2 * a k * x k else 0) := by
    intro j
    by_cases e : j = k
    · subst e; simp; ring
    · simp [e]
  simp only [hx, Finset.sum_add_distrib, Finset.sum_ite_eq', Finset.mem_range, if_pos hk]
  ring

theorem full_sum_flip (N k : Nat) (hk : k < N) (c : Nat → Nat → ℚ) (x : Nat → ℚ)
    (hsym : ∀ i j, i < N → j < N → c i j = c j i) (hdiag : c k k = 0) :
    ∑ i in Finset.range N, ∑ j in Finset.range N,
        c i j * (if i = k then -(x k) else x i) * (if j = k then -(x k) else x j)
      = ∑ i in Finset.range N, ∑ j in Finset.range N, c i j * x i * x j
        - 4 * x k * ∑ j in Finset.range N, c k j * x j := by
  have hinner : ∀ i, ∑ j in Finset.range N,
        c i j * (if i = k then -(x k) else x i) * (if j = k then -(x k) else x j)
      = (∑ j in Finset.range N, c i j * x j - 2 * c i k * x k)
          * (if i = k then -(x k) else x i) := by
    intro i
    rw [← sum_flip N k hk (fun j => c i j) x, Finset.sum_mul]
    exact Finset.sum_congr rfl (fun j _ => by ring)
  simp only [hinner]
  rw [sum_flip N k hk (fun i => ∑ j in Finset.range N, c i j * x j - 2 * c i k * x k) x]
  have hcol : ∑ i in Finset.range N, c i k * x i = ∑ j in Finset.range N, c k j * x j :=
    Finset.sum_congr rfl (fun i hi => by rw [hsym i k (Finset.mem_range.mp hi) hk])
  have hexp : ∑ i in Finset.range N, (∑ j in Finset.range N, c i j * x j - 2 * c i k * x k) * x i
      = ∑ i in Finset.range N, ∑ j in Finset.range N, c i j * x i * x j
        - 2 * x k * ∑ i in Finset.range N, c i k * x i := by
    rw [Finset.mul_sum, ← Finset.sum_sub_distrib]
    apply Finset.sum_congr rfl
    intro i _
    rw [sub_mul, Finset.sum_mul]
    congr 1
    · exact Finset.sum_congr rfl (fun j _ => by ring)
    · ring
  rw [hexp, hcol, hdiag]
  ring

theorem configEnergy_half (N : Nat) (J : Nat → ℚ) (x : Nat → ℚ) (hJ : IsSymmetricZeroDiag N J) :
    2 * ∑ i in Finset.range N, ∑ j in Finset.Ico i N, JArr N J i j * x i * x j
      = ∑ i in Finset.range N, ∑ j in Finset.range N, JArr N J i j * x i * x j := by
  rw [triangle_sum_symmetric (fun i j => JArr N J i j * x i * x j) N
    (fun i j hi hj => by beta_reduce; rw [hJ.1 i j hi hj]; ring)]
  have hd : ∑ i in Finset.range N, JArr N J i i * x i * x i = 0 :=
    Finset.sum_eq_zero (fun i hi => by rw [hJ.2 i (Finset.mem_range.mp hi)]; ring)
  rw [hd, add_zero]

theorem configEnergy_flip (N : Nat) (J : Nat → ℚ) (s : Nat → ℤ) (k : Nat) (hk : k < N)
    (hJ : IsSymmetricZeroDiag N J) :
    configEnergy N J (Function.update s k (-(s k))) - configEnergy N J s
      = 2 * deltaE N J s k := by
  have hcast : ∀ i, ((Function.update s k (-(s k)) i : ℤ) : ℚ)
      = if i = k then -((s k : ℤ) : ℚ) else ((s i : ℤ) : ℚ) := by
    intro i
    by_cases e : i = k
    · subst e; simp
    · simp [Function.update_apply, e]
  have h1 := configEnergy_half N J (fun i => ((s i : ℤ) : ℚ)) hJ
  have h2 := configEnergy_half N J
    (fun i => if i = k then -((s k : ℤ) : ℚ) else ((s i : ℤ) : ℚ)) hJ
  have h3 := full_sum_flip N k hk (fun i j => JArr N J i j) (fun i => ((s i : ℤ) : ℚ))
    hJ.1 (hJ.2 k hk)
  beta_reduce at h1 h2 h3
  unfold configEnergy deltaE
  rw [effectiveField_eq_sum]
  simp only [hcast]
  linarith

/-- Claim C14: the energy computed by the specific-heat code on column `t` of
a trajectory is `E(s) = -(sum over i <= j of J[i][j]*s[i]*s[j])` of the spin
configuration `s` stored in that column, and for a symmetric, zero-diagonal
coupling matrix this energy changes by exactly `2*delta` when spin `k` alone is
negated, `delta = s[k] * (sum over j of J[k][j]*s[j])` being the quantity
computed in `sweep`. -/
theorem energy_change_of_flip (N : Nat) (J : Nat → ℚ) (hJ : IsSymmetricZeroDiag N J) :
    (∀ (tdim : Nat) (SS : Nat → ℤ) (t : Nat),
      energy N tdim J SS t = configEnergy N J (fun i => SSArr tdim SS i t)) ∧
    (∀ (s : Nat → ℤ) (k : Nat), k < N →
      deltaE N J s k = (s k : ℚ) * ∑ j in Finset.range N, JArr N J k j * (s j : ℚ) ∧
      configEnergy N J (Function.update s k (-(s k))) - configEnergy N J s
        = 2 * deltaE N J s k) := by
  refine ⟨fun tdim SS t => ?_, fun s k hk => ⟨?_, configEnergy_flip N J s k hk hJ⟩⟩
  · rw [energy_eq_ref]; rfl
  · unfold deltaE; rw [effectiveField_eq_sum]

/-! ## Gaussian draws of the interaction-array fill -/

theorem pairIndex_succ (N i j : Nat) (hij : i ≤ j) :
    pairIndex N i (j + 1) = pairIndex N i j + 1 := by
  unfold pairIndex
  omega

theorem pairIndex_row_end (N i : Nat) :
    pairIndex N (i + 1) (i + 1) = pairIndex N i N := by
  unfold pairIndex
  rw [Finset.sum_range_succ]
  omega

theorem pairIndex_total_aux (N : Nat) :
    ∀ I, I ≤ N → 2 * (∑ r in Finset.range I, (N - r)) + I * I = I * (2 * N + 1) := by
  intro I
  induction I with
  | zero => intro _; simp
  | succ k ih =>
    intro hk
    have h1 := ih (Nat.le_of_succ_le hk)
    rw [Finset.sum_range_succ]
    have h2 : N - k + k = N := Nat.sub_add_cancel (Nat.le_of_succ_le hk)
    zify at h1 h2 ⊢
    have h3 : ((N - k : ℕ) : ℤ) = (N : ℤ) - (k : ℤ) := by linarith
    rw [h3]
    linarith

theorem pairIndex_total (N : Nat) : pairIndex N N N = N * (N + 1) / 2 := by
  have h := pairIndex_total_aux N N (Nat.le_refl N)
  unfold pairIndex
  rw [Nat.sub_self, Nat.add_zero]
  have e : N * (N + 1) = 2 * (∑ r in Finset.range N, (N - r)) := by
    have : N * (2 * N + 1) = N * (N + 1) + N * N := by ring
    omega
  rw [e, Nat.mul_div_cancel_left _ (by decide : 0 < 2)]

theorem fillEntry_draws (X : Extern) (N : Nat) (mu sd : ℚ) (d0 I jc : Nat) (c : Couplings)
    (hI : I ≤ jc) (hjc : jc < N) (h : FillDraws X N mu sd d0 I jc c) :
    FillDraws X N mu sd d0 I (jc + 1) (fillEntry X N mu sd I jc c) := by
  obtain ⟨hd, hv⟩ := h
  have hIN : I < N := by omega
  refine ⟨?_, fun i j hij hj hdone => ?_⟩
  · simp only [fillEntry, hd, pairIndex_succ N I jc hI]
    omega
  · have hi : i < N := by omega
    by_cases hnew : i = I ∧ j = jc
    · obtain ⟨rfl, rfl⟩ := hnew
      have e1 : ¬ j = i := by omega
      have e2 : ¬ i = j := by omega
      simp only [fillEntry, Function.update_apply, flat_index_inj hj hi, flat_index_inj hi hj,
        flat_index_inj hi hi, flat_index_inj hj hj, hd]
      simp [e1, e2]
    · have hold : LoopDone I jc i j := by
        rcases hdone with h1 | ⟨h1, h2⟩
        · exact Or.inl h1
        · exact Or.inr ⟨h1, by omega⟩
      obtain ⟨v1, v2⟩ := hv i j hij hj hold
      simp only [fillEntry, Function.update_apply, flat_index_inj hj hIN, flat_index_inj hi hjc,
        flat_index_inj hi hIN, flat_index_inj hj hjc]
      have n1 : ¬ (i = I ∧ j = I) := by omega
      have n2 : ¬ (i = jc ∧ j = I) := by omega
      have n3 : ¬ (j = I ∧ i = I) := by omega
      have n4 : ¬ (j = jc ∧ i = I) := fun hh => hnew ⟨hh.2, hh.1⟩
      have n5 : ¬ (j = I ∧ i = jc) := by omega
      simp only [n1, n2, n3, n4, n5, hnew, if_false]
      exact ⟨v1, v2⟩

theorem fillInteractions_draws (X : Extern) (N : Nat) (mu sd : ℚ) (c : Couplings) :
    FillDraws X N mu sd c.draws N N (fillInteractions X N mu sd c) := by
  apply forUpTo_inv (fun I c1 => FillDraws X N mu sd c.draws I I c1) N
    (fun i => fillRow X N mu sd i) c
  · refine ⟨by simp [pairIndex], fun i j _ _ hd => ?_⟩
    rcases hd with h1 | ⟨h1, h2⟩ <;> omega
  · intro I hI st hst
    obtain ⟨rd, rv⟩ := forFromTo_inv (fun jc c1 => FillDraws X N mu sd c.draws I jc c1) I N
      (fun j => fillEntry X N mu sd I j) st (Nat.le_of_lt hI) hst
      (fun j hlo hhi st1 hst1 => fillEntry_draws X N mu sd c.draws I j st1 hlo hhi hst1)
    refine ⟨by rw [pairIndex_row_end]; exact rd, fun i j hij hj hd => ?_⟩
    apply rv i j hij hj
    rcases hd with h1 | ⟨h1, h2⟩
    · rcases Nat.lt_succ_iff_lt_or_eq.mp h1 with h3 | h3
      · exact Or.inl h3
      · exact Or.inr ⟨h3, hj⟩
    · omega

/-- Claim C15 as stated fails: on a `2 × 2` matrix the fill consumes three
Gaussian deviates, one of them for each diagonal entry, not `2*(2-1)/2 = 1`. -/
theorem fill_draws_counterexample :
    (fillInteractions zeroExtern 2 0 0 { J := fun _ => 0, draws := 0 }).draws = 3 ∧
    (fillInteractions zeroExtern 2 0 0 { J := fun _ => 0, draws := 0 }).draws
      ≠ 0 + 2 * (2 - 1) / 2 := by
  have h : (fillInteractions zeroExtern 2 0 0 { J := fun _ => 0, draws := 0 }).draws = 3 := by
    simp [fillInteractions, fillRow, forUpTo, forFromTo, fillEntry]
  exact ⟨h, by rw [h]; decide⟩

/-- Claim C15 as amended: the fill of one configuration draws one Gaussian
deviate for every pair `(i, j)` with `i <= j`, the diagonal included, so that
exactly `N*(N+1)/2` deviates are consumed; the deviate drawn for a diagonal
pair is discarded (`J[i][i] = 0`), and each off-diagonal `J[i][j] = J[j][i]`
(`i < j`) equals `mu` plus the deviate drawn for that pair, the pairs being
visited row by row over the upper triangle with the diagonal pair first. -/
theorem fill_draws_per_pair (X : Extern) (N : Nat) (mu sd : ℚ) (c : Couplings) :
    (fillInteractions X N mu sd c).draws = c.draws + N * (N + 1) / 2 ∧
    (∀ i, i < N → JArr N (fillInteractions X N mu sd c).J i i = 0) ∧
    (∀ i j, i < j → j < N →
      JArr N (fillInteractions X N mu sd c).J i j
        = mu + X.gsl_ran_gaussian_ziggurat (c.draws + pairIndex N i j) sd ∧
      JArr N (fillInteractions X N mu sd c).J j i
        = mu + X.gsl_ran_gaussian_ziggurat (c.draws + pairIndex N i j) sd) ∧
    pairIndex N 0 0 = 0 ∧
    (∀ i j, i ≤ j → pairIndex N i (j + 1) = pairIndex N i j + 1) ∧
    (∀ i, pairIndex N (i + 1) (i + 1) = pairIndex N i N) := by
  obtain ⟨hd, hv⟩ := fillInteractions_draws X N mu sd c
  have hz := fillInteractions_inv X N mu sd c
  refine ⟨by rw [hd, pairIndex_total], fun i hi => ?_, fun i j hij hj => ?_, by simp [pairIndex],
    fun i j hij => pairIndex_succ N i j hij, fun i => pairIndex_row_end N i⟩
  · exact (hz i i (Nat.le_refl i) hi (Or.inl hi)).2
  · exact hv i j hij hj (Or.inl (by omega))

/-! ## Covariance accumulators -/

theorem covEntry_inv (N tdim : Nat) (SS : Nat → ℤ) (a0 : CovAcc) (I jc : Nat) (a : CovAcc)
    (hI : I ≤ jc) (hjc : jc < N) (h : CovInv N tdim SS a0 I jc a) :
    CovInv N tdim SS a0 I (jc + 1) (covEntry N tdim SS I jc a) := by
  have hIN : I < N := by omega
  have hcur := (h I jc hI hjc).2 (by unfold LoopDone; omega)
  intro i j hij hj
  have hi : i < N := by omega
  by_cases hnew : i = I ∧ j = jc
  · obtain ⟨rfl, rfl⟩ := hnew
    refine ⟨fun _ => ?_, fun hnd => absurd (Or.inr ⟨rfl, Nat.lt_succ_self _⟩) hnd⟩
    simp only [covEntry, Function.update_apply, flat_index_inj hj hi, flat_index_inj hi hj,
      hcur.1, hcur.2]
    by_cases e : i = j
    · subst e; simp
    · have e2 : ¬ j = i := fun hh => e hh.symm
      simp [e, e2]
  · have hne : ¬ (I = i ∧ jc = j) := fun hh => hnew ⟨hh.1.symm, hh.2.symm⟩
    have n1 : ¬ (i = jc ∧ j = I) := by
      rintro ⟨rfl, rfl⟩
      exact hnew ⟨by omega, by omega⟩
    have n2 : ¬ (j = I ∧ i = jc) := fun hh => n1 ⟨hh.2, hh.1⟩
    have n3 : ¬ (j = jc ∧ i = I) := fun hh => hnew ⟨hh.2, hh.1⟩
    have hsame : (covEntry N tdim SS I jc a).SumC (N * i + j) = a.SumC (N * i + j) ∧
        (covEntry N tdim SS I jc a).SumC (N * j + i) = a.SumC (N * j + i) ∧
        (covEntry N tdim SS I jc a).ProdC (N * i + j) = a.ProdC (N * i + j) ∧
        (covEntry N tdim SS I jc a).ProdC (N * j + i) = a.ProdC (N * j + i) := by
      simp only [covEntry, Function.update_apply, flat_index_inj hj hIN, flat_index_inj hi hjc,
        flat_index_inj hi hIN, flat_index_inj hj hjc, hnew, n1, n2, n3, if_false, and_self]
    rw [loopDone_next I jc i j hne, hsame.1, hsame.2.1, hsame.2.2.1, hsame.2.2.2]
    exact h i j hij hj

theorem covAccumulate_spec (N tdim : Nat) (SS : Nat → ℤ) (a0 : CovAcc) :
    ∀ i j, i ≤ j → j < N →
      (covAccumulate N tdim SS a0).SumC (N * i + j) = a0.SumC (N * i + j) + cov tdim SS i j ∧
      (covAccumulate N tdim SS a0).SumC (N * j + i) = a0.SumC (N * i + j) + cov tdim SS i j ∧
      (covAccumulate N tdim SS a0).ProdC (N * i + j)
        = a0.ProdC (N * i + j) + cov tdim SS i j * cov tdim SS i j ∧
      (covAccumulate N tdim SS a0).ProdC (N * j + i)
        = a0.ProdC (N * i + j) + cov tdim SS i j * cov tdim SS i j := by
  have key : CovInv N tdim SS a0 N N (covAccumulate N tdim SS a0) := by
    apply forUpTo_inv (fun I a => CovInv N tdim SS a0 I I a) N
      (fun i => forFromTo i N (fun j => covEntry N tdim SS i j)) a0
    · intro i j _ _
      exact ⟨fun hd => by rcases hd with h1 | ⟨h1, h2⟩ <;> omega, fun _ => ⟨rfl, rfl⟩⟩
    · intro I hI st hst
      have row := forFromTo_inv (fun jc a => CovInv N tdim SS a0 I jc a) I N
        (fun j => covEntry N tdim SS I j) st (Nat.le_of_lt hI) hst
        (fun j hlo hhi st1 hst1 => covEntry_inv N tdim SS a0 I j st1 hlo hhi hst1)
      intro i j hij hj
      have hiff : LoopDone (I + 1) (I + 1) i j ↔ LoopDone I N i j := by
        unfold LoopDone; omega
      rw [hiff]
      exact row i j hij hj
  intro i j hij hj
  exact (key i j hij hj).1 (Or.inl (by omega))

theorem flat_index_lt {N i j : Nat} (hi : i < N) (hj : j < N) : N * i + j < N * N := by
  have h1 : N * i + j < N * (i + 1) := by rw [Nat.mul_succ]; omega
  exact Nat.lt_of_lt_of_le h1 (Nat.mul_le_mul_left N hi)

theorem confRun_cov (P : Params) (X : Extern) (mu sd : ℚ) (slot : Nat) (c0 : Cell)
    (cs : Nat → Cell) (hr : IsConfRun P X mu sd slot c0 cs)
    (hz : ∀ i j, i < P.N → j < P.N →
      c0.mem.acc.SumC (P.N * i + j) = 0 ∧ c0.mem.acc.ProdC (P.N * i + j) = 0) :
    ∀ D, D ≤ P.conf_num → ∀ i j, i ≤ j → j < P.N →
      (cs D).mem.acc.SumC (P.N * i + j)
        = ∑ d in Finset.range D, cov P.tdim (cs (d + 1)).mem.SS i j ∧
      (cs D).mem.acc.SumC (P.N * j + i)
        = ∑ d in Finset.range D, cov P.tdim (cs (d + 1)).mem.SS i j ∧
      (cs D).mem.acc.ProdC (P.N * i + j)
        = ∑ d in Finset.range D, cov P.tdim (cs (d + 1)).mem.SS i j ^ 2 ∧
      (cs D).mem.acc.ProdC (P.N * j + i)
        = ∑ d in Finset.range D, cov P.tdim (cs (d + 1)).mem.SS i j ^ 2 := by
  intro D
  induction D with
  | zero =>
    intro _ i j hij hj
    have hi : i < P.N := by omega
    rw [hr.1]
    simp [hz i j hi hj, hz j i hj hi]
  | succ k ih =>
    intro hk i j hij hj
    obtain ⟨i1, _, i3, _⟩ := ih (Nat.le_of_succ_le hk) i j hij hj
    have hb := confBody_inv P X mu sd slot (cs k) (cs (k + 1)) (hr.2 k hk)
    obtain ⟨s1, s2, s3, s4⟩ := covAccumulate_spec P.N P.tdim (cs (k + 1)).mem.SS
      (cs k).mem.acc i j hij hj
    rw [hb.2.2.1, s1, s2, s3, s4, i1, i3, Finset.sum_range_succ, Finset.sum_range_succ, sq]
    exact ⟨rfl, rfl, rfl, rfl⟩

theorem cellInit_acc_zero (P : Params) (mem : Mem) :
    ∀ i j, i < P.N → j < P.N →
      (cellInit P mem).mem.acc.SumC (P.N * i + j) = 0 ∧
      (cellInit P mem).mem.acc.ProdC (P.N * i + j) = 0 := by
  intro i j hi hj
  simp [cellInit, memsetZero, flat_index_lt hi hj]

theorem confRun_cov_minmax (P : Params) (X : Extern) (mu sd : ℚ) (slot : Nat) (mem : Mem)
    (cs : Nat → Cell) (hr : IsConfRun P X mu sd slot (cellInit P mem) cs) :
    ∀ D, D ≤ P.conf_num → ∀ i j, i < P.N → j < P.N →
      CovArr P.N (cs D).mem.acc.SumC i j
        = ∑ d in Finset.range D, cov P.tdim (cs (d + 1)).mem.SS (min i j) (max i j) ∧
      CovArr P.N (cs D).mem.acc.ProdC i j
        = ∑ d in Finset.range D, cov P.tdim (cs (d + 1)).mem.SS (min i j) (max i j) ^ 2 := by
  intro D hD i j hi hj
  have key := confRun_cov P X mu sd slot (cellInit P mem) cs hr (cellInit_acc_zero P mem) D hD
  unfold CovArr
  rcases Nat.le_total i j with hij | hij
  · obtain ⟨k1, _, k3, _⟩ := key i j hij hj
    rw [Nat.min_eq_left hij, Nat.max_eq_right hij]
    exact ⟨k1, k3⟩
  · obtain ⟨_, k2, _, k4⟩ := key j i hij hi
    rw [Nat.min_eq_right hij, Nat.max_eq_left hij]
    exact ⟨k2, k4⟩

/-- Claim C16 (covariance accumulators): at the start of a cell `SumC` and
`ProdC` are zero on the whole `N × N` block; the configuration loop of the cell
completes, and after each of its configurations, for every `i, j < N` (both
triangles and the diagonal), `SumC[i][j]` is the sum over the configurations
processed so far of `cov(min(i,j), max(i,j))` and `ProdC[i][j]` the sum of the
squares of those covariances, so that both arrays are symmetric at all times. -/
theorem covariance_accumulators (P : Params) (X : Extern) (mu sd : ℚ) (slot : Nat) (mem : Mem)
    (hX : UniformStream X) :
    (∀ i j, i < P.N → j < P.N →
      CovArr P.N (cellInit P mem).mem.acc.SumC i j = 0 ∧
      CovArr P.N (cellInit P mem).mem.acc.ProdC i j = 0) ∧
    ∃ cs, IsConfRun P X mu sd slot (cellInit P mem) cs ∧
      ∀ D, D ≤ P.conf_num → ∀ i j, i < P.N → j < P.N →
        CovArr P.N (cs D).mem.acc.SumC i j
          = ∑ d in Finset.range D, cov P.tdim (cs (d + 1)).mem.SS (min i j) (max i j) ∧
        CovArr P.N (cs D).mem.acc.ProdC i j
          = ∑ d in Finset.range D, cov P.tdim (cs (d + 1)).mem.SS (min i j) (max i j) ^ 2 ∧
        CovArr P.N (cs D).mem.acc.SumC i j = CovArr P.N (cs D).mem.acc.SumC j i ∧
        CovArr P.N (cs D).mem.acc.ProdC i j = CovArr P.N (cs D).mem.acc.ProdC j i := by
  refine ⟨cellInit_acc_zero P mem, ?_⟩
  obtain ⟨cs, hr, _⟩ := confRun_exists P X mu sd slot hX (cellInit P mem)
  refine ⟨cs, hr, fun D hD i j hi hj => ?_⟩
  obtain ⟨a1, a2⟩ := confRun_cov_minmax P X mu sd slot mem cs hr D hD i j hi hj
  obtain ⟨b1, b2⟩ := confRun_cov_minmax P X mu sd slot mem cs hr D hD j i hj hi
  refine ⟨a1, a2, ?_, ?_⟩
  · rw [a1, b1, Nat.min_comm, Nat.max_comm]
  · rw [a2, b2, Nat.min_comm, Nat.max_comm]

/-! ## Sampling: one trajectory column per sweep -/

theorem forUpToM_inv_of_some {σ : Type} (Inv : Nat → σ → Prop) (n : Nat)
    (body : Nat → σ → Option σ) (init : σ) (h0 : Inv 0 init)
    (hstep : ∀ i, i < n → ∀ st st1, Inv i st → body i st = some st1 → Inv (i + 1) st1) :
    ∀ st1, forUpToM n body init = some st1 → Inv n st1 := by
  induction n with
  | zero =>
    intro st1 h
    have e : init = st1 := Option.some.inj h
    rw [← e]; exact h0
  | succ k ih =>
    intro st1 h
    have hb : (forUpToM k body init).bind (body k) = some st1 := h
    rw [Option.bind_eq_some] at hb
    obtain ⟨stk, e1, e2⟩ := hb
    exact hstep k (Nat.lt_succ_self k) stk st1
      (ih (fun i hi st st2 hst => hstep i (Nat.lt_succ_of_lt hi) st st2 hst) stk e1) e2

theorem recordColumn_exact (N tdim : Nat) (s : Nat → ℤ) (j : Nat) (SS : Nat → ℤ)
    (hj : j < tdim) :
    (∀ i, i < N → recordColumn N tdim s j SS (tdim * i + j) = s i) ∧
    (∀ i t, t < tdim → t ≠ j → recordColumn N tdim s j SS (tdim * i + t) = SS (tdim * i + t)) := by
  have key := forUpTo_inv (fun n (S1 : Nat → ℤ) =>
      (∀ i, i < n → S1 (tdim * i + j) = s i) ∧
      (∀ i t, t < tdim → t ≠ j → S1 (tdim * i + t) = SS (tdim * i + t)))
    N (fun i S1 => Function.update S1 (tdim * i + j) (s i)) SS
    ⟨fun i hi => absurd hi (Nat.not_lt_zero i), fun _ _ _ _ => rfl⟩
    (fun n _ S1 hS1 => by
      beta_reduce at hS1 ⊢
      refine ⟨fun i hi => ?_, fun i t ht hne => ?_⟩
      · by_cases e : i = n
        · subst e; simp
        · have hne : ¬ tdim * i + j = tdim * n + j := by
            rw [flat_index_inj hj hj]; exact fun hh => e hh.1
          rw [Function.update_noteq hne]
          exact hS1.1 i (by omega)
      · have hne2 : ¬ tdim * i + t = tdim * n + j := by
          rw [flat_index_inj ht hj]; exact fun hh => hne hh.2
        rw [Function.update_noteq hne2]
        exact hS1.2 i t ht hne)
  exact key

theorem sweeps_succ (X : Extern) (N : Nat) (J : Nat → ℚ) (n : Nat) (st stn : Spins)
    (h : sweeps X N J n st = some stn) :
    sweeps X N J (n + 1) st = sweep X N J stn := by
  have e : sweeps X N J (n + 1) st = (sweeps X N J n st).bind (sweep X N J) := rfl
  rw [e, h, Option.some_bind]

theorem sampling_columns (X : Extern) (N tdim : Nat) (J : Nat → ℚ) (st0 st1 : Sampling)
    (h : sampling X N tdim J st0 = some st1) :
    sweeps X N J tdim st0.spins = some st1.spins ∧
    ∀ t, t < tdim → ∃ spt, sweeps X N J (t + 1) st0.spins = some spt ∧
      ∀ i, i < N → SSArr tdim st1.SS i t = spt.s i := by
  have key := forUpToM_inv_of_some (fun j (st : Sampling) =>
      sweeps X N J j st0.spins = some st.spins ∧
      ∀ t, t < j → ∃ spt, sweeps X N J (t + 1) st0.spins = some spt ∧
        ∀ i, i < N → st.SS (tdim * i + t) = spt.s i)
    tdim (sampleColumn X N tdim J) st0
    ⟨rfl, fun t ht => absurd ht (Nat.not_lt_zero t)⟩
    (fun j hj st st2 hst hb => by
      obtain ⟨hs, hc⟩ := hst
      unfold sampleColumn at hb
      rw [Option.map_eq_some'] at hb
      obtain ⟨sp, e1, e2⟩ := hb
      subst e2
      have hnext : sweeps X N J (j + 1) st0.spins = some sp := by
        rw [sweeps_succ X N J j st0.spins st.spins hs, e1]
      obtain ⟨r1, r2⟩ := recordColumn_exact N tdim sp.s j st.SS hj
      refine ⟨hnext, fun t ht => ?_⟩
      rcases Nat.lt_succ_iff_lt_or_eq.mp ht with h1 | h1
      · obtain ⟨spt, f1, f2⟩ := hc t h1
        refine ⟨spt, f1, fun i hi => ?_⟩
        show recordColumn N tdim sp.s j st.SS (tdim * i + t) = spt.s i
        rw [r2 i t (by omega) (by omega)]
        exact f2 i hi
      · subst h1
        exact ⟨sp, hnext, fun i hi => r1 i hi⟩)
    st1 h
  exact key

theorem confBody_sampling (P : Params) (X : Extern) (mu sd : ℚ) (slot : Nat) (c c1 : Cell)
    (hb : confBody P X mu sd slot c = some c1) :
    ∃ sp, sweeps X P.N c1.mem.coup.J P.thermal c.mem.spins = some sp ∧
      sweeps X P.N c1.mem.coup.J P.tdim sp = some c1.mem.spins ∧
      (∀ j, j < P.tdim → ∃ spj, sweeps X P.N c1.mem.coup.J (j + 1) sp = some spj ∧
        ∀ i, i < P.N → SSArr P.tdim c1.mem.SS i j = spj.s i) ∧
      (0 < P.tdim → ∀ i, i < P.N → SSArr P.tdim c1.mem.SS i (P.tdim - 1) = c1.mem.spins.s i) := by
  obtain ⟨_, ⟨sp, h1, h2⟩, _⟩ := confBody_inv P X mu sd slot c c1 hb
  obtain ⟨k1, k2⟩ := sampling_columns X P.N P.tdim c1.mem.coup.J _ _ h2
  refine ⟨sp, h1, k1, k2, fun ht i hi => ?_⟩
  obtain ⟨spj, f1, f2⟩ := k2 (P.tdim - 1) (by omega)
  have e : P.tdim - 1 + 1 = P.tdim := by omega
  rw [e] at f1
  have hsp : spj = c1.mem.spins := Option.some.inj (f1.symm.trans k1)
  rw [f2 i hi, hsp]

/-- Claim C17 (sampling): the configuration loop of a cell completes, and in
each configuration `D` the `thermal` equilibration sweeps start from the spin
array left by the previous configuration (`cs D`), the sampling loop then
performs exactly `tdim` sweeps from the state `sp` left by equilibration, and
for every column `j < tdim` and site `i < N` the entry `SS[i][j]` is spin `i`
after the `(j+1)`-th sampling sweep (column 0 is the state after one sweep);
the last column equals the spin array after the configuration, which is the
array from which the next configuration starts. -/
theorem sampling_records_each_sweep (P : Params) (X : Extern) (mu sd : ℚ) (slot : Nat)
    (c0 : Cell) (hX : UniformStream X) :
    ∃ cs, IsConfRun P X mu sd slot c0 cs ∧
      ∀ D, D < P.conf_num →
        ∃ sp, sweeps X P.N (cs (D + 1)).mem.coup.J P.thermal (cs D).mem.spins = some sp ∧
          sweeps X P.N (cs (D + 1)).mem.coup.J P.tdim sp = some (cs (D + 1)).mem.spins ∧
          (∀ j, j < P.tdim →
            ∃ spj, sweeps X P.N (cs (D + 1)).mem.coup.J (j + 1) sp = some spj ∧
              ∀ i, i < P.N → SSArr P.tdim (cs (D + 1)).mem.SS i j = spj.s i) ∧
          (0 < P.tdim → ∀ i, i < P.N →
            SSArr P.tdim (cs (D + 1)).mem.SS i (P.tdim - 1) = (cs (D + 1)).mem.spins.s i) := by
  obtain ⟨cs, hr, _⟩ := confRun_exists P X mu sd slot hX c0
  exact ⟨cs, hr, fun D hD => confBody_sampling P X mu sd slot (cs D) (cs (D + 1)) (hr.2 D hD)⟩

/-! ## Index safety of the sweep -/

theorem truncToInt_site_range (N : Nat) (hN : 0 < N) (u : ℚ) (h0 : 0 ≤ u) (h1 : u < 1) :
    truncToInt ((N : ℚ) * u) = ⌊(N : ℚ) * u⌋ ∧
    0 ≤ truncToInt ((N : ℚ) * u) ∧ truncToInt ((N : ℚ) * u) ≤ (N : ℤ) - 1 := by
  have hNq : (0 : ℚ) < (N : ℚ) := by exact_mod_cast hN
  have hx : 0 ≤ (N : ℚ) * u := mul_nonneg hNq.le h0
  have hlt : (N : ℚ) * u < ((N : ℤ) : ℚ) := by
    have : (N : ℚ) * u < (N : ℚ) * 1 := mul_lt_mul_of_pos_left h1 hNq
    simpa using this
  rw [truncToInt_of_nonneg hx]
  refine ⟨rfl, Int.floor_nonneg.mpr hx, ?_⟩
  have := Int.floor_lt.mpr hlt
  omega

/-- Claim C18 (index safety of `sweep`): for `N > 0` and every uniform `u` with
`0 <= u < 1`, the site `k = N*u` converted to `int` is `floor(N*u)` and
satisfies `0 <= k <= N-1`; hence for a random stream in `[0,1)` the selected
site is below `N`, every index `N*k + j` (`j < N`) read in the coupling array
is below `N*N`, and neither a proposed update nor a sweep ever takes the
out-of-range branch. -/
theorem sweep_index_safety (N : Nat) (hN : 0 < N) :
    (∀ u : ℚ, 0 ≤ u → u < 1 →
      truncToInt ((N : ℚ) * u) = ⌊(N : ℚ) * u⌋ ∧
      0 ≤ truncToInt ((N : ℚ) * u) ∧ truncToInt ((N : ℚ) * u) ≤ (N : ℤ) - 1) ∧
    (∀ X : Extern, UniformStream X → ∀ (J : Nat → ℚ) (st : Spins),
      0 ≤ chosenSite X N st.calls ∧ chosenSite X N st.calls ≤ (N : ℤ) - 1 ∧
      (chosenSite X N st.calls).toNat < N ∧
      (∀ j, j < N → N * (chosenSite X N st.calls).toNat + j < N * N) ∧
      (∃ st1, proposedUpdate X N J st = some st1) ∧
      (∃ st2, sweep X N J st = some st2)) := by
  refine ⟨fun u h0 h1 => truncToInt_site_range N hN u h0 h1, fun X hX J st => ?_⟩
  obtain ⟨h0, h1⟩ := chosenSite_range X N hX hN st.calls
  have hk : (chosenSite X N st.calls).toNat < N := (Int.toNat_lt h0).mpr h1
  exact ⟨h0, by omega, hk, fun j hj => flat_index_lt hk hj,
    proposedUpdate_some X N J hX hN st, sweep_some X N J hX st⟩

/-! ## Susceptibilities are non-negative -/

theorem cov_symm (tdim : Nat) (SS : Nat → ℤ) (k l : Nat) : cov tdim SS k l = cov tdim SS l k := by
  rw [cov_formula, cov_formula]
  congr 1
  · congr 1
    exact Finset.sum_congr rfl (fun t _ => mul_comm _ _)
  · rw [mul_comm (∑ t in Finset.range tdim, (SSArr tdim SS k t : ℚ))]

theorem sum_cov_eq_variance (N tdim : Nat) (SS : Nat → ℤ) :
    ∑ i in Finset.range N, ∑ j in Finset.range N, cov tdim SS i j
      = totalSpinVariance N tdim SS := by
  have h1 : ∑ i in Finset.range N, ∑ j in Finset.range N,
      (∑ t in Finset.range tdim, (SSArr tdim SS i t : ℚ) * (SSArr tdim SS j t : ℚ))
      = ∑ t in Finset.range tdim, totalSpin N tdim SS t ^ 2 := by
    have e : ∀ t, totalSpin N tdim SS t ^ 2
        = ∑ i in Finset.range N, ∑ j in Finset.range N,
            (SSArr tdim SS i t : ℚ) * (SSArr tdim SS j t : ℚ) := by
      intro t
      unfold totalSpin
      rw [sq, Finset.sum_mul_sum]
    calc ∑ i in Finset.range N, ∑ j in Finset.range N,
          (∑ t in Finset.range tdim, (SSArr tdim SS i t : ℚ) * (SSArr tdim SS j t : ℚ))
        = ∑ i in Finset.range N, ∑ t in Finset.range tdim, ∑ j in Finset.range N,
            (SSArr tdim SS i t : ℚ) * (SSArr tdim SS j t : ℚ) :=
          Finset.sum_congr rfl (fun i _ => Finset.sum_comm)
      _ = ∑ t in Finset.range tdim, ∑ i in Finset.range N, ∑ j in Finset.range N,
            (SSArr tdim SS i t : ℚ) * (SSArr tdim SS j t : ℚ) := Finset.sum_comm
      _ = ∑ t in Finset.range tdim, totalSpin N tdim SS t ^ 2 :=
          Finset.sum_congr rfl (fun t _ => (e t).symm)
  have h2 : ∑ i in Finset.range N, (∑ t in Finset.range tdim, (SSArr tdim SS i t : ℚ))
      = ∑ t in Finset.range tdim, totalSpin N tdim SS t := by
    unfold totalSpin
    rw [Finset.sum_comm]
  have h3 : ∑ i in Finset.range N, ∑ j in Finset.range N,
      (∑ t in Finset.range tdim, (SSArr tdim SS i t : ℚ))
        * (∑ t in Finset.range tdim, (SSArr tdim SS j t : ℚ))
      = (∑ t in Finset.range tdim, totalSpin N tdim SS t) ^ 2 := by
    rw [← Finset.sum_mul_sum, h2, sq]
  simp only [cov_formula, Finset.sum_sub_distrib, ← Finset.sum_div, h1, h3]
  unfold totalSpinVariance
  rw [div_pow, sq (tdim : ℚ)]

theorem totalSpinVariance_nonneg (N tdim : Nat) (SS : Nat → ℤ) :
    0 ≤ totalSpinVariance N tdim SS := by
  unfold totalSpinVariance
  rcases Nat.eq_zero_or_pos tdim with hz | hpos
  · subst hz; simp
  · have hT : (0 : ℚ) < (tdim : ℚ) := by exact_mod_cast hpos
    have hcs := sq_sum_le_card_mul_sum_sq (s := Finset.range tdim)
      (f := fun t => totalSpin N tdim SS t)
    rw [Finset.card_range] at hcs
    have hne : (tdim : ℚ) ≠ 0 := ne_of_gt hT
    have e : (∑ t in Finset.range tdim, totalSpin N tdim SS t ^ 2) / (tdim : ℚ)
        - ((∑ t in Finset.range tdim, totalSpin N tdim SS t) / (tdim : ℚ)) ^ 2
        = ((tdim : ℚ) * (∑ t in Finset.range tdim, totalSpin N tdim SS t ^ 2)
            - (∑ t in Finset.range tdim, totalSpin N tdim SS t) ^ 2) / (tdim : ℚ) ^ 2 := by
      field_simp
      ring
    rw [e]
    exact div_nonneg (sub_nonneg.mpr hcs) (sq_nonneg _)

theorem sum_range_flat (N : Nat) (f : Nat → ℚ) :
    ∀ m, ∑ k in Finset.range (N * m), f k
      = ∑ i in Finset.range m, ∑ j in Finset.range N, f (N * i + j) := by
  intro m
  induction m with
  | zero => simp
  | succ n ih => rw [Nat.mul_succ, Finset.sum_range_add, ih, Finset.sum_range_succ]

theorem susceptSums_eq (NN slot : Nat) (acc : CovAcc) (x : Suscept) :
    (susceptSums NN slot acc x).Xuni
      = Function.update x.Xuni slot (x.Xuni slot + ∑ k in Finset.range NN, acc.SumC k) ∧
    (susceptSums NN slot acc x).Xsg
      = Function.update x.Xsg slot (x.Xsg slot + ∑ k in Finset.range NN, acc.ProdC k) := by
  apply forUpTo_inv (fun n (y : Suscept) =>
    y.Xuni = Function.update x.Xuni slot (x.Xuni slot + ∑ k in Finset.range n, acc.SumC k) ∧
    y.Xsg = Function.update x.Xsg slot (x.Xsg slot + ∑ k in Finset.range n, acc.ProdC k))
  · simp
  · rintro n _ y ⟨h1, h2⟩
    rw [h1, h2]
    simp only [Function.update_same, Function.update_idem, Finset.sum_range_succ, add_assoc,
      and_self]

theorem finalize_suscept (P : Params) (slot : Nat) (c : Cell) :
    (finalize P slot c).Xuni = Function.update c.mem.Xuni slot
      ((c.mem.Xuni slot + ∑ k in Finset.range (P.N * P.N), c.mem.acc.SumC k)
        / (1 * (P.N : ℚ) * (P.conf_num : ℚ))) ∧
    (finalize P slot c).Xsg = Function.update c.mem.Xsg slot
      ((c.mem.Xsg slot + ∑ k in Finset.range (P.N * P.N), c.mem.acc.ProdC k)
        / (1 * (P.N : ℚ) * (P.conf_num : ℚ))) := by
  obtain ⟨h1, h2⟩ := susceptSums_eq (P.N * P.N) slot c.mem.acc
    { Xuni := c.mem.Xuni, Xsg := c.mem.Xsg }
  simp only [finalize, h1, h2, Function.update_same, Function.update_idem, and_self]

theorem confRun_frame (P : Params) (X : Extern) (mu sd : ℚ) (slot : Nat) (c0 : Cell)
    (cs : Nat → Cell) (hr : IsConfRun P X mu sd slot c0 cs) :
    ∀ D, D ≤ P.conf_num →
      (cs D).mem.Xuni = c0.mem.Xuni ∧ (cs D).mem.Xsg = c0.mem.Xsg ∧ (cs D).mem.c = c0.mem.c := by
  intro D
  induction D with
  | zero => intro _; rw [hr.1]; exact ⟨rfl, rfl, rfl⟩
  | succ k ih =>
    intro hk
    obtain ⟨i1, i2, i3⟩ := ih (Nat.le_of_succ_le hk)
    have hb := confBody_inv P X mu sd slot (cs k) (cs (k + 1)) (hr.2 k hk)
    exact ⟨hb.2.2.2.2.2.1.trans i1, hb.2.2.2.2.2.2.1.trans i2, hb.2.2.2.2.2.2.2.1.trans i3⟩

theorem computeCell_run (P : Params) (X : Extern) (h : Heap) (A B : Nat) (mem : Mem)
    (hX : UniformStream X) :
    ∃ cs, IsConfRun P X (muAt P h.mu A) (sdAt P h.sd B) (slotOf P A B) (cellInit P mem) cs ∧
      computeCell P X h A B mem = some (finalize P (slotOf P A B) (cs P.conf_num)) := by
  obtain ⟨cs, hr, hl⟩ := confRun_exists P X (muAt P h.mu A) (sdAt P h.sd B) (slotOf P A B) hX
    (cellInit P mem)
  exact ⟨cs, hr, by simp [computeCell, hl P.conf_num]⟩

theorem computeCell_suscept (P : Params) (X : Extern) (h : Heap) (A B : Nat) (mem : Mem)
    (cs : Nat → Cell)
    (hr : IsConfRun P X (muAt P h.mu A) (sdAt P h.sd B) (slotOf P A B) (cellInit P mem) cs) :
    (finalize P (slotOf P A B) (cs P.conf_num)).Xuni = Function.update mem.Xuni (slotOf P A B)
      ((mem.Xuni (slotOf P A B)
          + ∑ k in Finset.range (P.N * P.N), (cs P.conf_num).mem.acc.SumC k)
        / (1 * (P.N : ℚ) * (P.conf_num : ℚ))) ∧
    (finalize P (slotOf P A B) (cs P.conf_num)).Xsg = Function.update mem.Xsg (slotOf P A B)
      ((mem.Xsg (slotOf P A B)
          + ∑ k in Finset.range (P.N * P.N), (cs P.conf_num).mem.acc.ProdC k)
        / (1 * (P.N : ℚ) * (P.conf_num : ℚ))) := by
  obtain ⟨f1, f2, _⟩ := confRun_frame P X _ _ _ _ cs hr P.conf_num (Nat.le_refl _)
  obtain ⟨g1, g2⟩ := finalize_suscept P (slotOf P A B) (cs P.conf_num)
  have z1 : (cellInit P mem).mem.Xuni = mem.Xuni := rfl
  have z2 : (cellInit P mem).mem.Xsg = mem.Xsg := rfl
  rw [g1, g2, f1, f2, z1, z2]
  exact ⟨rfl, rfl⟩

theorem slotOf_inj (P : Params) (A B A1 B1 : Nat) (hB : (B : ℤ) < sd_size P)
    (hB1 : (B1 : ℤ) < sd_size P) : slotOf P A B = slotOf P A1 B1 ↔ A = A1 ∧ B = B1 := by
  unfold slotOf
  exact flat_index_inj (Int.lt_toNat.mpr hB) (Int.lt_toNat.mpr hB1)

theorem visitCell_frame (P : Params) (X : Extern) (h : Heap) (A B : Nat) (hX : UniformStream X)
    (w : World) :
    ∃ w1, visitCell P X h A B w = some w1 ∧
      (∀ A1 B1, ¬ (A1 = A ∧ B1 = B) → w1.store A1 B1 = w.store A1 B1) ∧
      (∀ k, k ≠ slotOf P A B →
        w1.mem.Xuni k = w.mem.Xuni k ∧ w1.mem.Xsg k = w.mem.Xsg k) := by
  cases hp : w.store A B with
  | some e =>
    exact ⟨w, visitCell_present P X h A B w (by simp [hp]), fun _ _ _ => rfl,
      fun _ _ => ⟨rfl, rfl⟩⟩
  | none =>
    obtain ⟨cs, hr, hc⟩ := computeCell_run P X h A B w.mem hX
    obtain ⟨s1, s2⟩ := computeCell_suscept P X h A B w.mem cs hr
    refine ⟨_, visitCell_absent P X h A B w hp _ hc, fun A1 B1 hne => ?_, fun k hk => ?_⟩
    · simp [writeFile, hne]
    · show (finalize P (slotOf P A B) (cs P.conf_num)).Xuni k = w.mem.Xuni k ∧
        (finalize P (slotOf P A B) (cs P.conf_num)).Xsg k = w.mem.Xsg k
      rw [s1, s2, Function.update_noteq hk, Function.update_noteq hk]
      exact ⟨rfl, rfl⟩

theorem scan_visit_fresh (P : Params) (X : Extern) (h : Heap) (store : Store) (A B : Nat)
    (hX : UniformStream X) (hg : InGrid P A B) :
    ∃ wv, scanPrefix P X h A B { mem := initialMem h, store := store, started := [] } = some wv ∧
      wv.store A B = store A B ∧
      wv.mem.Xuni (slotOf P A B) = 0 ∧ wv.mem.Xsg (slotOf P A B) = 0 := by
  have hA : A < (mu_size P).toNat := Int.lt_toNat.mpr hg.1
  have hB : B < (sd_size P).toNat := Int.lt_toNat.mpr hg.2
  obtain ⟨wv, e, i⟩ := scanPrefix_inv P X h
    (fun Ac Bc w => ¬ LoopDone Ac Bc A B →
      w.store A B = store A B ∧
      w.mem.Xuni (slotOf P A B) = 0 ∧ w.mem.Xsg (slotOf P A B) = 0)
    { mem := initialMem h, store := store, started := [] } (fun _ => ⟨rfl, rfl, rfl⟩)
    (fun Ac w _ hw => by
      beta_reduce at hw ⊢
      rw [loopDone_row_end P Ac A B hg]
      exact hw)
    (fun Ac Bc hin w _ hw => by
      beta_reduce at hw ⊢
      obtain ⟨w1, e1, f1, f2⟩ := visitCell_frame P X h Ac Bc hX w
      refine ⟨w1, e1, fun hnd => ?_⟩
      have hne : ¬ (A = Ac ∧ B = Bc) := by
        rintro ⟨rfl, rfl⟩
        exact hnd (Or.inr ⟨rfl, Nat.lt_succ_self _⟩)
      have hne2 : ¬ (Ac = A ∧ Bc = B) := fun hh => hne ⟨hh.1.symm, hh.2.symm⟩
      have hslot : slotOf P A B ≠ slotOf P Ac Bc := by
        rw [Ne, slotOf_inj P A B Ac Bc hg.2 hin.2]; exact hne
      obtain ⟨k1, k2, k3⟩ := hw (fun hd => hnd ((loopDone_next Ac Bc A B hne2).mpr hd))
      rw [f1 A B hne, (f2 _ hslot).1, (f2 _ hslot).2]
      exact ⟨k1, k2, k3⟩)
    A B (Nat.le_of_lt hA) (Nat.le_of_lt hB) (fun _ => hA)
  obtain ⟨i1, i2, i3⟩ := i (by unfold LoopDone; omega)
  exact ⟨wv, e, i1, i2, i3⟩

theorem cov_minmax (tdim : Nat) (SS : Nat → ℤ) (i j : Nat) :
    cov tdim SS (min i j) (max i j) = cov tdim SS i j := by
  rcases Nat.le_total i j with hij | hij
  · rw [Nat.min_eq_left hij, Nat.max_eq_right hij]
  · rw [Nat.min_eq_right hij, Nat.max_eq_left hij, cov_symm]

theorem confRun_sumC_total (P : Params) (X : Extern) (mu sd : ℚ) (slot : Nat) (mem : Mem)
    (cs : Nat → Cell) (hr : IsConfRun P X mu sd slot (cellInit P mem) cs) :
    ∑ k in Finset.range (P.N * P.N), (cs P.conf_num).mem.acc.SumC k
      = ∑ d in Finset.range P.conf_num, totalSpinVariance P.N P.tdim (cs (d + 1)).mem.SS ∧
    0 ≤ ∑ k in Finset.range (P.N * P.N), (cs P.conf_num).mem.acc.SumC k ∧
    0 ≤ ∑ k in Finset.range (P.N * P.N), (cs P.conf_num).mem.acc.ProdC k := by
  have key := confRun_cov_minmax P X mu sd slot mem cs hr P.conf_num (Nat.le_refl _)
  have e1 : ∑ k in Finset.range (P.N * P.N), (cs P.conf_num).mem.acc.SumC k
      = ∑ d in Finset.range P.conf_num, totalSpinVariance P.N P.tdim (cs (d + 1)).mem.SS := by
    rw [sum_range_flat P.N _ P.N]
    calc ∑ i in Finset.range P.N, ∑ j in Finset.range P.N,
          (cs P.conf_num).mem.acc.SumC (P.N * i + j)
        = ∑ i in Finset.range P.N, ∑ j in Finset.range P.N,
            ∑ d in Finset.range P.conf_num, cov P.tdim (cs (d + 1)).mem.SS i j := by
          apply Finset.sum_congr rfl
          intro i hi
          apply Finset.sum_congr rfl
          intro j hj
          have := (key i j (Finset.mem_range.mp hi) (Finset.mem_range.mp hj)).1
          unfold CovArr at this
          rw [this]
          exact Finset.sum_congr rfl (fun d _ => cov_minmax _ _ i j)
      _ = ∑ i in Finset.range P.N, ∑ d in Finset.range P.conf_num,
            ∑ j in Finset.range P.N, cov P.tdim (cs (d + 1)).mem.SS i j :=
          Finset.sum_congr rfl (fun i _ => Finset.sum_comm)
      _ = ∑ d in Finset.range P.conf_num, ∑ i in Finset.range P.N,
            ∑ j in Finset.range P.N, cov P.tdim (cs (d + 1)).mem.SS i j := Finset.sum_comm
      _ = ∑ d in Finset.range P.conf_num,
            totalSpinVariance P.N P.tdim (cs (d + 1)).mem.SS :=
          Finset.sum_congr rfl (fun d _ => sum_cov_eq_variance P.N P.tdim _)
  refine ⟨e1, ?_, ?_⟩
  · rw [e1]
    exact Finset.sum_nonneg (fun d _ => totalSpinVariance_nonneg P.N P.tdim _)
  · rw [sum_range_flat P.N _ P.N]
    apply Finset.sum_nonneg
    intro i hi
    apply Finset.sum_nonneg
    intro j hj
    have := (key i j (Finset.mem_range.mp hi) (Finset.mem_range.mp hj)).2
    unfold CovArr at this
    rw [this]
    exact Finset.sum_nonneg (fun d _ => sq_nonneg _)

/-- Claim C19: for every trajectory the sum over all `N*N` ordered pairs
`(i, j)` of `cov(i, j)` equals the population variance over the `tdim` columns
of the total spin `M(t) = sum over i of SS[i][t]`, which is non-negative;
consequently, for every grid cell that a scan computes, `Xuni[slot]` and
`Xsg[slot]` are still zero when the cell is reached, the sum of all entries of
`SumC` after the configuration loop is the sum of these variances and is
non-negative, the sum of all entries of `ProdC` is non-negative, and the
finalized `Xuni` and `Xsg` of the cell are both `>= 0`. -/
theorem susceptibilities_nonneg (P : Params) (X : Extern) (h : Heap) (store : Store)
    (A B : Nat) (hX : UniformStream X) (hg : InGrid P A B) (habs : store A B = none) :
    (∀ (tdim : Nat) (SS : Nat → ℤ),
      ∑ i in Finset.range P.N, ∑ j in Finset.range P.N, cov tdim SS i j
        = totalSpinVariance P.N tdim SS ∧
      0 ≤ totalSpinVariance P.N tdim SS) ∧
    ∃ wv cs mem1,
      scanPrefix P X h A B { mem := initialMem h, store := store, started := [] } = some wv ∧
      wv.store A B = none ∧
      wv.mem.Xuni (slotOf P A B) = 0 ∧ wv.mem.Xsg (slotOf P A B) = 0 ∧
      IsConfRun P X (muAt P h.mu A) (sdAt P h.sd B) (slotOf P A B) (cellInit P wv.mem) cs ∧
      computeCell P X h A B wv.mem = some mem1 ∧
      (visitCell P X h A B wv).map World.mem = some mem1 ∧
      ∑ k in Finset.range (P.N * P.N), (cs P.conf_num).mem.acc.SumC k
        = ∑ d in Finset.range P.conf_num, totalSpinVariance P.N P.tdim (cs (d + 1)).mem.SS ∧
      0 ≤ ∑ k in Finset.range (P.N * P.N), (cs P.conf_num).mem.acc.SumC k ∧
      0 ≤ ∑ k in Finset.range (P.N * P.N), (cs P.conf_num).mem.acc.ProdC k ∧
      0 ≤ mem1.Xuni (slotOf P A B) ∧ 0 ≤ mem1.Xsg (slotOf P A B) := by
  refine ⟨fun tdim SS => ⟨sum_cov_eq_variance P.N tdim SS, totalSpinVariance_nonneg P.N tdim SS⟩,
    ?_⟩
  obtain ⟨wv, ev, sv, x1, x2⟩ := scan_visit_fresh P X h store A B hX hg
  have sv0 : wv.store A B = none := by rw [sv]; exact habs
  obtain ⟨cs, hr, hc⟩ := computeCell_run P X h A B wv.mem hX
  obtain ⟨s1, s2⟩ := computeCell_suscept P X h A B wv.mem cs hr
  obtain ⟨t1, t2, t3⟩ := confRun_sumC_total P X _ _ _ wv.mem cs hr
  have hden : (0 : ℚ) ≤ 1 * (P.N : ℚ) * (P.conf_num : ℚ) := by positivity
  refine ⟨wv, cs, _, ev, sv0, x1, x2, hr, hc, ?_, t1, t2, t3, ?_, ?_⟩
  · rw [visitCell_absent P X h A B wv sv0 _ hc]; rfl
  · rw [s1, Function.update_same, x1, zero_add]
    exact div_nonneg t2 hden
  · rw [s2, Function.update_same, x2, zero_add]
    exact div_nonneg t3 hden

/-! ## Specific heat is non-negative -/

theorem energy_moments_ineq (N tdim : Nat) (J : Nat → ℚ) (SS : Nat → ℤ) :
    sumERef N tdim J SS ^ 2 ≤ ((tdim - 1 : ℕ) : ℚ) * sumE2Ref N tdim J SS ∧
    ((tdim - 1 : ℕ) : ℚ) * sumE2Ref N tdim J SS ≤ (tdim : ℚ) * sumE2Ref N tdim J SS ∧
    0 ≤ sumE2Ref N tdim J SS / (tdim : ℚ)
      - sumERef N tdim J SS ^ 2 / ((tdim : ℚ) * (tdim : ℚ)) := by
  have hcs := sq_sum_le_card_mul_sum_sq (s := Finset.Ico 1 tdim)
    (f := fun t => energyRef N tdim J SS t)
  rw [Nat.card_Ico] at hcs
  have hq : 0 ≤ sumE2Ref N tdim J SS := Finset.sum_nonneg (fun t _ => sq_nonneg _)
  have hle : ((tdim - 1 : ℕ) : ℚ) ≤ (tdim : ℚ) := by exact_mod_cast Nat.sub_le tdim 1
  have h1 : sumERef N tdim J SS ^ 2 ≤ ((tdim - 1 : ℕ) : ℚ) * sumE2Ref N tdim J SS := hcs
  have h2 : ((tdim - 1 : ℕ) : ℚ) * sumE2Ref N tdim J SS ≤ (tdim : ℚ) * sumE2Ref N tdim J SS :=
    mul_le_mul_of_nonneg_right hle hq
  refine ⟨h1, h2, ?_⟩
  rcases Nat.eq_zero_or_pos tdim with hz | hpos
  · subst hz; simp
  · have hT : (0 : ℚ) < (tdim : ℚ) := by exact_mod_cast hpos
    have hne : (tdim : ℚ) ≠ 0 := ne_of_gt hT
    have e : sumE2Ref N tdim J SS / (tdim : ℚ)
        - sumERef N tdim J SS ^ 2 / ((tdim : ℚ) * (tdim : ℚ))
        = ((tdim : ℚ) * sumE2Ref N tdim J SS - sumERef N tdim J SS ^ 2)
            / ((tdim : ℚ) * (tdim : ℚ)) := by
      field_simp
      ring
    rw [e]
    exact div_nonneg (sub_nonneg.mpr (h1.trans h2)) (mul_nonneg hT.le hT.le)

theorem finalize_c (P : Params) (slot : Nat) (c : Cell) :
    (finalize P slot c).c slot =
      (c.SumProdE / (P.tdim : ℚ) - c.ProdSumE / ((P.tdim : ℚ) * (P.tdim : ℚ)))
        / ((P.N : ℚ) * (P.conf_num : ℚ)) := by
  simp only [finalize, Function.update_same, one_mul]

/-- Claim C20: for every coupling matrix and trajectory, the energy sums of one
configuration (taken over the columns `t = 1 .. tdim-1`) satisfy
`sumE^2 <= (tdim-1)*sumE2 <= tdim*sumE2`, hence
`sumE2/tdim - sumE^2/tdim^2 >= 0`; and the computation of a cell completes with
a finalized specific heat `c >= 0`. -/
theorem specific_heat_nonneg (P : Params) (X : Extern) (h : Heap) (A B : Nat)
    (hX : UniformStream X) :
    (∀ (J : Nat → ℚ) (SS : Nat → ℤ),
      (energySums P.N P.tdim J SS).sumE ^ 2
        ≤ ((P.tdim - 1 : ℕ) : ℚ) * (energySums P.N P.tdim J SS).sumE2 ∧
      ((P.tdim - 1 : ℕ) : ℚ) * (energySums P.N P.tdim J SS).sumE2
        ≤ (P.tdim : ℚ) * (energySums P.N P.tdim J SS).sumE2 ∧
      0 ≤ (energySums P.N P.tdim J SS).sumE2 / (P.tdim : ℚ)
        - (energySums P.N P.tdim J SS).sumE ^ 2 / ((P.tdim : ℚ) * (P.tdim : ℚ))) ∧
    (∀ mem : Mem, ∃ mem1, computeCell P X h A B mem = some mem1 ∧
      0 ≤ mem1.c (slotOf P A B)) := by
  constructor
  · intro J SS
    obtain ⟨e1, e2⟩ := energySums_eq_ref P.N P.tdim J SS
    rw [e1, e2]
    exact energy_moments_ineq P.N P.tdim J SS
  · intro mem
    obtain ⟨cs, hr, hc⟩ := computeCell_run P X h A B mem hX
    obtain ⟨m1, m2⟩ := confRun_moments P X _ _ _ _ cs hr P.conf_num (Nat.le_refl _)
    refine ⟨_, hc, ?_⟩
    have z1 : (cellInit P mem).SumProdE = 0 := rfl
    have z2 : (cellInit P mem).ProdSumE = 0 := rfl
    rw [finalize_c, m1, m2, z1, z2, zero_add, zero_add]
    apply div_nonneg _ (by positivity)
    rw [Finset.sum_div, Finset.sum_div, ← Finset.sum_sub_distrib]
    exact Finset.sum_nonneg (fun d _ => (energy_moments_ineq P.N P.tdim _ _).2.2)

/-! ## Further instances of theorems with hypotheses -/

theorem result_entry_fields_witness :
    ∃ (mem1 : Mem) (wf : World), main tinyParams zeroExtern (staleHeap 0 0) (fun _ _ => none) = some wf ∧
      wf.store 0 0 = some
        [tinyParams.mu_min + ((0 : ℕ) : ℚ) * tinyParams.mu_step,
         tinyParams.sd_min + ((0 : ℕ) : ℚ) * tinyParams.sd_step,
         mem1.Xsg (slotOf tinyParams 0 0), mem1.Xuni (slotOf tinyParams 0 0),
         mem1.q (slotOf tinyParams 0 0), mem1.m (slotOf tinyParams 0 0),
         mem1.c (slotOf tinyParams 0 0)] := by
  obtain ⟨_, mem1, wf, _, _, _, _, _, hm, hs⟩ :=
    result_entry_fields tinyParams zeroExtern (staleHeap 0 0) (fun _ _ => none) 0 0
      (fun n => by simp [zeroExtern])
      ⟨by rw [tiny_sizes.1]; decide, by rw [tiny_sizes.2]; decide⟩ rfl
  exact ⟨mem1, wf, hm, hs⟩

theorem proposed_update_rule_witness :
    (chosenSite zeroExtern 2 0).toNat < 2 ∧
    ∃ st2, sweep zeroExtern 2 (fun _ => 0) { s := fun _ => 1, calls := 0 } = some st2 ∧
      0 + 2 ≤ st2.calls ∧ st2.calls ≤ 0 + 2 * 2 :=
  ⟨(proposed_update_rule zeroExtern 2 (fun _ => 0) (fun n => by simp [zeroExtern])
      (by decide) { s := fun _ => 1, calls := 0 }).2.1,
   (proposed_update_rule zeroExtern 2 (fun _ => 0) (fun n => by simp [zeroExtern])
      (by decide) { s := fun _ => 1, calls := 0 }).2.2.2.2.2.2⟩

theorem energy_change_of_flip_witness :
    configEnergy 2 (fun k => if k = 1 ∨ k = 2 then 1 else 0)
        (Function.update (fun _ => 1) 0 (-((fun _ => 1 : Nat → ℤ) 0)))
      - configEnergy 2 (fun k => if k = 1 ∨ k = 2 then 1 else 0) (fun _ => 1)
      = 2 * deltaE 2 (fun k => if k = 1 ∨ k = 2 then 1 else 0) (fun _ => 1) 0 :=
  ((energy_change_of_flip 2 (fun k => if k = 1 ∨ k = 2 then 1 else 0)
    ⟨fun i j hi hj => by interval_cases i <;> interval_cases j <;> simp [JArr],
     fun i hi => by interval_cases i <;> simp [JArr]⟩).2 (fun _ => 1) 0 (by decide)).2

theorem fill_draws_per_pair_witness :
    JArr 2 (fillInteractions zeroExtern 2 0 0 { J := fun _ => 0, draws := 0 }).J 0 1
      = 0 + zeroExtern.gsl_ran_gaussian_ziggurat (0 + pairIndex 2 0 1) 0 ∧
    JArr 2 (fillInteractions zeroExtern 2 0 0 { J := fun _ => 0, draws := 0 }).J 1 0
      = 0 + zeroExtern.gsl_ran_gaussian_ziggurat (0 + pairIndex 2 0 1) 0 :=
  (fill_draws_per_pair zeroExtern 2 0 0 { J := fun _ => 0, draws := 0 }).2.2.1 0 1
    (by decide) (by decide)

theorem covariance_accumulators_witness :
    CovArr tinyParams.N (cellInit tinyParams (initialMem (staleHeap 0 0))).mem.acc.SumC 0 0 = 0 ∧
    CovArr tinyParams.N (cellInit tinyParams (initialMem (staleHeap 0 0))).mem.acc.ProdC 0 0 = 0 :=
  (covariance_accumulators tinyParams zeroExtern 0 0 0 (initialMem (staleHeap 0 0))
    (fun n => by simp [zeroExtern])).1 0 0 (by decide) (by decide)

theorem sampling_records_each_sweep_witness :
    ∃ cs sp,
      IsConfRun tinyParams zeroExtern 0 0 0 (cellInit tinyParams (initialMem (staleHeap 0 0))) cs ∧
      sweeps zeroExtern tinyParams.N (cs 1).mem.coup.J tinyParams.thermal (cs 0).mem.spins
        = some sp ∧
      sweeps zeroExtern tinyParams.N (cs 1).mem.coup.J tinyParams.tdim sp
        = some (cs 1).mem.spins ∧
      ∀ i, i < tinyParams.N →
        SSArr tinyParams.tdim (cs 1).mem.SS i (tinyParams.tdim - 1) = (cs 1).mem.spins.s i := by
  obtain ⟨cs, hr, hall⟩ := sampling_records_each_sweep tinyParams zeroExtern 0 0 0
    (cellInit tinyParams (initialMem (staleHeap 0 0))) (fun n => by simp [zeroExtern])
  obtain ⟨sp, h1, h2, _, h4⟩ := hall 0 (by decide)
  exact ⟨cs, sp, hr, h1, h2, h4 (by decide)⟩

theorem sweep_index_safety_witness :
    truncToInt (((2 : ℕ) : ℚ) * (1 / 2)) = ⌊((2 : ℕ) : ℚ) * (1 / 2)⌋ ∧
    0 ≤ truncToInt (((2 : ℕ) : ℚ) * (1 / 2)) ∧
    truncToInt (((2 : ℕ) : ℚ) * (1 / 2)) ≤ ((2 : ℕ) : ℤ) - 1 :=
  (sweep_index_safety 2 (by decide)).1 (1 / 2) (by norm_num) (by norm_num)

theorem susceptibilities_nonneg_witness :
    ∃ wv mem1,
      scanPrefix tinyParams zeroExtern (staleHeap 0 0) 0 0
        { mem := initialMem (staleHeap 0 0), store := fun _ _ => none, started := [] }
        = some wv ∧
      computeCell tinyParams zeroExtern (staleHeap 0 0) 0 0 wv.mem = some mem1 ∧
      0 ≤ mem1.Xuni (slotOf tinyParams 0 0) ∧ 0 ≤ mem1.Xsg (slotOf tinyParams 0 0) := by
  obtain ⟨_, wv, _, mem1, h1, _, _, _, _, h6, _, _, _, _, h11, h12⟩ :=
    susceptibilities_nonneg tinyParams zeroExtern (staleHeap 0 0) (fun _ _ => none) 0 0
      (fun n => by simp [zeroExtern])
      ⟨by rw [tiny_sizes.1]; decide, by rw [tiny_sizes.2]; decide⟩ rfl
  exact ⟨wv, mem1, h1, h6, h11, h12⟩

theorem specific_heat_nonneg_witness :
    ∃ mem1, computeCell tinyParams zeroExtern (staleHeap 0 0) 0 0 (initialMem (staleHeap 0 0))
        = some mem1 ∧ 0 ≤ mem1.c (slotOf tinyParams 0 0) :=
  (specific_heat_nonneg tinyParams zeroExtern (staleHeap 0 0) 0 0
    (fun n => by simp [zeroExtern])).2 (initialMem (staleHeap 0 0))

/-! ## Two processes racing on one cell -/

theorem procStep_inv (P : Params) (X : Extern) (h : Heap) (A B : Nat) (p q : Proc)
    (st st1 : Store) (m0 r : Mem) (hc : computeCell P X h A B m0 = some r)
    (hp : ProcAt p m0 r) (hs : procStep P X h A B p st = some (q, st1)) :
    ProcAt q m0 r ∧
    (∀ A1 B1, ¬ (A1 = A ∧ B1 = B) → st1 A1 B1 = st A1 B1) ∧
    (q.stage = Stage.done → st1 A B = some (resultLine P h A B r)) ∧
    stepsLeft p.stage = stepsLeft q.stage + 1 := by
  obtain ⟨stage, mem⟩ := p
  rcases hp with ⟨e1, e2⟩ | ⟨e1, e2⟩ | ⟨e1, e2⟩ | ⟨e1, e2⟩ | ⟨e1, e2⟩ <;>
    simp only at e1 e2 <;> subst e1 <;> subst e2
  · simp only [procStep, Option.some.injEq, Prod.mk.injEq] at hs
    obtain ⟨rfl, rfl⟩ := hs
    refine ⟨Or.inr (Or.inl ⟨rfl, rfl⟩), fun A1 B1 hne => by simp [writeFile, hne],
      fun hd => by simp at hd, rfl⟩
  · simp only [procStep, hc, Option.map_some', Option.some.injEq, Prod.mk.injEq] at hs
    obtain ⟨rfl, rfl⟩ := hs
    refine ⟨Or.inr (Or.inr (Or.inl ⟨rfl, rfl⟩)), fun _ _ _ => rfl, fun hd => by simp at hd, rfl⟩
  · simp only [procStep, Option.some.injEq, Prod.mk.injEq] at hs
    obtain ⟨rfl, rfl⟩ := hs
    refine ⟨Or.inr (Or.inr (Or.inr (Or.inl ⟨rfl, rfl⟩))),
      fun A1 B1 hne => by simp [writeFile, hne], fun hd => by simp at hd, rfl⟩
  · simp only [procStep, Option.some.injEq, Prod.mk.injEq] at hs
    obtain ⟨rfl, rfl⟩ := hs
    refine ⟨Or.inr (Or.inr (Or.inr (Or.inr ⟨rfl, rfl⟩))),
      fun A1 B1 hne => by simp [writeFile, hne], fun _ => by simp [writeFile], rfl⟩
  · simp [procStep] at hs

theorem procStep_some (P : Params) (X : Extern) (h : Heap) (A B : Nat) (p : Proc) (st : Store)
    (m0 r : Mem) (hc : computeCell P X h A B m0 = some r) (hp : ProcAt p m0 r)
    (hl : 0 < stepsLeft p.stage) : ∃ q st1, procStep P X h A B p st = some (q, st1) := by
  obtain ⟨stage, mem⟩ := p
  rcases hp with ⟨e1, e2⟩ | ⟨e1, e2⟩ | ⟨e1, e2⟩ | ⟨e1, e2⟩ | ⟨e1, e2⟩ <;>
    simp only at e1 e2 <;> subst e1 <;> subst e2
  · exact ⟨_, _, rfl⟩
  · exact ⟨{ stage := Stage.reopen, mem := r }, st, by simp [procStep, hc]⟩
  · exact ⟨_, _, rfl⟩
  · exact ⟨_, _, rfl⟩
  · simp [stepsLeft] at hl

theorem raceStep_inv (P : Params) (X1 X2 : Extern) (h1 h2 : Heap) (A B : Nat) (st0 : Store)
    (m1 m2 r1 r2 : Mem) (hc1 : computeCell P X1 h1 A B m1 = some r1)
    (hc2 : computeCell P X2 h2 A B m2 = some r2) (b : Bool) (s s1 : Race)
    (hi : RaceInv P h1 h2 A B st0 m1 m2 r1 r2 s)
    (hs : raceStep P X1 X2 h1 h2 A B b s = some s1) :
    RaceInv P h1 h2 A B st0 m1 m2 r1 r2 s1 := by
  obtain ⟨i1, i2, i3, _⟩ := hi
  cases b with
  | true =>
    simp only [raceStep, if_true, Option.map_eq_some'] at hs
    obtain ⟨⟨q, st1⟩, e1, e2⟩ := hs
    subst e2
    obtain ⟨k1, k2, k3, _⟩ := procStep_inv P X1 h1 A B s.p1 q s.store st1 m1 r1 hc1 i2 e1
    exact ⟨fun A1 B1 hne => (k2 A1 B1 hne).trans (i1 A1 B1 hne), k1, i3,
      fun hd _ => Or.inl (k3 hd)⟩
  | false =>
    simp only [raceStep, Bool.false_eq_true, if_false, Option.map_eq_some'] at hs
    obtain ⟨⟨q, st1⟩, e1, e2⟩ := hs
    subst e2
    obtain ⟨k1, k2, k3, _⟩ := procStep_inv P X2 h2 A B s.p2 q s.store st1 m2 r2 hc2 i3 e1
    exact ⟨fun A1 B1 hne => (k2 A1 B1 hne).trans (i1 A1 B1 hne), i2, k1,
      fun _ hd => Or.inr (k3 hd)⟩

theorem raceRun_inv (P : Params) (X1 X2 : Extern) (h1 h2 : Heap) (A B : Nat) (st0 : Store)
    (m1 m2 r1 r2 : Mem) (hc1 : computeCell P X1 h1 A B m1 = some r1)
    (hc2 : computeCell P X2 h2 A B m2 = some r2) :
    ∀ (sched : List Bool) (s s1 : Race), RaceInv P h1 h2 A B st0 m1 m2 r1 r2 s →
      raceRun P X1 X2 h1 h2 A B sched s = some s1 → RaceInv P h1 h2 A B st0 m1 m2 r1 r2 s1 := by
  intro sched
  induction sched with
  | nil =>
    intro s s1 hi hr
    have e : s = s1 := Option.some.inj hr
    rw [← e]; exact hi
  | cons b rest ih =>
    intro s s1 hi hr
    simp only [raceRun, Option.bind_eq_some] at hr
    obtain ⟨s2, e1, e2⟩ := hr
    exact ih s2 s1 (raceStep_inv P X1 X2 h1 h2 A B st0 m1 m2 r1 r2 hc1 hc2 b s s2 hi e1) e2

theorem stepsLeft_zero (p : Proc) (m0 r : Mem) (hp : ProcAt p m0 r)
    (hz : stepsLeft p.stage = 0) : p.stage = Stage.done := by
  rcases hp with ⟨e, _⟩ | ⟨e, _⟩ | ⟨e, _⟩ | ⟨e, _⟩ | ⟨e, _⟩ <;> rw [e] at hz ⊢ <;>
    simp [stepsLeft] at hz ⊢

theorem raceRun_complete (P : Params) (X1 X2 : Extern) (h1 h2 : Heap) (A B : Nat) (st0 : Store)
    (m1 m2 r1 r2 : Mem) (hc1 : computeCell P X1 h1 A B m1 = some r1)
    (hc2 : computeCell P X2 h2 A B m2 = some r2) :
    ∀ (sched : List Bool) (s : Race), RaceInv P h1 h2 A B st0 m1 m2 r1 r2 s →
      sched.count true = stepsLeft s.p1.stage → sched.count false = stepsLeft s.p2.stage →
      ∃ s1, raceRun P X1 X2 h1 h2 A B sched s = some s1 ∧
        s1.p1.stage = Stage.done ∧ s1.p2.stage = Stage.done := by
  intro sched
  induction sched with
  | nil =>
    intro s hi c1 c2
    exact ⟨s, rfl, stepsLeft_zero s.p1 m1 r1 hi.2.1 (by simpa using c1.symm),
      stepsLeft_zero s.p2 m2 r2 hi.2.2.1 (by simpa using c2.symm)⟩
  | cons b rest ih =>
    intro s hi c1 c2
    cases b with
    | true =>
      rw [List.count_cons_self] at c1
      rw [List.count_cons_of_ne (by decide)] at c2
      obtain ⟨q, st1, e⟩ := procStep_some P X1 h1 A B s.p1 s.store m1 r1 hc1 hi.2.1 (by omega)
      have hstep : raceStep P X1 X2 h1 h2 A B true s
          = some { p1 := q, p2 := s.p2, store := st1 } := by
        simp [raceStep, e]
      have hl := (procStep_inv P X1 h1 A B s.p1 q s.store st1 m1 r1 hc1 hi.2.1 e).2.2.2
      obtain ⟨s1, f1, f2, f3⟩ := ih { p1 := q, p2 := s.p2, store := st1 }
        (raceStep_inv P X1 X2 h1 h2 A B st0 m1 m2 r1 r2 hc1 hc2 true s _ hi hstep)
        (by simp only; omega) c2
      exact ⟨s1, by simp [raceRun, hstep, f1], f2, f3⟩
    | false =>
      rw [List.count_cons_self] at c2
      rw [List.count_cons_of_ne (by decide)] at c1
      obtain ⟨q, st1, e⟩ := procStep_some P X2 h2 A B s.p2 s.store m2 r2 hc2 hi.2.2.1 (by omega)
      have hstep : raceStep P X1 X2 h1 h2 A B false s
          = some { p1 := s.p1, p2 := q, store := st1 } := by
        simp [raceStep, e]
      have hl := (procStep_inv P X2 h2 A B s.p2 q s.store st1 m2 r2 hc2 hi.2.2.1 e).2.2.2
      obtain ⟨s1, f1, f2, f3⟩ := ih { p1 := s.p1, p2 := q, store := st1 }
        (raceStep_inv P X1 X2 h1 h2 A B st0 m1 m2 r1 r2 hc1 hc2 false s _ hi hstep)
        c1 (by simp only; omega)
      exact ⟨s1, by simp [raceRun, hstep, f1], f2, f3⟩

theorem procAt_done (p : Proc) (m0 r : Mem) (hp : ProcAt p m0 r) (hd : p.stage = Stage.done) :
    p.mem = r := by
  rcases hp with ⟨e, _⟩ | ⟨e, _⟩ | ⟨e, _⟩ | ⟨e, _⟩ | ⟨_, e⟩
  · rw [e] at hd; cases hd
  · rw [e] at hd; cases hd
  · rw [e] at hd; cases hd
  · rw [e] at hd; cases hd
  · exact e

theorem process_alone_agrees_with_visitCell (P : Params) (X1 X2 : Extern) (h1 h2 : Heap)
    (A B : Nat) (w : World) (p2 : Proc) :
    ((w.store A B).isSome = true →
      visitCell P X1 h1 A B w = some w ∧
      raceRun P X1 X2 h1 h2 A B [true]
          { p1 := { stage := Stage.check, mem := w.mem }, p2 := p2, store := w.store }
        = some { p1 := { stage := Stage.done, mem := w.mem }, p2 := p2, store := w.store }) ∧
    (w.store A B = none → ∀ r, computeCell P X1 h1 A B w.mem = some r →
      ∃ w1 s1, visitCell P X1 h1 A B w = some w1 ∧
        raceRun P X1 X2 h1 h2 A B [true, true, true, true, true]
            { p1 := { stage := Stage.check, mem := w.mem }, p2 := p2, store := w.store }
          = some s1 ∧
        s1.p1 = { stage := Stage.done, mem := w1.mem } ∧ s1.p2 = p2 ∧
        ∀ A1 B1, s1.store A1 B1 = w1.store A1 B1) := by
  constructor
  · intro hp
    exact ⟨visitCell_present P X1 h1 A B w hp, by simp [raceRun, raceStep, procStep, hp]⟩
  · intro hp r hc
    refine ⟨_, { p1 := { stage := Stage.done, mem := r }, p2 := p2,
                 store := writeFile (writeFile (writeFile w.store A B []) A B []) A B
                   (resultLine P h1 A B r) },
      visitCell_absent P X1 h1 A B w hp r hc,
      by simp [raceRun, raceStep, procStep, hp, hc], rfl, rfl, fun A1 B1 => ?_⟩
    by_cases hk : A1 = A ∧ B1 = B <;> simp [writeFile, hk]

/-- Race at the granularity of the result store, where a write replaces the
whole entry of the cell: two processes run the same program on the same grid
cell, each with its own arrays and generators, against one result store in
which the cell has no entry.  Both
`access` tests, in either order, find the file absent; both processes then
create the marker, compute the cell and write their result, and under every
interleaving of these steps no entry of another cell changes; when both have
left the loop body each holds the arrays of its own computation and the entry
of the cell is the complete seven-field line `mu, sd, Xsg, Xuni, q, m, c` of
one of the two.  Every schedule giving each process its four remaining steps
runs to that end. -/
theorem race_leaves_complete_entry (P : Params) (X1 X2 : Extern) (h1 h2 : Heap) (A B : Nat)
    (store : Store) (m1 m2 : Mem) (hX1 : UniformStream X1) (hX2 : UniformStream X2)
    (hg : InGrid P A B) (habs : store A B = none) :
    ∃ r1 r2, computeCell P X1 h1 A B m1 = some r1 ∧ computeCell P X2 h2 A B m2 = some r2 ∧
      (∀ b : Bool, raceRun P X1 X2 h1 h2 A B [b, !b]
          { p1 := { stage := Stage.check, mem := m1 },
            p2 := { stage := Stage.check, mem := m2 }, store := store }
        = some { p1 := { stage := Stage.marker, mem := m1 },
                 p2 := { stage := Stage.marker, mem := m2 }, store := store }) ∧
      (∀ (sched : List Bool) (s1 : Race),
        raceRun P X1 X2 h1 h2 A B sched
          { p1 := { stage := Stage.marker, mem := m1 },
            p2 := { stage := Stage.marker, mem := m2 }, store := store } = some s1 →
        (∀ A1 B1, ¬ (A1 = A ∧ B1 = B) → s1.store A1 B1 = store A1 B1) ∧
        (s1.p1.stage = Stage.done → s1.p2.stage = Stage.done →
          s1.p1.mem = r1 ∧ s1.p2.mem = r2 ∧
          (s1.store A B = some
              [P.mu_min + (A : ℚ) * P.mu_step, P.sd_min + (B : ℚ) * P.sd_step,
               r1.Xsg (slotOf P A B), r1.Xuni (slotOf P A B), r1.q (slotOf P A B),
               r1.m (slotOf P A B), r1.c (slotOf P A B)] ∨
            s1.store A B = some
              [P.mu_min + (A : ℚ) * P.mu_step, P.sd_min + (B : ℚ) * P.sd_step,
               r2.Xsg (slotOf P A B), r2.Xuni (slotOf P A B), r2.q (slotOf P A B),
               r2.m (slotOf P A B), r2.c (slotOf P A B)]))) ∧
      (∀ sched : List Bool, sched.count true = 4 → sched.count false = 4 →
        ∃ s1, raceRun P X1 X2 h1 h2 A B sched
            { p1 := { stage := Stage.marker, mem := m1 },
              p2 := { stage := Stage.marker, mem := m2 }, store := store } = some s1 ∧
          s1.p1.stage = Stage.done ∧ s1.p2.stage = Stage.done) := by
  obtain ⟨r1, hc1⟩ := computeCell_some P X1 h1 A B hX1 m1
  obtain ⟨r2, hc2⟩ := computeCell_some P X2 h2 A B hX2 m2
  have hstart : RaceInv P h1 h2 A B store m1 m2 r1 r2
      { p1 := { stage := Stage.marker, mem := m1 },
        p2 := { stage := Stage.marker, mem := m2 }, store := store } :=
    ⟨fun _ _ _ => rfl, Or.inl ⟨rfl, rfl⟩, Or.inl ⟨rfl, rfl⟩, fun hd => by simp at hd⟩
  refine ⟨r1, r2, hc1, hc2, fun b => ?_, fun sched s1 hr => ?_, fun sched c1 c2 => ?_⟩
  · cases b <;> simp [raceRun, raceStep, procStep, habs]
  · obtain ⟨i1, i2, i3, i4⟩ := raceRun_inv P X1 X2 h1 h2 A B store m1 m2 r1 r2 hc1 hc2
      sched _ s1 hstart hr
    refine ⟨i1, fun d1 d2 => ⟨procAt_done _ m1 r1 i2 d1, procAt_done _ m2 r2 i3 d2, ?_⟩⟩
    rw [← resultLine_eq P h1 A B r1 hg, ← resultLine_eq P h2 A B r2 hg]
    exact i4 d1 d2
  · exact raceRun_complete P X1 X2 h1 h2 A B store m1 m2 r1 r2 hc1 hc2 sched _ hstart c1 c2

theorem race_leaves_complete_entry_witness :
    ∃ s1, raceRun tinyParams zeroExtern zeroExtern (staleHeap 0 0) (staleHeap 1 1) 0 0
        [true, false, false, true, true, false, false, true]
        { p1 := { stage := Stage.marker, mem := initialMem (staleHeap 0 0) },
          p2 := { stage := Stage.marker, mem := initialMem (staleHeap 1 1) },
          store := fun _ _ => none } = some s1 ∧
      s1.p1.stage = Stage.done ∧ s1.p2.stage = Stage.done := by
  obtain ⟨_, _, _, _, _, _, hall⟩ :=
    race_leaves_complete_entry tinyParams zeroExtern zeroExtern (staleHeap 0 0) (staleHeap 1 1)
      0 0 (fun _ _ => none) (initialMem (staleHeap 0 0)) (initialMem (staleHeap 1 1))
      (fun n => by simp [zeroExtern]) (fun n => by simp [zeroExtern])
      ⟨by rw [tiny_sizes.1]; decide, by rw [tiny_sizes.2]; decide⟩ rfl
  exact hall [true, false, false, true, true, false, false, true] (by decide) (by decide)

/-! ## Two processes racing on the files of one cell -/

theorem overwrite_nil (a : List Char) : overwrite a [] = a := by
  simp [overwrite]

theorem overwrite_self (a : List Char) : overwrite a a = a := by
  simp [overwrite]

theorem overwrite_length (a b : List Char) :
    (overwrite a b).length = max a.length b.length := by
  simp only [overwrite, List.length_append, List.length_drop]
  omega

theorem overwrite_of_length_le (a b : List Char) (h : b.length ≤ a.length) :
    overwrite a b = a := by
  simp [overwrite, List.drop_eq_nil_of_le h]

theorem overwrite_overwrite_same (a b : List Char) :
    overwrite a (overwrite a b) = overwrite a b := by
  simp [overwrite]

theorem overwrite_overwrite_other (a b : List Char) :
    overwrite a (overwrite b a) = a ∨ overwrite a (overwrite b a) = overwrite a b := by
  by_cases h : b.length ≤ a.length
  · left
    apply overwrite_of_length_le
    rw [overwrite_length]
    exact max_le h le_rfl
  · right
    rw [overwrite_of_length_le b a (by omega)]

theorem tornOrWhole_overwrite_left (L1 L2 c : List Char) (h : c = [] ∨ TornOrWhole L1 L2 c) :
    TornOrWhole L1 L2 (overwrite L1 c) := by
  rcases h with e | e | e | e | e <;> rw [e]
  · exact Or.inl (overwrite_nil L1)
  · exact Or.inl (overwrite_self L1)
  · exact Or.inr (Or.inr (Or.inl rfl))
  · exact Or.inr (Or.inr (Or.inl (overwrite_overwrite_same L1 L2)))
  · rcases overwrite_overwrite_other L1 L2 with e1 | e1
    · exact Or.inl e1
    · exact Or.inr (Or.inr (Or.inl e1))

theorem tornOrWhole_overwrite_right (L1 L2 c : List Char) (h : c = [] ∨ TornOrWhole L1 L2 c) :
    TornOrWhole L1 L2 (overwrite L2 c) := by
  rcases h with e | e | e | e | e <;> rw [e]
  · exact Or.inr (Or.inl (overwrite_nil L2))
  · exact Or.inr (Or.inr (Or.inr rfl))
  · exact Or.inr (Or.inl (overwrite_self L2))
  · rcases overwrite_overwrite_other L2 L1 with e1 | e1
    · exact Or.inr (Or.inl e1)
    · exact Or.inr (Or.inr (Or.inr e1))
  · exact Or.inr (Or.inr (Or.inr (overwrite_overwrite_same L2 L1)))

theorem tornOrWhole_of_length_eq (L1 L2 c : List Char) (hl : L1.length = L2.length)
    (h : TornOrWhole L1 L2 c) : c = L1 ∨ c = L2 := by
  rcases h with e | e | e | e
  · exact Or.inl e
  · exact Or.inr e
  · exact Or.inl (e.trans (overwrite_of_length_le L1 L2 (by omega)))
  · exact Or.inr (e.trans (overwrite_of_length_le L2 L1 (by omega)))

theorem resultText_nil : resultText [] = [] := rfl

theorem fopenW_same (d : Disk) (A B : Nat) : fopenW d A B A B = some [] := by
  simp [fopenW]

theorem fopenW_other (d : Disk) (A B A1 B1 : Nat) (hne : ¬ (A1 = A ∧ B1 = B)) :
    fopenW d A B A1 B1 = d A1 B1 := by
  simp [fopenW, hne]

theorem fcloseW_same (d : Disk) (A B : Nat) (buf : List Char) :
    fcloseW d A B buf A B = (d A B).map (overwrite buf) := by
  simp [fcloseW]

theorem fcloseW_other (d : Disk) (A B A1 B1 : Nat) (buf : List Char)
    (hne : ¬ (A1 = A ∧ B1 = B)) : fcloseW d A B buf A1 B1 = d A1 B1 := by
  simp [fcloseW, hne]

/-- Effect of one step of a process past the `access` test on the files: on
the other files none; on the file of the cell, it is left as it was (the
calculations), left empty (either `fopen`), or it receives the line of the
process over what it holds (`fclose`), and then the process has left the
body. -/
theorem fileStep_inv (P : Params) (X : Extern) (h : Heap) (A B : Nat) (p q : Proc)
    (d d1 : Disk) (m0 r : Mem) (hc : computeCell P X h A B m0 = some r)
    (hp : ProcAt p m0 r) (hs : fileStep P X h A B p d = some (q, d1)) :
    ProcAt q m0 r ∧
    (∀ A1 B1, ¬ (A1 = A ∧ B1 = B) → d1 A1 B1 = d A1 B1) ∧
    ((d1 A B = d A B ∧ p.stage = Stage.compute ∧ q.stage = Stage.reopen) ∨
      (d1 A B = some [] ∧ q.stage ≠ Stage.done ∧ q.stage ≠ Stage.marker) ∨
      (d1 A B = (d A B).map (overwrite (resultText (resultLine P h A B r))) ∧
        p.stage = Stage.print ∧ q.stage = Stage.done)) ∧
    q.stage ≠ Stage.marker ∧
    (q.stage = Stage.done → p.stage = Stage.print) ∧
    stepsLeft p.stage = stepsLeft q.stage + 1 := by
  obtain ⟨stage, mem⟩ := p
  rcases hp with ⟨e1, e2⟩ | ⟨e1, e2⟩ | ⟨e1, e2⟩ | ⟨e1, e2⟩ | ⟨e1, e2⟩ <;>
    simp only at e1 e2 <;> subst e1 <;> subst e2
  · simp only [fileStep, Option.some.injEq, Prod.mk.injEq] at hs
    obtain ⟨rfl, rfl⟩ := hs
    refine ⟨Or.inr (Or.inl ⟨rfl, rfl⟩), fun A1 B1 hne => ?_, Or.inr (Or.inl ⟨?_, ?_, ?_⟩), ?_,
      ?_, rfl⟩
    · rw [fcloseW_other _ _ _ _ _ _ hne, fopenW_other _ _ _ _ _ hne]
    · rw [fcloseW_same, fopenW_same]; simp [overwrite]
    · simp
    · simp
    · simp
    · simp
  · simp only [fileStep, hc, Option.map_some', Option.some.injEq, Prod.mk.injEq] at hs
    obtain ⟨rfl, rfl⟩ := hs
    refine ⟨Or.inr (Or.inr (Or.inl ⟨rfl, rfl⟩)), fun _ _ _ => rfl, Or.inl ⟨rfl, rfl, rfl⟩, ?_,
      ?_, rfl⟩
    · simp
    · simp
  · simp only [fileStep, Option.some.injEq, Prod.mk.injEq] at hs
    obtain ⟨rfl, rfl⟩ := hs
    refine ⟨Or.inr (Or.inr (Or.inr (Or.inl ⟨rfl, rfl⟩))),
      fun A1 B1 hne => fopenW_other _ _ _ _ _ hne, Or.inr (Or.inl ⟨fopenW_same _ _ _, ?_, ?_⟩),
      ?_, ?_, rfl⟩
    · simp
    · simp
    · simp
    · simp
  · simp only [fileStep, Option.some.injEq, Prod.mk.injEq] at hs
    obtain ⟨rfl, rfl⟩ := hs
    refine ⟨Or.inr (Or.inr (Or.inr (Or.inr ⟨rfl, rfl⟩))),
      fun A1 B1 hne => fcloseW_other _ _ _ _ _ _ hne,
      Or.inr (Or.inr ⟨fcloseW_same _ _ _ _, rfl, rfl⟩), ?_, ?_, rfl⟩
    · simp
    · simp
  · simp [fileStep] at hs

theorem fileStep_some (P : Params) (X : Extern) (h : Heap) (A B : Nat) (p : Proc) (d : Disk)
    (m0 r : Mem) (hc : computeCell P X h A B m0 = some r) (hp : ProcAt p m0 r)
    (hl : 0 < stepsLeft p.stage) : ∃ q d1, fileStep P X h A B p d = some (q, d1) := by
  obtain ⟨stage, mem⟩ := p
  rcases hp with ⟨e1, e2⟩ | ⟨e1, e2⟩ | ⟨e1, e2⟩ | ⟨e1, e2⟩ | ⟨e1, e2⟩ <;>
    simp only at e1 e2 <;> subst e1 <;> subst e2
  · exact ⟨_, _, rfl⟩
  · exact ⟨{ stage := Stage.reopen, mem := r }, d, by simp [fileStep, hc]⟩
  · exact ⟨_, _, rfl⟩
  · exact ⟨_, _, rfl⟩
  · simp [stepsLeft] at hl

theorem fileRaceStep_inv (P : Params) (X1 X2 : Extern) (h1 h2 : Heap) (A B : Nat) (d0 : Disk)
    (m1 m2 r1 r2 : Mem) (hc1 : computeCell P X1 h1 A B m1 = some r1)
    (hc2 : computeCell P X2 h2 A B m2 = some r2) (b : Bool) (s s1 : FileRace)
    (hi : FileRaceInv A B d0 m1 m2 r1 r2 (resultText (resultLine P h1 A B r1))
      (resultText (resultLine P h2 A B r2)) s)
    (hs : fileRaceStep P X1 X2 h1 h2 A B b s = some s1) :
    FileRaceInv A B d0 m1 m2 r1 r2 (resultText (resultLine P h1 A B r1))
      (resultText (resultLine P h2 A B r2)) s1 := by
  obtain ⟨i1, i2, i3, i4, i5, _⟩ := hi
  cases b with
  | true =>
    simp only [fileRaceStep, if_true, Option.map_eq_some'] at hs
    obtain ⟨⟨q, d1⟩, e1, e2⟩ := hs
    subst e2
    obtain ⟨k1, k2, k3, k4, _, _⟩ := fileStep_inv P X1 h1 A B s.p1 q s.disk d1 m1 r1 hc1 i2 e1
    have hsome : ∀ c, d1 A B = some c →
        (c = [] ∨ TornOrWhole (resultText (resultLine P h1 A B r1))
          (resultText (resultLine P h2 A B r2)) c) ∧
        (q.stage = Stage.done → TornOrWhole (resultText (resultLine P h1 A B r1))
          (resultText (resultLine P h2 A B r2)) c) := by
      intro c hcd
      rcases k3 with ⟨f1, _, f3⟩ | ⟨f1, f2, _⟩ | ⟨f1, _, _⟩
      · exact ⟨i4 c (f1 ▸ hcd), fun hd => by rw [f3] at hd; cases hd⟩
      · rw [f1] at hcd
        exact ⟨Or.inl (Option.some.inj hcd).symm, fun hd => absurd hd f2⟩
      · rw [f1, Option.map_eq_some'] at hcd
        obtain ⟨c0, g1, g2⟩ := hcd
        have ht := tornOrWhole_overwrite_left _ _ c0 (i4 c0 g1)
        rw [g2] at ht
        exact ⟨Or.inr ht, fun _ => ht⟩
    have hex : (d1 A B).isSome = true := by
      rcases k3 with ⟨f1, f2, _⟩ | ⟨f1, _, _⟩ | ⟨f1, f2, _⟩
      · rw [f1]; exact i5 (Or.inl (by rw [f2]; simp))
      · rw [f1]; rfl
      · have := i5 (Or.inl (by rw [f2]; simp))
        rw [f1]; simpa using this
    refine ⟨fun A1 B1 hne => (k2 A1 B1 hne).trans (i1 A1 B1 hne), k1, i3,
      fun c hcd => (hsome c hcd).1, fun _ => hex, fun hd _ => ?_⟩
    obtain ⟨c, hcd⟩ := Option.isSome_iff_exists.mp hex
    exact ⟨c, hcd, (hsome c hcd).2 hd⟩
  | false =>
    simp only [fileRaceStep, Bool.false_eq_true, if_false, Option.map_eq_some'] at hs
    obtain ⟨⟨q, d1⟩, e1, e2⟩ := hs
    subst e2
    obtain ⟨k1, k2, k3, k4, _, _⟩ := fileStep_inv P X2 h2 A B s.p2 q s.disk d1 m2 r2 hc2 i3 e1
    have hsome : ∀ c, d1 A B = some c →
        (c = [] ∨ TornOrWhole (resultText (resultLine P h1 A B r1))
          (resultText (resultLine P h2 A B r2)) c) ∧
        (q.stage = Stage.done → TornOrWhole (resultText (resultLine P h1 A B r1))
          (resultText (resultLine P h2 A B r2)) c) := by
      intro c hcd
      rcases k3 with ⟨f1, _, f3⟩ | ⟨f1, f2, _⟩ | ⟨f1, _, _⟩
      · exact ⟨i4 c (f1 ▸ hcd), fun hd => by rw [f3] at hd; cases hd⟩
      · rw [f1] at hcd
        exact ⟨Or.inl (Option.some.inj hcd).symm, fun hd => absurd hd f2⟩
      · rw [f1, Option.map_eq_some'] at hcd
        obtain ⟨c0, g1, g2⟩ := hcd
        have ht := tornOrWhole_overwrite_right _ _ c0 (i4 c0 g1)
        rw [g2] at ht
        exact ⟨Or.inr ht, fun _ => ht⟩
    have hex : (d1 A B).isSome = true := by
      rcases k3 with ⟨f1, f2, _⟩ | ⟨f1, _, _⟩ | ⟨f1, f2, _⟩
      · rw [f1]; exact i5 (Or.inr (by rw [f2]; simp))
      · rw [f1]; rfl
      · have := i5 (Or.inr (by rw [f2]; simp))
        rw [f1]; simpa using this
    refine ⟨fun A1 B1 hne => (k2 A1 B1 hne).trans (i1 A1 B1 hne), i2, k1,
      fun c hcd => (hsome c hcd).1, fun _ => hex, fun _ hd => ?_⟩
    obtain ⟨c, hcd⟩ := Option.isSome_iff_exists.mp hex
    exact ⟨c, hcd, (hsome c hcd).2 hd⟩

theorem fileRaceRun_inv (P : Params) (X1 X2 : Extern) (h1 h2 : Heap) (A B : Nat) (d0 : Disk)
    (m1 m2 r1 r2 : Mem) (hc1 : computeCell P X1 h1 A B m1 = some r1)
    (hc2 : computeCell P X2 h2 A B m2 = some r2) :
    ∀ (sched : List Bool) (s s1 : FileRace),
      FileRaceInv A B d0 m1 m2 r1 r2 (resultText (resultLine P h1 A B r1))
        (resultText (resultLine P h2 A B r2)) s →
      fileRaceRun P X1 X2 h1 h2 A B sched s = some s1 →
      FileRaceInv A B d0 m1 m2 r1 r2 (resultText (resultLine P h1 A B r1))
        (resultText (resultLine P h2 A B r2)) s1 := by
  intro sched
  induction sched with
  | nil =>
    intro s s1 hi hr
    have e : s = s1 := Option.some.inj hr
    rw [← e]; exact hi
  | cons b rest ih =>
    intro s s1 hi hr
    simp only [fileRaceRun, Option.bind_eq_some] at hr
    obtain ⟨s2, e1, e2⟩ := hr
    exact ih s2 s1 (fileRaceStep_inv P X1 X2 h1 h2 A B d0 m1 m2 r1 r2 hc1 hc2 b s s2 hi e1) e2

theorem fileRaceRun_complete (P : Params) (X1 X2 : Extern) (h1 h2 : Heap) (A B : Nat)
    (d0 : Disk) (m1 m2 r1 r2 : Mem) (hc1 : computeCell P X1 h1 A B m1 = some r1)
    (hc2 : computeCell P X2 h2 A B m2 = some r2) :
    ∀ (sched : List Bool) (s : FileRace),
      FileRaceInv A B d0 m1 m2 r1 r2 (resultText (resultLine P h1 A B r1))
        (resultText (resultLine P h2 A B r2)) s →
      sched.count true = stepsLeft s.p1.stage → sched.count false = stepsLeft s.p2.stage →
      ∃ s1, fileRaceRun P X1 X2 h1 h2 A B sched s = some s1 ∧
        s1.p1.stage = Stage.done ∧ s1.p2.stage = Stage.done := by
  intro sched
  induction sched with
  | nil =>
    intro s hi c1 c2
    exact ⟨s, rfl, stepsLeft_zero s.p1 m1 r1 hi.2.1 (by simpa using c1.symm),
      stepsLeft_zero s.p2 m2 r2 hi.2.2.1 (by simpa using c2.symm)⟩
  | cons b rest ih =>
    intro s hi c1 c2
    cases b with
    | true =>
      rw [List.count_cons_self] at c1
      rw [List.count_cons_of_ne (by decide)] at c2
      obtain ⟨q, d1, e⟩ := fileStep_some P X1 h1 A B s.p1 s.disk m1 r1 hc1 hi.2.1 (by omega)
      have hstep : fileRaceStep P X1 X2 h1 h2 A B true s
          = some { p1 := q, p2 := s.p2, disk := d1 } := by
        simp [fileRaceStep, e]
      have hl := (fileStep_inv P X1 h1 A B s.p1 q s.disk d1 m1 r1 hc1 hi.2.1 e).2.2.2.2.2
      obtain ⟨s1, f1, f2, f3⟩ := ih { p1 := q, p2 := s.p2, disk := d1 }
        (fileRaceStep_inv P X1 X2 h1 h2 A B d0 m1 m2 r1 r2 hc1 hc2 true s _ hi hstep)
        (by simp only; omega) c2
      exact ⟨s1, by simp [fileRaceRun, hstep, f1], f2, f3⟩
    | false =>
      rw [List.count_cons_self] at c2
      rw [List.count_cons_of_ne (by decide)] at c1
      obtain ⟨q, d1, e⟩ := fileStep_some P X2 h2 A B s.p2 s.disk m2 r2 hc2 hi.2.2.1 (by omega)
      have hstep : fileRaceStep P X1 X2 h1 h2 A B false s
          = some { p1 := s.p1, p2 := q, disk := d1 } := by
        simp [fileRaceStep, e]
      have hl := (fileStep_inv P X2 h2 A B s.p2 q s.disk d1 m2 r2 hc2 hi.2.2.1 e).2.2.2.2.2
      obtain ⟨s1, f1, f2, f3⟩ := ih { p1 := s.p1, p2 := q, disk := d1 }
        (fileRaceStep_inv P X1 X2 h1 h2 A B d0 m1 m2 r1 r2 hc1 hc2 false s _ hi hstep)
        c1 (by simp only; omega)
      exact ⟨s1, by simp [fileRaceRun, hstep, f1], f2, f3⟩

/-- A process alone in the body of a cell leaves in the file the text of the
entry that `visitCell` leaves in the store, and the same arrays. -/
theorem fileStep_alone_agrees_with_visitCell (P : Params) (X1 X2 : Extern) (h1 h2 : Heap)
    (A B : Nat) (w : World) (p2 : Proc) :
    ((w.store A B).isSome = true →
      visitCell P X1 h1 A B w = some w ∧
      fileRaceRun P X1 X2 h1 h2 A B [true]
          { p1 := { stage := Stage.check, mem := w.mem }, p2 := p2, disk := textOf w.store }
        = some { p1 := { stage := Stage.done, mem := w.mem }, p2 := p2,
                 disk := textOf w.store }) ∧
    (w.store A B = none → ∀ r, computeCell P X1 h1 A B w.mem = some r →
      ∃ w1 s1, visitCell P X1 h1 A B w = some w1 ∧
        fileRaceRun P X1 X2 h1 h2 A B [true, true, true, true, true]
            { p1 := { stage := Stage.check, mem := w.mem }, p2 := p2, disk := textOf w.store }
          = some s1 ∧
        s1.p1 = { stage := Stage.done, mem := w1.mem } ∧ s1.p2 = p2 ∧
        ∀ A1 B1, s1.disk A1 B1 = textOf w1.store A1 B1) := by
  constructor
  · intro hp
    exact ⟨visitCell_present P X1 h1 A B w hp,
      by simp [fileRaceRun, fileRaceStep, fileStep, textOf, hp]⟩
  · intro hp r hc
    refine ⟨_, { p1 := { stage := Stage.done, mem := r }, p2 := p2,
                 disk := fcloseW (fopenW (fcloseW (fopenW (textOf w.store) A B) A B []) A B)
                   A B (resultText (resultLine P h1 A B r)) },
      visitCell_absent P X1 h1 A B w hp r hc,
      by simp [fileRaceRun, fileRaceStep, fileStep, textOf, hp, hc], rfl, rfl,
      fun A1 B1 => ?_⟩
    by_cases hk : A1 = A ∧ B1 = B <;>
      simp [writeFile, fcloseW, fopenW, textOf, overwrite, hk]

/-- The schedule in which each `access` test, each blank file, each
calculation and each `fopen` for the results of the two processes comes before
the first `fclose` of a result stream: the second line is written over the
first one. -/
theorem fileRaceRun_overlapping (P : Params) (X1 X2 : Extern) (h1 h2 : Heap) (A B : Nat)
    (d : Disk) (m1 m2 r1 r2 : Mem) (hc1 : computeCell P X1 h1 A B m1 = some r1)
    (hc2 : computeCell P X2 h2 A B m2 = some r2) (habs : d A B = none) :
    fileRaceRun P X1 X2 h1 h2 A B
        [true, false, true, false, true, false, true, false, true, false]
        { p1 := { stage := Stage.check, mem := m1 }, p2 := { stage := Stage.check, mem := m2 },
          disk := d }
      = some { p1 := { stage := Stage.done, mem := r1 }, p2 := { stage := Stage.done, mem := r2 },
               disk := fcloseW (fcloseW (fopenW (fopenW
                   (fcloseW (fopenW (fcloseW (fopenW d A B) A B []) A B) A B []) A B) A B) A B
                   (resultText (resultLine P h1 A B r1))) A B
                   (resultText (resultLine P h2 A B r2)) } ∧
    fcloseW (fcloseW (fopenW (fopenW
        (fcloseW (fopenW (fcloseW (fopenW d A B) A B []) A B) A B []) A B) A B) A B
        (resultText (resultLine P h1 A B r1))) A B (resultText (resultLine P h2 A B r2)) A B
      = some (overwrite (resultText (resultLine P h2 A B r2))
          (resultText (resultLine P h1 A B r1))) := by
  constructor
  · simp [fileRaceRun, fileRaceStep, fileStep, habs, hc1, hc2]
  · simp [fcloseW, fopenW, overwrite]

/-- Race on the files of one cell, for every schedule.  Both `access` tests, in
either order, find the file absent and both processes go on.  From there, under
every interleaving of their steps, no other file changes, and once both have
left the body each holds the arrays of its own calculation and the file holds
the line of one of them or one line written over the other; it is the whole
line of one of them when the two lines have the same number of characters.
Every schedule giving each process its four steps runs to that end. -/
theorem race_final_text (P : Params) (X1 X2 : Extern) (h1 h2 : Heap) (A B : Nat)
    (d : Disk) (m1 m2 : Mem) (hX1 : UniformStream X1) (hX2 : UniformStream X2)
    (habs : d A B = none) :
    ∃ r1 r2, computeCell P X1 h1 A B m1 = some r1 ∧ computeCell P X2 h2 A B m2 = some r2 ∧
      (∀ b : Bool, fileRaceRun P X1 X2 h1 h2 A B [b, !b]
          { p1 := { stage := Stage.check, mem := m1 },
            p2 := { stage := Stage.check, mem := m2 }, disk := d }
        = some { p1 := { stage := Stage.marker, mem := m1 },
                 p2 := { stage := Stage.marker, mem := m2 }, disk := d }) ∧
      (∀ (sched : List Bool) (s1 : FileRace),
        fileRaceRun P X1 X2 h1 h2 A B sched
          { p1 := { stage := Stage.marker, mem := m1 },
            p2 := { stage := Stage.marker, mem := m2 }, disk := d } = some s1 →
        (∀ A1 B1, ¬ (A1 = A ∧ B1 = B) → s1.disk A1 B1 = d A1 B1) ∧
        (s1.p1.stage = Stage.done → s1.p2.stage = Stage.done →
          s1.p1.mem = r1 ∧ s1.p2.mem = r2 ∧
          ∃ c, s1.disk A B = some c ∧
            TornOrWhole (resultText (resultLine P h1 A B r1))
              (resultText (resultLine P h2 A B r2)) c ∧
            ((resultText (resultLine P h1 A B r1)).length
                = (resultText (resultLine P h2 A B r2)).length →
              c = resultText (resultLine P h1 A B r1) ∨
              c = resultText (resultLine P h2 A B r2)))) ∧
      (∀ sched : List Bool, sched.count true = 4 → sched.count false = 4 →
        ∃ s1, fileRaceRun P X1 X2 h1 h2 A B sched
            { p1 := { stage := Stage.marker, mem := m1 },
              p2 := { stage := Stage.marker, mem := m2 }, disk := d } = some s1 ∧
          s1.p1.stage = Stage.done ∧ s1.p2.stage = Stage.done) := by
  obtain ⟨r1, hc1⟩ := computeCell_some P X1 h1 A B hX1 m1
  obtain ⟨r2, hc2⟩ := computeCell_some P X2 h2 A B hX2 m2
  have hstart : FileRaceInv A B d m1 m2 r1 r2 (resultText (resultLine P h1 A B r1))
      (resultText (resultLine P h2 A B r2))
      { p1 := { stage := Stage.marker, mem := m1 },
        p2 := { stage := Stage.marker, mem := m2 }, disk := d } :=
    ⟨fun _ _ _ => rfl, Or.inl ⟨rfl, rfl⟩, Or.inl ⟨rfl, rfl⟩,
      fun c hcd => by simp [habs] at hcd, fun hd => by simp at hd, fun hd => by simp at hd⟩
  refine ⟨r1, r2, hc1, hc2, fun b => ?_, fun sched s1 hr => ?_, fun sched c1 c2 => ?_⟩
  · cases b <;> simp [fileRaceRun, fileRaceStep, fileStep, habs]
  · obtain ⟨i1, i2, i3, _, _, i6⟩ := fileRaceRun_inv P X1 X2 h1 h2 A B d m1 m2 r1 r2 hc1 hc2
      sched _ s1 hstart hr
    refine ⟨i1, fun d1 d2 => ⟨procAt_done _ m1 r1 i2 d1, procAt_done _ m2 r2 i3 d2, ?_⟩⟩
    obtain ⟨c, g1, g2⟩ := i6 d1 d2
    exact ⟨c, g1, g2, fun hl => tornOrWhole_of_length_eq _ _ c hl g2⟩
  · exact fileRaceRun_complete P X1 X2 h1 h2 A B d m1 m2 r1 r2 hc1 hc2 sched _ hstart c1 c2

theorem roundHalfEven_intCast (n : ℤ) : roundHalfEven (n : ℚ) = n := by
  simp [roundHalfEven]

theorem fmtF_natCast (k : Nat) :
    fmtF (k : ℚ) = Nat.toDigits 10 k ++ ['.', '0', '0', '0', '0', '0', '0'] := by
  have h : (roundHalfEven (|(k : ℚ)| * 1000000)).toNat = k * 1000000 := by
    have e : |(k : ℚ)| * 1000000 = ((k * 1000000 : ℤ) : ℚ) := by
      rw [abs_of_nonneg (by positivity)]; push_cast; ring
    rw [e, roundHalfEven_intCast]
    norm_cast
  have hneg : ¬ ((k : ℚ) < 0) := not_lt.mpr (by positivity)
  simp only [fmtF, h, if_neg hneg, Nat.mul_div_cancel _ (by norm_num : 0 < 1000000),
    Nat.mul_mod_left, sixDigits]
  simp
  decide

theorem fmtF_zero : fmtF 0 = "0.000000".toList := by
  have h := fmtF_natCast 0
  simp only [Nat.cast_zero] at h
  rw [h]; decide

theorem fmtF_one : fmtF 1 = "1.000000".toList := by
  have h := fmtF_natCast 1
  simp only [Nat.cast_one] at h
  rw [h]; decide

theorem fmtF_billion : fmtF 1000000000 = "1000000000.000000".toList := by
  have h := fmtF_natCast 1000000000
  simp only [Nat.cast_ofNat] at h
  rw [h]; decide

theorem tiny_cell (m0 q0 : ℚ) :
    ∃ r, computeCell tinyParams zeroExtern (staleHeap m0 q0) 0 0 (initialMem (staleHeap m0 q0))
        = some r ∧
      resultLine tinyParams (staleHeap m0 q0) 0 0 r = [0, 0, 0, 0, q0 + 1, |m0 + -1|, 0] := by
  have hs := tiny_sizes
  simp only [computeCell, slotOf, hs.1, hs.2, confLoop, forUpToM, resultLine, muAt, sdAt,
    paramArray]
  simp [confBody, sweeps, sampling, sampleColumn, sweep, proposedUpdate, chosenSite, truncToInt,
    deltaE, effectiveField, forUpTo, forUpToM, JArr, fillInteractions, fillRow, forFromTo,
    fillEntry, cellInit, initialMem, tinyParams, zeroExtern, staleHeap, finalize, slotOf,
    magSgop, timeSum, SSArr, recordColumn, susceptSums, covAccumulate, covEntry, cov,
    covSums, energySums, energy, memsetZero]

theorem tiny_text_long :
    resultText [0, 0, 0, 0, 1000000000, 1, 0]
      = "0.000000\t0.000000\t0.000000\t0.000000\t1000000000.000000\t1.000000\t0.000000".toList := by
  simp only [resultText, List.map, fmtF_zero, fmtF_one, fmtF_billion]
  decide

theorem tiny_text_short :
    resultText [0, 0, 0, 0, 1, 1, 0]
      = "0.000000\t0.000000\t0.000000\t0.000000\t1.000000\t1.000000\t0.000000".toList := by
  simp only [resultText, List.map, fmtF_zero, fmtF_one]
  decide

/-- Claim C12 fails on the code: the result line is sent to the file from
position 0 of a stream opened with `fopen(fname,"w")`, and the file is emptied
when the stream is opened, not when the line is written.  On the one-cell
instance, the first process working on recycled memory that holds `999999999`
in the block of `q` and the second on cleared memory, both `access` tests find
the file absent, both processes create the blank file, compute the cell and
open the file for the results, the first then prints and closes (71
characters) and the second prints and closes (62 characters): both have left
the body and the file holds the line of the second followed by the last nine
characters of the line of the first, eight fields, which is the line of
neither. -/
theorem race_leaves_torn_file :
    ∃ s1, fileRaceRun tinyParams zeroExtern zeroExtern (staleHeap 0 999999999) (staleHeap 0 0)
        0 0 [true, false, true, false, true, false, true, false, true, false]
        { p1 := { stage := Stage.check, mem := initialMem (staleHeap 0 999999999) },
          p2 := { stage := Stage.check, mem := initialMem (staleHeap 0 0) },
          disk := fun _ _ => none } = some s1 ∧
      s1.p1.stage = Stage.done ∧ s1.p2.stage = Stage.done ∧
      resultText (resultLine tinyParams (staleHeap 0 999999999) 0 0 s1.p1.mem)
        = "0.000000\t0.000000\t0.000000\t0.000000\t1000000000.000000\t1.000000\t0.000000".toList ∧
      resultText (resultLine tinyParams (staleHeap 0 0) 0 0 s1.p2.mem)
        = "0.000000\t0.000000\t0.000000\t0.000000\t1.000000\t1.000000\t0.000000".toList ∧
      s1.disk 0 0 = some
        "0.000000\t0.000000\t0.000000\t0.000000\t1.000000\t1.000000\t0.000000\t0.000000".toList ∧
      s1.disk 0 0 ≠ some (resultText (resultLine tinyParams (staleHeap 0 999999999) 0 0 s1.p1.mem)) ∧
      s1.disk 0 0 ≠ some (resultText (resultLine tinyParams (staleHeap 0 0) 0 0 s1.p2.mem)) := by
  obtain ⟨r1, hc1, hl1⟩ := tiny_cell 0 999999999
  obtain ⟨r2, hc2, hl2⟩ := tiny_cell 0 0
  have e1 : resultText (resultLine tinyParams (staleHeap 0 999999999) 0 0 r1)
      = "0.000000\t0.000000\t0.000000\t0.000000\t1000000000.000000\t1.000000\t0.000000".toList := by
    rw [hl1, ← tiny_text_long]; norm_num
  have e2 : resultText (resultLine tinyParams (staleHeap 0 0) 0 0 r2)
      = "0.000000\t0.000000\t0.000000\t0.000000\t1.000000\t1.000000\t0.000000".toList := by
    rw [hl2, ← tiny_text_short]; norm_num
  obtain ⟨hrun, hdisk⟩ := fileRaceRun_overlapping tinyParams zeroExtern zeroExtern
    (staleHeap 0 999999999) (staleHeap 0 0) 0 0 (fun _ _ => none)
    (initialMem (staleHeap 0 999999999)) (initialMem (staleHeap 0 0)) r1 r2 hc1 hc2 rfl
  have htorn : overwrite (resultText (resultLine tinyParams (staleHeap 0 0) 0 0 r2))
      (resultText (resultLine tinyParams (staleHeap 0 999999999) 0 0 r1))
      = "0.000000\t0.000000\t0.000000\t0.000000\t1.000000\t1.000000\t0.000000\t0.000000".toList := by
    rw [e1, e2]; decide
  rw [htorn] at hdisk
  have hn1 : (some
      "0.000000\t0.000000\t0.000000\t0.000000\t1.000000\t1.000000\t0.000000\t0.000000".toList
        : Option (List Char))
      ≠ some (resultText (resultLine tinyParams (staleHeap 0 999999999) 0 0 r1)) := by
    rw [e1]; decide
  have hn2 : (some
      "0.000000\t0.000000\t0.000000\t0.000000\t1.000000\t1.000000\t0.000000\t0.000000".toList
        : Option (List Char))
      ≠ some (resultText (resultLine tinyParams (staleHeap 0 0) 0 0 r2)) := by
    rw [e2]; decide
  exact ⟨_, hrun, rfl, rfl, e1, e2, hdisk, fun h => hn1 (hdisk.symm.trans h),
    fun h => hn2 (hdisk.symm.trans h)⟩

end SKModel
